import Mathlib

/-!
# Verification of the activepieces flow-graph transformation engine

This file gives a shallow embedding of the flow engine found in the
repository (the `flowHelper` module: step model, traversal, `transfer`
rewrites, the operation handlers behind `flowHelper.apply`, the
import-operation generator, and the normalization / piece-version
upgrade pass), and proves or refutes the specification claims about it.

External collaborators of the engine (the schema validator, the semver
comparator, the sample-data default settings, `emptyCondition`) are not
part of the repository sources; they are modelled from the spec where
needed, and marked as such.
-/

namespace FlowEngine

/-- The four step kinds that carry no structural child slots:
`TriggerType.EMPTY`, `TriggerType.PIECE`, `ActionType.CODE`,
`ActionType.PIECE`. -/
inductive LeafType where
  | triggerEmpty
  | triggerPiece
  | actionCode
  | actionPiece
  deriving DecidableEq, Repr

/-- `BranchExecutionType` of a router branch. -/
inductive BranchExecutionType where
  | condition
  | fallback
  deriving DecidableEq, Repr

/-- Modelled from the spec: a condition inside a router branch.
`emptyCondition` is imported by the engine from `actions/action`, which is
outside the repository sources; only its identity matters here, so
conditions are an abstract type with a distinguished empty element. -/
inductive BranchCondition where
  | empty
  | custom (id : Nat)
  deriving DecidableEq, Repr

/-- One entry of a router's `settings.branches`:
`{conditions, branchType, branchName}`. -/
structure RouterBranchMeta where
  conditions : List (List BranchCondition)
  branchType : BranchExecutionType
  branchName : String
  deriving DecidableEq, Repr

/-- `createEmptyBranch(pathNumber)` from the source: a fresh condition
branch named `"Branch <pathNumber>"` with a single empty condition. -/
def createEmptyBranch (pathNumber : Nat) : RouterBranchMeta :=
  { conditions := [[BranchCondition.empty]]
    branchType := BranchExecutionType.condition
    branchName := "Branch " ++ toString pathNumber }

/-- Sample-data metadata (`settings.inputUiInfo`). -/
structure SampleDataSettings where
  currentSelectedData : Option String
  sampleDataFileId : Option String
  lastTestDate : Option String
  deriving DecidableEq, Repr

/-- Modelled from the spec: `DEFAULT_SAMPLE_DATA_SETTINGS` is imported
from `./sample-data`, which is outside the repository sources; per the
spec, normalization resets `inputUiInfo` to the default in which
`current_selected_data`, `sample_data_file_id` and `last_test_date` are
cleared. -/
def DEFAULT_SAMPLE_DATA_SETTINGS : SampleDataSettings :=
  { currentSelectedData := none, sampleDataFileId := none, lastTestDate := none }

/-- The step settings fields the engine reads or writes.  In the source
`settings` is a kind-specific record; this model carries the union of the
fields the engine touches (`pieceName`, `pieceVersion`, `input.auth`,
`inputUiInfo`, router `branches`) plus opaque residues for the rest of
`settings.input` and of the kind-specific configuration, which the engine
moves around but never inspects. -/
structure StepSettings where
  pieceName : String
  pieceVersion : String
  inputAuth : Option String
  inputRest : Nat
  inputUiInfo : Option SampleDataSettings
  branches : List RouterBranchMeta
  settingsRest : Nat
  deriving DecidableEq, Repr

/-- The fields common to every step: `name`, `displayName`, `valid`,
`settings`. -/
structure StepCore where
  name : String
  displayName : String
  valid : Bool
  settings : StepSettings
  deriving DecidableEq, Repr

/-- A step of a flow (`Action | Trigger` in the source): a tagged variant
with a `nextAction` pointer and, for the three composite kinds, structural
child slots (`firstLoopAction`; `onSuccessAction`/`onFailureAction`;
router `children`). -/
inductive FStep where
  | simple (t : LeafType) (core : StepCore) (nextAction : Option FStep)
  | loopOnItems (core : StepCore) (firstLoopAction : Option FStep)
      (nextAction : Option FStep)
  | branch (core : StepCore) (onSuccessAction : Option FStep)
      (onFailureAction : Option FStep) (nextAction : Option FStep)
  | router (core : StepCore) (children : List (Option FStep))
      (nextAction : Option FStep)

/-- The `state` of a flow version. -/
inductive FlowVersionState where
  | draft
  | locked
  deriving DecidableEq, Repr

/-- A flow version: `{displayName, state, trigger, valid}`. -/
structure FlowVersion where
  displayName : String
  state : FlowVersionState
  trigger : FStep
  valid : Bool

namespace FStep

/-- The common fields of a step. -/
def core : FStep → StepCore
  | .simple _ c _ => c
  | .loopOnItems c _ _ => c
  | .branch c _ _ _ => c
  | .router c _ _ => c

/-- The `name` of a step. -/
def name (s : FStep) : String := s.core.name

/-- The `valid` flag of a step. -/
def valid (s : FStep) : Bool := s.core.valid

/-- The `settings` of a step. -/
def settings (s : FStep) : StepSettings := s.core.settings

/-- The `nextAction` pointer of a step. -/
def next : FStep → Option FStep
  | .simple _ _ nx => nx
  | .loopOnItems _ _ nx => nx
  | .branch _ _ _ nx => nx
  | .router _ _ nx => nx

/-- Replace the `nextAction` pointer of a step. -/
def withNext (s : FStep) (nx : Option FStep) : FStep :=
  match s with
  | .simple t c _ => .simple t c nx
  | .loopOnItems c b _ => .loopOnItems c b nx
  | .branch c os f _ => .branch c os f nx
  | .router c ch _ => .router c ch nx

/-- `isAction(step.type)`: the step's type is one of the `ActionType`s. -/
def isAction : FStep → Bool
  | .simple .actionCode _ _ => true
  | .simple .actionPiece _ _ => true
  | .simple .triggerEmpty _ _ => false
  | .simple .triggerPiece _ _ => false
  | .loopOnItems _ _ _ => true
  | .branch _ _ _ _ => true
  | .router _ _ _ => true

/-- `isTrigger(step.type)`: the step's type is one of the `TriggerType`s. -/
def isTrigger : FStep → Bool
  | .simple .triggerEmpty _ _ => true
  | .simple .triggerPiece _ _ => true
  | _ => false

/-- The step's type is `ActionType.PIECE` or `TriggerType.PIECE`. -/
def isPieceType : FStep → Bool
  | .simple .actionPiece _ _ => true
  | .simple .triggerPiece _ _ => true
  | _ => false

end FStep

/-! ## Traversal primitives -/


mutual

/-- `traverseInternal(step)`: DFS enumeration starting at `step`.  The
source pushes the node, then (per kind) the traversals of its structural
children — `onSuccessAction` then `onFailureAction` for a branch, the
`children` in index order for a router, `firstLoopAction` for a loop —
and then continues the `while` loop with `nextAction`. -/
def traverseStep : FStep → List FStep
  | .simple t c nx => .simple t c nx :: traverseOpt nx
  | .loopOnItems c b nx => .loopOnItems c b nx :: (traverseOpt b ++ traverseOpt nx)
  | .branch c os f nx =>
      .branch c os f nx :: (traverseOpt os ++ traverseOpt f ++ traverseOpt nx)
  | .router c ch nx => .router c ch nx :: (traverseChildren ch ++ traverseOpt nx)

/-- DFS enumeration of an optional step (`undefined`/`null` yields
nothing). -/
def traverseOpt : Option FStep → List FStep
  | none => []
  | some s => traverseStep s

/-- DFS enumeration of a router's `children`, flattened in index order. -/
def traverseChildren : List (Option FStep) → List FStep
  | [] => []
  | c :: cs => traverseOpt c ++ traverseChildren cs

end

/-- `getAllSteps(trigger)` = `traverseInternal(trigger)`. -/
def getAllSteps (root : FStep) : List FStep := traverseStep root

/-- The names of every step reachable from `root`, in DFS order. -/
def stepNames (root : FStep) : List String := (traverseStep root).map FStep.name

/-- `getStep(flowVersion, stepName)`: first step in the DFS enumeration of
the trigger whose `name` matches. -/
def getStep (fv : FlowVersion) (stepName : String) : Option FStep :=
  (getAllSteps fv.trigger).find? (fun s => s.name = stepName)

/-- `isValid(flowVersion)`: the conjunction of the `valid` flags of all
steps reachable from the trigger. -/
def isValidF (fv : FlowVersion) : Bool :=
  ((getAllSteps fv.trigger).map FStep.valid).all (fun b => b)

/-! ## Errors -/


/-- The failures the engine can raise.
* `flowOperationInvalid`: an `ActivepiecesError` with code
  `FLOW_OPERATION_INVALID` and the given message.
* `jsonSyntaxError`: the `SyntaxError` raised by
  `JSON.parse(JSON.stringify(undefined))` when a clone of a missing value
  is attempted (as in `duplicateStep` on an unknown step name).
* `semverInvalidVersion`: the `TypeError` raised by `semver.lt` when fed a
  version string that is not valid semver (reachable through
  `isLegacyApp`).
* `uninitializedAction`: the `ReferenceError` that `createAction` /
  `createTrigger` would hit if the request's `type` matched none of the
  switch cases (unreachable under the source's typing).
* `stepNotFound`: the plain `Error("step with name '<name>' not found")`
  thrown by `duplicateRouterChild` when the router is missing.
* `typeErrorUndefined`: the `TypeError` of indexing into the `children`
  of a step that has none (reachable when `DUPLICATE_BRANCH` names a
  non-router step). -/
inductive FlowError where
  | flowOperationInvalid (message : String)
  | jsonSyntaxError
  | semverInvalidVersion
  | uninitializedAction
  | stepNotFound (name : String)
  | typeErrorUndefined
  deriving DecidableEq, Repr

/-! ## createAction -/


/-- Modelled from the spec: the step schema validator
(`TypeCompiler.Compile(SingleActionSchema)`) is an external collaborator
of the engine, not part of the repository sources.  It is abstracted as
constantly true; no theorem in this development depends on its verdict. -/
def actionSchemaCheck (_ : FStep) : Bool := true

/-- `StepLocationRelativeToParent`. -/
inductive StepLocation where
  | after
  | insideLoop
  | insideTrueBranch
  | insideFalseBranch
  | insideBranch
  deriving DecidableEq, Repr

/-- The string value of a `StepLocationRelativeToParent` member (used in
error messages). -/
def locName : StepLocation → String
  | .after => "AFTER"
  | .insideLoop => "INSIDE_LOOP"
  | .insideTrueBranch => "INSIDE_TRUE_BRANCH"
  | .insideFalseBranch => "INSIDE_FALSE_BRANCH"
  | .insideBranch => "INSIDE_BRANCH"

/-- An `AddActionRequest`: the parent step name, the optional location,
the optional router branch index and name, and the action payload.  The
payload is carried as a step value; `createAction` only reads its type,
`name`, `displayName`, `valid` and `settings` (structural slots of the
payload are discarded and rebuilt from the insertion context). -/
structure AddActionRequest where
  parentStep : String
  stepLocationRelativeToParent : Option StepLocation
  branchIndex : Option Nat
  branchName : Option String
  action : FStep

/-- `createAction(request, {nextAction, onFailureAction, onSuccessAction,
firstLoopAction, children})`.  Builds a fresh action of the request's
type: base properties from the request with `valid: false`, structural
slots from the context only (a router's `children` defaults to
`[null, null]`), and finally `valid` recomputed as the request's `valid`
(the payload's flag is a required boolean here, so the source's `isNil`
default does not fire) AND the schema check of the built action.  A
trigger-typed request matches no switch case: the source would then read
the uninitialized `action` local, modelled as an error. -/
def createActionF (payload : FStep) (nextAction : Option FStep)
    (onSuccessAction onFailureAction firstLoopAction : Option FStep)
    (children : Option (List (Option FStep))) : Except FlowError FStep :=
  let base : StepCore := { payload.core with valid := false }
  let action? : Except FlowError FStep :=
    match payload with
    | .branch _ _ _ _ =>
        .ok (.branch base onSuccessAction onFailureAction nextAction)
    | .router _ _ _ =>
        .ok (.router base (children.getD [none, none]) nextAction)
    | .loopOnItems _ _ _ =>
        .ok (.loopOnItems base firstLoopAction nextAction)
    | .simple .actionPiece _ _ => .ok (.simple .actionPiece base nextAction)
    | .simple .actionCode _ _ => .ok (.simple .actionCode base nextAction)
    | .simple .triggerEmpty _ _ => .error .uninitializedAction
    | .simple .triggerPiece _ _ => .error .uninitializedAction
  action?.map (fun a =>
    match a with
    | .simple t c nx =>
        .simple t { c with valid := payload.core.valid && actionSchemaCheck a } nx
    | .loopOnItems c b nx =>
        .loopOnItems { c with valid := payload.core.valid && actionSchemaCheck a } b nx
    | .branch c os f nx =>
        .branch { c with valid := payload.core.valid && actionSchemaCheck a } os f nx
    | .router c ch nx =>
        .router { c with valid := payload.core.valid && actionSchemaCheck a } ch nx)

/-! ## DELETE_ACTION -/


mutual

/-- `transferStep` applied with the `deleteAction` callback: at every
node, a structural slot or `next` pointer whose head is named `n` is
replaced by that head's `nextAction`, and the rewrite then recurses into
the updated slots. -/
def delStep (n : String) : FStep → FStep
  | .simple t c nx => .simple t c (delOpt n nx)
  | .loopOnItems c b nx => .loopOnItems c (delOpt n b) (delOpt n nx)
  | .branch c os f nx => .branch c (delOpt n os) (delOpt n f) (delOpt n nx)
  | .router c ch nx => .router c (delChildren n ch) (delOpt n nx)

/-- Slot processing for `deleteAction`: splice out a head named `n`
(replacing it by its `nextAction`, without re-examining the new head),
then recurse into the updated slot; a head with a different name is kept
and rewritten by `delStep` (whose four cases are unfolded here so that
the recursion stays structural). -/
def delOpt (n : String) : Option FStep → Option FStep
  | none => none
  | some (.simple t c nx) =>
      if c.name = n then delTail n nx
      else some (.simple t c (delOpt n nx))
  | some (.loopOnItems c b nx) =>
      if c.name = n then delTail n nx
      else some (.loopOnItems c (delOpt n b) (delOpt n nx))
  | some (.branch c os f nx) =>
      if c.name = n then delTail n nx
      else some (.branch c (delOpt n os) (delOpt n f) (delOpt n nx))
  | some (.router c ch nx) =>
      if c.name = n then delTail n nx
      else some (.router c (delChildren n ch) (delOpt n nx))

/-- The spliced-in remainder of a deleted head: its `nextAction`, itself
rewritten (the new head is not re-examined for deletion). -/
def delTail (n : String) : Option FStep → Option FStep
  | none => none
  | some s2 => some (delStep n s2)

/-- `deleteAction`'s rewrite of a router's `children`
(`child.nextAction ?? null` for a child named `n`). -/
def delChildren (n : String) : List (Option FStep) → List (Option FStep)
  | [] => []
  | c :: cs => delOpt n c :: delChildren n cs

end

/-- `deleteAction(flowVersion, request)`: `transferFlow` with the
splicing callback.  The flow is deep-cloned by `transferFlow`; in this
pure model the clone is the identity. -/
def deleteActionF (fv : FlowVersion) (n : String) : FlowVersion :=
  { fv with trigger := delStep n fv.trigger }

/-! ## ADD_ACTION

`addAction(flowVersion, request, children?)` is `transferFlow` with a
callback that fires at every node whose name is `request.parentStep`,
rewiring one slot of that node to a freshly `createAction`-ed step whose
`nextAction` is the slot's previous content; the rewrite then recurses
into the updated node, processing the inserted step's `nextAction` (its
previous slot content).  The model attaches the created step with its
`nextAction` already processed, which coincides with the source whenever
the payload's name differs from `parentStep` (when they coincide the
source recursion never terminates); carried router `children` are
attached as given (in the source they are traversed again, which is
likewise only observable when they contain a step named `parentStep`). -/


mutual

/-- Node processing for `addAction`: fire the insertion callback when the
node is named `request.parentStep`, then recurse into the (updated)
slots. -/
def addStepE (req : AddActionRequest) (ctx : Option (List (Option FStep))) :
    FStep → Except FlowError FStep
  | .simple t c nx =>
      if c.name = req.parentStep then do
        -- a leaf parent matches no composite guard: the final else inserts AFTER
        let made ← createActionF req.action nx none none none ctx
        let nx' ← addOptE req ctx nx
        pure (.simple t c (some (made.withNext nx')))
      else do
        let nx' ← addOptE req ctx nx
        pure (.simple t c nx')
  | .loopOnItems c b nx =>
      if c.name = req.parentStep then
        match req.stepLocationRelativeToParent with
        | some .insideLoop => do
            let made ← createActionF req.action b none none none ctx
            let b' ← addOptE req ctx b
            let nx' ← addOptE req ctx nx
            pure (.loopOnItems c (some (made.withNext b')) nx')
        | some .after => do
            let made ← createActionF req.action nx none none none ctx
            let b' ← addOptE req ctx b
            let nx' ← addOptE req ctx nx
            pure (.loopOnItems c b' (some (made.withNext nx')))
        | some loc =>
            .error (.flowOperationInvalid
              ("Loop step parent " ++ locName loc ++ " not found"))
        | none => do
            -- location absent: the loop guard fails and the final else inserts AFTER
            let made ← createActionF req.action nx none none none ctx
            let b' ← addOptE req ctx b
            let nx' ← addOptE req ctx nx
            pure (.loopOnItems c b' (some (made.withNext nx')))
      else do
        let b' ← addOptE req ctx b
        let nx' ← addOptE req ctx nx
        pure (.loopOnItems c b' nx')
  | .branch c os f nx =>
      if c.name = req.parentStep then
        match req.stepLocationRelativeToParent with
        | some .insideTrueBranch => do
            let made ← createActionF req.action os none none none ctx
            let os' ← addOptE req ctx os
            let f' ← addOptE req ctx f
            let nx' ← addOptE req ctx nx
            pure (.branch c (some (made.withNext os')) f' nx')
        | some .insideFalseBranch => do
            let made ← createActionF req.action f none none none ctx
            let os' ← addOptE req ctx os
            let f' ← addOptE req ctx f
            let nx' ← addOptE req ctx nx
            pure (.branch c os' (some (made.withNext f')) nx')
        | some .after => do
            let made ← createActionF req.action nx none none none ctx
            let os' ← addOptE req ctx os
            let f' ← addOptE req ctx f
            let nx' ← addOptE req ctx nx
            pure (.branch c os' f' (some (made.withNext nx')))
        | some loc =>
            .error (.flowOperationInvalid
              ("Branch step parernt " ++ locName loc ++ " not found"))
        | none => do
            let made ← createActionF req.action nx none none none ctx
            let os' ← addOptE req ctx os
            let f' ← addOptE req ctx f
            let nx' ← addOptE req ctx nx
            pure (.branch c os' f' (some (made.withNext nx')))
      else do
        let os' ← addOptE req ctx os
        let f' ← addOptE req ctx f
        let nx' ← addOptE req ctx nx
        pure (.branch c os' f' nx')
  | .router c ch nx =>
      if c.name = req.parentStep then
        match req.stepLocationRelativeToParent with
        | some .insideBranch =>
            match req.branchIndex with
            | some i => do
                let ch' ← addChildrenAtE req ctx i ch
                let nx' ← addOptE req ctx nx
                pure (.router c ch' nx')
            | none =>
                .error (.flowOperationInvalid
                  ("Branch step parernt " ++ locName .insideBranch ++ " not found"))
        | some .after => do
            let made ← createActionF req.action nx none none none ctx
            let ch' ← addChildrenE req ctx ch
            let nx' ← addOptE req ctx nx
            pure (.router c ch' (some (made.withNext nx')))
        | some loc =>
            .error (.flowOperationInvalid
              ("Branch step parernt " ++ locName loc ++ " not found"))
        | none => do
            let made ← createActionF req.action nx none none none ctx
            let ch' ← addChildrenE req ctx ch
            let nx' ← addOptE req ctx nx
            pure (.router c ch' (some (made.withNext nx')))
      else do
        let ch' ← addChildrenE req ctx ch
        let nx' ← addOptE req ctx nx
        pure (.router c ch' nx')

/-- Slot processing for `addAction` where no insertion targets the slot
itself. -/
def addOptE (req : AddActionRequest) (ctx : Option (List (Option FStep))) :
    Option FStep → Except FlowError (Option FStep)
  | none => pure none
  | some s => do
      let s' ← addStepE req ctx s
      pure (some s')

/-- Plain processing of a router's `children`. -/
def addChildrenE (req : AddActionRequest) (ctx : Option (List (Option FStep))) :
    List (Option FStep) → Except FlowError (List (Option FStep))
  | [] => pure []
  | c :: cs => do
      let c' ← addOptE req ctx c
      let cs' ← addChildrenE req ctx cs
      pure (c' :: cs')

/-- `INSIDE_BRANCH` insertion:
`children[branchIndex] = createAction(request.action,
{nextAction: children[branchIndex] ?? undefined, children})`, then the
children are traversed.  An index at or beyond the length extends the
array (the source's index assignment), the skipped positions becoming
holes (`none`). -/
def addChildrenAtE (req : AddActionRequest) (ctx : Option (List (Option FStep))) :
    Nat → List (Option FStep) → Except FlowError (List (Option FStep))
  | i, [] => do
      let made ← createActionF req.action none none none none ctx
      pure (List.replicate i none ++ [some (made.withNext none)])
  | 0, c :: cs => do
      let made ← createActionF req.action c none none none ctx
      let slot' ← addOptE req ctx c
      let cs' ← addChildrenE req ctx cs
      pure (some (made.withNext slot') :: cs')
  | i + 1, c :: cs => do
      let c' ← addOptE req ctx c
      let cs' ← addChildrenAtE req ctx i cs
      pure (c' :: cs')

end

/-- `addAction(flowVersion, request, children?)` at the flow level. -/
def addActionE (fv : FlowVersion) (req : AddActionRequest)
    (ctx : Option (List (Option FStep))) : Except FlowError FlowVersion := do
  let t ← addStepE req ctx fv.trigger
  pure { fv with trigger := t }

/-! ## Semver and the piece-version upgrade -/


/-- `version.startsWith(c)` for the single-character prefixes (`'^'`,
`'~'`) the engine tests. -/
def startsWithChar (s : String) (c : Char) : Bool :=
  match s.data with
  | [] => false
  | c2 :: _ => c2 = c

/-- `version.substring(1)`: the string without its first character. -/
def dropFirstChar (s : String) : String :=
  ⟨s.data.drop 1⟩

/-- Split a character list at `'.'` separators (the pieces of a dotted
version string). -/
def splitDots : List Char → List (List Char)
  | [] => [[]]
  | c :: cs =>
      if c = '.' then [] :: splitDots cs
      else match splitDots cs with
        | [] => [[c]]
        | s :: ss => (c :: s) :: ss

/-- Parse the remaining digits of a decimal numeral onto an accumulator. -/
def charsToNatAux (acc : Nat) : List Char → Option Nat
  | [] => some acc
  | c :: cs =>
      if c.isDigit then charsToNatAux (acc * 10 + (c.toNat - 48)) cs else none

/-- Parse a non-empty decimal numeral. -/
def parseNatChars : List Char → Option Nat
  | [] => none
  | c :: cs => charsToNatAux 0 (c :: cs)

/-- Modelled from the spec: the `semver` comparator is an external
collaborator of the engine.  A version string is parsed as dotted
`major.minor.patch` numerals. -/
def parseSemver (v : String) : Option (Nat × Nat × Nat) :=
  match splitDots v.data with
  | [a, b, c] => do
      let x ← parseNatChars a
      let y ← parseNatChars b
      let z ← parseNatChars c
      pure (x, y, z)
  | _ => none

/-- Lexicographic order on parsed versions. -/
def versionLt : Nat × Nat × Nat → Nat × Nat × Nat → Bool
  | (a1, b1, c1), (a2, b2, c2) =>
      if a1 < a2 then true
      else if a2 < a1 then false
      else if b1 < b2 then true
      else if b2 < b1 then false
      else c1 < c2

/-- Modelled from the spec: `semver.lt(a, b)`.  On an unparsable argument
the library throws a `TypeError`; that failure is `none` here. -/
def semverLt (a b : String) : Option Bool := do
  let x ← parseSemver a
  let y ← parseSemver b
  pure (versionLt x y)

/-- `isLegacyApp({pieceName, pieceVersion})`: strips a leading `^`/`~`,
then reports whether the piece is `@activepieces/piece-google-sheets` or
`@activepieces/piece-gmail` with a version below `0.3.0`.  For those two
piece names `semver.lt` is evaluated and can throw (`none`). -/
def isLegacyApp (pieceName pieceVersion : String) : Option Bool :=
  let newVersion :=
    if startsWithChar pieceVersion '^' || startsWithChar pieceVersion '~' then
      dropFirstChar pieceVersion
    else pieceVersion
  if pieceName = "@activepieces/piece-google-sheets" then
    semverLt newVersion "0.3.0"
  else if pieceName = "@activepieces/piece-gmail" then
    semverLt newVersion "0.3.0"
  else some false

/-- `upgradePiece(step, stepName)` restricted to the data it reads: the
step's piece-typedness and its common fields (the function rewrites only
`settings.pieceVersion` and leaves every structural slot alone).  Steps
with a different name, non-piece steps, legacy pieces and already
`^`/`~`-pinned versions are returned untouched; otherwise a valid version
below `1.0.0` is pinned with `~` and any other version with `^`. -/
def upgradeStepCoreE (pieceTyped : Bool) (stepName : String) (c : StepCore) :
    Except FlowError StepCore :=
  if c.name = stepName then
    if pieceTyped then
      match isLegacyApp c.settings.pieceName c.settings.pieceVersion with
      | none => .error .semverInvalidVersion
      | some true => .ok c
      | some false =>
          if startsWithChar c.settings.pieceVersion '^' ||
              startsWithChar c.settings.pieceVersion '~' then .ok c
          else if (parseSemver c.settings.pieceVersion).isSome &&
              semverLt c.settings.pieceVersion "1.0.0" = some true then
            .ok { c with settings := { c.settings with
              pieceVersion := "~" ++ c.settings.pieceVersion } }
          else
            .ok { c with settings := { c.settings with
              pieceVersion := "^" ++ c.settings.pieceVersion } }
    else .ok c
  else .ok c

/-- Whether a leaf type is `ActionType.PIECE` or `TriggerType.PIECE`. -/
def LeafType.pieceTyped : LeafType → Bool
  | .actionPiece => true
  | .triggerPiece => true
  | .actionCode => false
  | .triggerEmpty => false

mutual

/-- `transferFlow(flow, step => upgradePiece(step, stepName))` on the
tree: `upgradePiece` preserves every structural slot, so the rewrite is a
per-node map of the cores. -/
def upgradeTreeE (nm : String) : FStep → Except FlowError FStep
  | .simple t c nx => do
      let c' ← upgradeStepCoreE t.pieceTyped nm c
      let nx' ← upgradeOptE nm nx
      pure (.simple t c' nx')
  | .loopOnItems c b nx => do
      let c' ← upgradeStepCoreE false nm c
      let b' ← upgradeOptE nm b
      let nx' ← upgradeOptE nm nx
      pure (.loopOnItems c' b' nx')
  | .branch c os f nx => do
      let c' ← upgradeStepCoreE false nm c
      let os' ← upgradeOptE nm os
      let f' ← upgradeOptE nm f
      let nx' ← upgradeOptE nm nx
      pure (.branch c' os' f' nx')
  | .router c ch nx => do
      let c' ← upgradeStepCoreE false nm c
      let ch' ← upgradeChildrenE nm ch
      let nx' ← upgradeOptE nm nx
      pure (.router c' ch' nx')

def upgradeOptE (nm : String) : Option FStep → Except FlowError (Option FStep)
  | none => pure none
  | some s => do
      let s' ← upgradeTreeE nm s
      pure (some s')

def upgradeChildrenE (nm : String) :
    List (Option FStep) → Except FlowError (List (Option FStep))
  | [] => pure []
  | c :: cs => do
      let c' ← upgradeOptE nm c
      let cs' ← upgradeChildrenE nm cs
      pure (c' :: cs')

end

/-! ## normalize -/


/-- JavaScript truthiness of `settings.input.auth` (a missing or empty
string is falsy). -/
def authTruthy : Option String → Bool
  | none => false
  | some s => s ≠ ""

/-- The per-node callback of `normalize`, on the data it reads: reset
`settings.inputUiInfo` to the default sample-data settings, blank a
truthy `settings.input.auth` on piece-typed steps, then run
`upgradePiece(clonedStep, clonedStep.name)` (whose name guard passes). -/
def normalizeCoreE (pieceTyped : Bool) (c : StepCore) : Except FlowError StepCore :=
  let c1 := { c with settings :=
    { c.settings with inputUiInfo := some DEFAULT_SAMPLE_DATA_SETTINGS } }
  let c2 :=
    if authTruthy c1.settings.inputAuth && pieceTyped then
      { c1 with settings := { c1.settings with inputAuth := some "" } }
    else c1
  upgradeStepCoreE pieceTyped c2.name c2

mutual

/-- `normalize(flowVersion)` on the tree: the callback preserves every
structural slot, so the rewrite is a per-node map of the cores. -/
def normStepE : FStep → Except FlowError FStep
  | .simple t c nx => do
      let c' ← normalizeCoreE t.pieceTyped c
      let nx' ← normOptE nx
      pure (.simple t c' nx')
  | .loopOnItems c b nx => do
      let c' ← normalizeCoreE false c
      let b' ← normOptE b
      let nx' ← normOptE nx
      pure (.loopOnItems c' b' nx')
  | .branch c os f nx => do
      let c' ← normalizeCoreE false c
      let os' ← normOptE os
      let f' ← normOptE f
      let nx' ← normOptE nx
      pure (.branch c' os' f' nx')
  | .router c ch nx => do
      let c' ← normalizeCoreE false c
      let ch' ← normChildrenE ch
      let nx' ← normOptE nx
      pure (.router c' ch' nx')

def normOptE : Option FStep → Except FlowError (Option FStep)
  | none => pure none
  | some s => do
      let s' ← normStepE s
      pure (some s')

def normChildrenE : List (Option FStep) → Except FlowError (List (Option FStep))
  | [] => pure []
  | c :: cs => do
      let c' ← normOptE c
      let cs' ← normChildrenE cs
      pure (c' :: cs')

end

/-- `normalize(flowVersion)`: `transferFlow` with the normalization
callback; the flow's other fields are untouched. -/
def normalizeF (fv : FlowVersion) : Except FlowError FlowVersion := do
  let t ← normStepE fv.trigger
  pure { fv with trigger := t }

/-! ## Import operations -/


mutual

/-- `removeAnySubsequentAction(action)`: clone with `nextAction` deleted
and the structural slots stripped — a branch loses `onSuccessAction` /
`onFailureAction`, a loop loses `firstLoopAction`, and a router keeps its
`children` array with each present child stripped recursively. -/
def removeAnySubsequentAction : FStep → FStep
  | .simple t c _ => .simple t c none
  | .loopOnItems c _ _ => .loopOnItems c none none
  | .branch c _ _ _ => .branch c none none none
  | .router c ch _ => .router c (stripChildren ch) none

def stripChildren : List (Option FStep) → List (Option FStep)
  | [] => []
  | none :: cs => none :: stripChildren cs
  | some s :: cs => some (removeAnySubsequentAction s) :: stripChildren cs

end

/-- The `ADD_ACTION` emitted for a chain node's `nextAction`
(no `stepLocationRelativeToParent`). -/
def emitNextOp (parent : String) : Option FStep → List AddActionRequest
  | none => []
  | some na => [⟨parent, none, none, none, removeAnySubsequentAction na⟩]

mutual

/-- `getImportOperations(step)`: the while loop over the `next` chain.
Each chain node contributes the `ADD_ACTION` for its `nextAction` (if
any), then the `ADD_ACTION`s for its structural children — a branch's
`onFailureAction` before its `onSuccessAction`, a loop's body, a router's
present `children` with `branchIndex`/`branchName: "Branch <i>"` — each
followed by the recursive operations of that child, and the loop then
advances to `nextAction`. -/
def importOpsStep : FStep → List AddActionRequest
  | .simple _ c nx => emitNextOp c.name nx ++ importOpsOpt nx
  | .loopOnItems c b nx =>
      emitNextOp c.name nx
      ++ (match b with
          | some ba =>
              ⟨c.name, some .insideLoop, none, none, removeAnySubsequentAction ba⟩
                :: importOpsStep ba
          | none => [])
      ++ importOpsOpt nx
  | .branch c os f nx =>
      emitNextOp c.name nx
      ++ (match f with
          | some fa =>
              ⟨c.name, some .insideFalseBranch, none, none,
                removeAnySubsequentAction fa⟩ :: importOpsStep fa
          | none => [])
      ++ (match os with
          | some sa =>
              ⟨c.name, some .insideTrueBranch, none, none,
                removeAnySubsequentAction sa⟩ :: importOpsStep sa
          | none => [])
      ++ importOpsOpt nx
  | .router c ch nx =>
      emitNextOp c.name nx
      ++ importOpsChildren c.name 0 ch
      ++ importOpsOpt nx

def importOpsOpt : Option FStep → List AddActionRequest
  | none => []
  | some s => importOpsStep s

/-- The router part of `getImportOperations`: for each present child at
index `i`, an `INSIDE_BRANCH` `ADD_ACTION` with `branchIndex: i` and
`branchName: "Branch " + i`, followed by the child's own operations. -/
def importOpsChildren (parent : String) : Nat → List (Option FStep) → List AddActionRequest
  | _, [] => []
  | i, none :: cs => importOpsChildren parent (i + 1) cs
  | i, some child :: cs =>
      (⟨parent, some .insideBranch, some i, some ("Branch " ++ toString i),
          removeAnySubsequentAction child⟩
        :: importOpsStep child)
      ++ importOpsChildren parent (i + 1) cs

end

/-- `getImportOperations(step)` for an optional root.  In the source each
element is wrapped as a `FlowOperationType.ADD_ACTION` operation; the
requests are returned directly here. -/
def getImportOperations (s : Option FStep) : List AddActionRequest :=
  importOpsOpt s

/-! ## Router branch operations (ADD_BRANCH / DELETE_BRANCH) -/


/-- JavaScript `array.splice(i, 0, x)` for a non-negative index: insert at
`i`, or append when `i` is at or beyond the length. -/
def jsSpliceInsert {α : Type} : List α → Nat → α → List α
  | l, 0, x => x :: l
  | [], _ + 1, x => [x]
  | a :: l, i + 1, x => a :: jsSpliceInsert l i x

/-- JavaScript `array.splice(i, 1)` for a non-negative index: remove the
element at `i` if present. -/
def jsSpliceRemove {α : Type} : List α → Nat → List α
  | [], _ => []
  | _ :: l, 0 => l
  | a :: l, i + 1 => a :: jsSpliceRemove l i

/-- The `ADD_BRANCH` rewrite of a matched router core: insert
`createEmptyBranch(settings.branches.length)` into `settings.branches`
at `branchIndex`. -/
def addBranchCore (i : Nat) (c : StepCore) : StepCore :=
  { c with settings := { c.settings with
      branches := jsSpliceInsert c.settings.branches i
        (createEmptyBranch c.settings.branches.length) } }

/-- The `DELETE_BRANCH` rewrite of a matched router core: splice
`settings.branches` at `branchIndex`. -/
def delBranchCore (i : Nat) (c : StepCore) : StepCore :=
  { c with settings := { c.settings with
      branches := jsSpliceRemove c.settings.branches i } }

mutual

/-- The `ADD_BRANCH` case of `apply`: `transferFlow` with a callback that
fires when the node's `nextAction` is a router named `stepName`, inserting
a `null` child and a fresh branch at `branchIndex`.  Only `nextAction`
pointers are examined, so a router heading a structural slot is never
rewritten. -/
def abStep (n : String) (i : Nat) : FStep → FStep
  | .simple t c nx => .simple t c (abNext n i nx)
  | .loopOnItems c b nx => .loopOnItems c (abSlot n i b) (abNext n i nx)
  | .branch c os f nx => .branch c (abSlot n i os) (abSlot n i f) (abNext n i nx)
  | .router c ch nx => .router c (abChildren n i ch) (abNext n i nx)

/-- A `nextAction` edge under `ADD_BRANCH`: a router head named `n` has
its branches and children spliced, and the rewrite then continues into
the (updated) head. -/
def abNext (n : String) (i : Nat) : Option FStep → Option FStep
  | none => none
  | some (.simple t c nx) => some (.simple t c (abNext n i nx))
  | some (.loopOnItems c b nx) =>
      some (.loopOnItems c (abSlot n i b) (abNext n i nx))
  | some (.branch c os f nx) =>
      some (.branch c (abSlot n i os) (abSlot n i f) (abNext n i nx))
  | some (.router c ch nx) =>
      if c.name = n then
        some (.router (addBranchCore i c)
          (jsSpliceInsert (abChildren n i ch) i none) (abNext n i nx))
      else some (.router c (abChildren n i ch) (abNext n i nx))

/-- A structural slot under `ADD_BRANCH`: the head is not examined, only
traversed. -/
def abSlot (n : String) (i : Nat) : Option FStep → Option FStep
  | none => none
  | some s => some (abStep n i s)

def abChildren (n : String) (i : Nat) : List (Option FStep) → List (Option FStep)
  | [] => []
  | c :: cs => abSlot n i c :: abChildren n i cs

end

mutual

/-- The `DELETE_BRANCH` case of `apply`: as `ADD_BRANCH`, but splicing
the branch and the child out at `branchIndex`. -/
def dbStep (n : String) (i : Nat) : FStep → FStep
  | .simple t c nx => .simple t c (dbNext n i nx)
  | .loopOnItems c b nx => .loopOnItems c (dbSlot n i b) (dbNext n i nx)
  | .branch c os f nx => .branch c (dbSlot n i os) (dbSlot n i f) (dbNext n i nx)
  | .router c ch nx => .router c (dbChildren n i ch) (dbNext n i nx)

def dbNext (n : String) (i : Nat) : Option FStep → Option FStep
  | none => none
  | some (.simple t c nx) => some (.simple t c (dbNext n i nx))
  | some (.loopOnItems c b nx) =>
      some (.loopOnItems c (dbSlot n i b) (dbNext n i nx))
  | some (.branch c os f nx) =>
      some (.branch c (dbSlot n i os) (dbSlot n i f) (dbNext n i nx))
  | some (.router c ch nx) =>
      if c.name = n then
        some (.router (delBranchCore i c)
          (jsSpliceRemove (dbChildren n i ch) i) (dbNext n i nx))
      else some (.router c (dbChildren n i ch) (dbNext n i nx))

def dbSlot (n : String) (i : Nat) : Option FStep → Option FStep
  | none => none
  | some s => some (dbStep n i s)

def dbChildren (n : String) (i : Nat) : List (Option FStep) → List (Option FStep)
  | [] => []
  | c :: cs => dbSlot n i c :: dbChildren n i cs

end

/-! ## UPDATE_TRIGGER -/


/-- Modelled from the spec: the trigger schema validator
(`TypeCompiler.Compile(Trigger)`), an external collaborator, abstracted
as constantly true. -/
def triggerSchemaCheck (_ : FStep) : Bool := true

/-- Set the `valid` flag of a step. -/
def FStep.withValid (s : FStep) (v : Bool) : FStep :=
  match s with
  | .simple t c nx => .simple t { c with valid := v } nx
  | .loopOnItems c b nx => .loopOnItems { c with valid := v } b nx
  | .branch c os f nx => .branch { c with valid := v } os f nx
  | .router c ch nx => .router { c with valid := v } ch nx

/-- `createTrigger(name, request, nextAction)`: base properties from the
request with the given `name` and `valid: false`, then `valid` recomputed
as the request's flag AND the trigger schema check.  A non-trigger-typed
request matches no switch case. -/
def createTriggerF (name : String) (payload : FStep) (nextAction : Option FStep) :
    Except FlowError FStep :=
  let base : StepCore := { payload.core with name := name, valid := false }
  let trigger? : Except FlowError FStep :=
    match payload with
    | .simple .triggerEmpty _ _ => .ok (.simple .triggerEmpty base nextAction)
    | .simple .triggerPiece _ _ => .ok (.simple .triggerPiece base nextAction)
    | _ => .error .uninitializedAction
  trigger?.map (fun a =>
    a.withValid (payload.core.valid && triggerSchemaCheck a))

/-! ## UPDATE_ACTION -/


mutual

/-- `updateAction(flowVersion, request)`: `transferFlow` with a callback
that replaces, at every node, a slot head named `request.name` by
`createAction(request, extractActions(oldHead))` — the old head's
`nextAction` plus whatever structural slots match — and then recurses
into the updated node.  In the source the extracted slots are attached
raw and the recursion rewrites them afterwards; the model attaches them
already rewritten, which agrees whenever the created step's own name
differs from slots it would capture (slots that the created step's type
discards are rewritten and then dropped, which is observationally
identical for an action-typed request). -/
def uaStep (pl : FStep) : FStep → Except FlowError FStep
  | .simple t c nx => do
      let nx' ← uaOpt pl nx
      pure (.simple t c nx')
  | .loopOnItems c b nx => do
      let b' ← uaOpt pl b
      let nx' ← uaOpt pl nx
      pure (.loopOnItems c b' nx')
  | .branch c os f nx => do
      let os' ← uaOpt pl os
      let f' ← uaOpt pl f
      let nx' ← uaOpt pl nx
      pure (.branch c os' f' nx')
  | .router c ch nx => do
      let ch' ← uaChildren pl ch
      let nx' ← uaOpt pl nx
      pure (.router c ch' nx')

/-- A slot under `updateAction`: a head named `request.name` is replaced
(carrying its extracted slots), any other head is traversed. -/
def uaOpt (pl : FStep) : Option FStep → Except FlowError (Option FStep)
  | none => pure none
  | some (.simple t c nx) =>
      if c.name = pl.name then do
        let nx' ← uaOpt pl nx
        let made ← createActionF pl nx' none none none none
        pure (some made)
      else do
        let nx' ← uaOpt pl nx
        pure (some (.simple t c nx'))
  | some (.loopOnItems c b nx) =>
      if c.name = pl.name then do
        let nx' ← uaOpt pl nx
        let b' ← uaOpt pl b
        let made ← createActionF pl nx' none none b' none
        pure (some made)
      else do
        let b' ← uaOpt pl b
        let nx' ← uaOpt pl nx
        pure (some (.loopOnItems c b' nx'))
  | some (.branch c os f nx) =>
      if c.name = pl.name then do
        let nx' ← uaOpt pl nx
        let os' ← uaOpt pl os
        let f' ← uaOpt pl f
        let made ← createActionF pl nx' os' f' none none
        pure (some made)
      else do
        let os' ← uaOpt pl os
        let f' ← uaOpt pl f
        let nx' ← uaOpt pl nx
        pure (some (.branch c os' f' nx'))
  | some (.router c ch nx) =>
      if c.name = pl.name then do
        let nx' ← uaOpt pl nx
        let ch' ← uaChildren pl ch
        let made ← createActionF pl nx' none none none (some ch')
        pure (some made)
      else do
        let ch' ← uaChildren pl ch
        let nx' ← uaOpt pl nx
        pure (some (.router c ch' nx'))

/-- A router's `children` under `updateAction`: the source replaces only
the child at the first matching `findIndex`; the remaining children are
traversed without the head replacement. -/
def uaChildren (pl : FStep) : List (Option FStep) → Except FlowError (List (Option FStep))
  | [] => pure []
  | none :: cs => do
      let cs' ← uaChildren pl cs
      pure (none :: cs')
  | some (.simple t c nx) :: cs =>
      if c.name = pl.name then do
        let nx' ← uaOpt pl nx
        let made ← createActionF pl nx' none none none none
        let cs' ← uaChildrenPlain pl cs
        pure (some made :: cs')
      else do
        let nx' ← uaOpt pl nx
        let cs' ← uaChildren pl cs
        pure (some (.simple t c nx') :: cs')
  | some (.loopOnItems c b nx) :: cs =>
      if c.name = pl.name then do
        let nx' ← uaOpt pl nx
        let b' ← uaOpt pl b
        let made ← createActionF pl nx' none none b' none
        let cs' ← uaChildrenPlain pl cs
        pure (some made :: cs')
      else do
        let b' ← uaOpt pl b
        let nx' ← uaOpt pl nx
        let cs' ← uaChildren pl cs
        pure (some (.loopOnItems c b' nx') :: cs')
  | some (.branch c os f nx) :: cs =>
      if c.name = pl.name then do
        let nx' ← uaOpt pl nx
        let os' ← uaOpt pl os
        let f' ← uaOpt pl f
        let made ← createActionF pl nx' os' f' none none
        let cs' ← uaChildrenPlain pl cs
        pure (some made :: cs')
      else do
        let os' ← uaOpt pl os
        let f' ← uaOpt pl f
        let nx' ← uaOpt pl nx
        let cs' ← uaChildren pl cs
        pure (some (.branch c os' f' nx') :: cs')
  | some (.router c ch nx) :: cs =>
      if c.name = pl.name then do
        let nx' ← uaOpt pl nx
        let ch' ← uaChildren pl ch
        let made ← createActionF pl nx' none none none (some ch')
        let cs' ← uaChildrenPlain pl cs
        pure (some made :: cs')
      else do
        let ch' ← uaChildren pl ch
        let nx' ← uaOpt pl nx
        let cs' ← uaChildren pl cs
        pure (some (.router c ch' nx') :: cs')

/-- Children after the first replaced index: traversed as nodes only. -/
def uaChildrenPlain (pl : FStep) : List (Option FStep) → Except FlowError (List (Option FStep))
  | [] => pure []
  | none :: cs => do
      let cs' ← uaChildrenPlain pl cs
      pure (none :: cs')
  | some h :: cs => do
      let h' ← uaStep pl h
      let cs' ← uaChildrenPlain pl cs
      pure (some h' :: cs')

end

/-! ## Name allocation and duplication -/


/-- The `valid` flag of a whole tree: the conjunction over the DFS
enumeration (the body of `isValid`). -/
def isValidT (t : FStep) : Bool :=
  (traverseStep t).all FStep.valid

/-- The `ADD_ACTION` case of `flowHelper.apply`: `addAction`, then
`transferFlow` with `upgradePiece` targeted at the added action's name,
then the recomputation of `flow.valid`.  Replays inside `moveAction`,
`duplicateStep` and `duplicateRouterChild` go through `flowHelper.apply`
with `ADD_ACTION` operations and land exactly here. -/
def applyAddOp (fv : FlowVersion) (req : AddActionRequest) :
    Except FlowError FlowVersion := do
  let fv1 ← addActionE fv req none
  let t ← upgradeTreeE req.action.name fv1.trigger
  pure { fv1 with trigger := t, valid := isValidT t }

/-- `findUnusedName(names, stepPrefix)`: the smallest `K ≥ 1` with
`prefix_K` unused.  The source's while loop terminates within
`names.length + 1` probes (there are more candidates than names), which
bounds the search here; the fallback is unreachable. -/
def findUnusedName (names : List String) (stepPrefix : String) : String :=
  match (List.range (names.length + 1)).find?
      (fun k => !(names.contains (stepPrefix ++ "_" ++ toString (k + 1)))) with
  | some k => stepPrefix ++ "_" ++ toString (k + 1)
  | none => stepPrefix ++ "_0"

/-- `findAvailableStepName(flowVersion, stepPrefix)`. -/
def findAvailableStepName (fv : FlowVersion) (stepPrefix : String) : String :=
  findUnusedName ((getAllSteps fv.trigger).map FStep.name) stepPrefix

/-- The old-name-to-new-name map built by `duplicateStep` /
`duplicateRouterChild`: each old name gets `findUnusedName` against the
growing set of existing names. -/
def buildRenames (existing : List String) : List String → List (String × String)
  | [] => []
  | n :: rest =>
      let fresh := findUnusedName existing "step"
      (n, fresh) :: buildRenames (existing ++ [fresh]) rest

/-- The per-node callback of the duplication rename pass: suffix
`displayName` with " Copy", rename via the map, and clear the sample-data
fields of `inputUiInfo` when present.  The `{{...}}`-scoped rewriting of
step references inside `settings.input` acts on the parts of `input` that
this model keeps opaque, and is therefore not modelled; no claim below
depends on it. -/
def renameCore (renames : List (String × String)) (c : StepCore) : StepCore :=
  let ui := match c.settings.inputUiInfo with
    | some _ => some { currentSelectedData := none, sampleDataFileId := none,
                       lastTestDate := none }
    | none => none
  { c with
    displayName := c.displayName ++ " Copy"
    name := ((renames.find? (fun p => p.1 = c.name)).map Prod.snd).getD c.name
    settings := { c.settings with inputUiInfo := ui } }

mutual

/-- `transferStep` with the duplication rename callback (the callback
touches only the core, so the rewrite is a per-node map). -/
def renameTree (renames : List (String × String)) : FStep → FStep
  | .simple t c nx => .simple t (renameCore renames c) (renameOpt renames nx)
  | .loopOnItems c b nx =>
      .loopOnItems (renameCore renames c) (renameOpt renames b) (renameOpt renames nx)
  | .branch c os f nx =>
      .branch (renameCore renames c) (renameOpt renames os) (renameOpt renames f)
        (renameOpt renames nx)
  | .router c ch nx =>
      .router (renameCore renames c) (renameChildren renames ch) (renameOpt renames nx)

def renameOpt (renames : List (String × String)) : Option FStep → Option FStep
  | none => none
  | some s => some (renameTree renames s)

def renameChildren (renames : List (String × String)) :
    List (Option FStep) → List (Option FStep)
  | [] => []
  | c :: cs => renameOpt renames c :: renameChildren renames cs

end

/-- `duplicateStep(stepName, flowVersionWithArtifacts)`: clone the named
step with `nextAction` cleared, freshly rename the clone's subtree, add
it `AFTER` the original (a router clone carrying a same-length all-null
`children` array), and replay the clone's import operations through
`flowHelper.apply`.  When the step is missing, the
`JSON.parse(JSON.stringify(undefined))` clone throws a `SyntaxError`
before the not-found guard is reached. -/
def duplicateStepE (stepName : String) (fv : FlowVersion) :
    Except FlowError FlowVersion := do
  match getStep fv stepName with
  | none => .error .jsonSyntaxError
  | some orig => do
      let cloned := orig.withNext none
      let existingNames := (getAllSteps fv.trigger).map FStep.name
      let oldNames := (getAllSteps cloned).map FStep.name
      let renames := buildRenames existingNames oldNames
      let dup := renameTree renames cloned
      let ctx : Option (List (Option FStep)) :=
        match dup with
        | .router _ ch _ => some (ch.map (fun _ => none))
        | _ => none
      let fv1 ← addActionE fv ⟨stepName, some .after, none, none, dup⟩ ctx
      (importOpsStep dup).foldlM applyAddOp fv1

/-! ## DUPLICATE_BRANCH -/


/-- The in-place splice that `duplicateRouterChild` performs on the
router it looked up: `settings.branches.splice(-1, 0, <branch childIndex
with " Copy">)` — an insertion just before the last entry. -/
def drcCore (childIndex : Nat) (c : StepCore) : StepCore :=
  match c.settings.branches[childIndex]? with
  | some br =>
      { c with settings := { c.settings with
          branches := jsSpliceInsert c.settings.branches
            (c.settings.branches.length - 1)
            { br with branchName := br.branchName ++ " Copy" } } }
  | none => c

mutual

/-- The router mutation of `duplicateRouterChild` as a tree rewrite: the
source splices the node returned by `getStep` in place; here every router
named `n` is spliced (they coincide when step names are unique). -/
def drcStep (n : String) (ci : Nat) : FStep → FStep
  | .simple t c nx => .simple t c (drcOpt n ci nx)
  | .loopOnItems c b nx => .loopOnItems c (drcOpt n ci b) (drcOpt n ci nx)
  | .branch c os f nx =>
      .branch c (drcOpt n ci os) (drcOpt n ci f) (drcOpt n ci nx)
  | .router c ch nx =>
      if c.name = n then
        .router (drcCore ci c)
          (jsSpliceInsert (drcChildren n ci ch) (ch.length - 1) none)
          (drcOpt n ci nx)
      else .router c (drcChildren n ci ch) (drcOpt n ci nx)

def drcOpt (n : String) (ci : Nat) : Option FStep → Option FStep
  | none => none
  | some s => some (drcStep n ci s)

def drcChildren (n : String) (ci : Nat) : List (Option FStep) → List (Option FStep)
  | [] => []
  | c :: cs => drcOpt n ci c :: drcChildren n ci cs

end

/-- `duplicateRouterChild(routerName, childIndex, flowVersionWithArtifacts)`:
splice a " Copy" of the branch metadata and a `null` child into the
router at the penultimate position; if the cloned child is `null`, stop
there; otherwise freshly rename the child's subtree, add it
`INSIDE_BRANCH` at `children.length - 2` (the spliced length), and replay
its import operations.  A missing router throws the not-found `Error`; a
non-router step has no `children` to index (`TypeError`); an
out-of-range `childIndex` makes the `JSON` clone of `undefined` throw. -/
def duplicateRouterChildE (routerName : String) (childIndex : Nat)
    (fv : FlowVersion) : Except FlowError FlowVersion := do
  match getStep fv routerName with
  | none => .error (.stepNotFound routerName)
  | some (.simple _ _ _) => .error .typeErrorUndefined
  | some (.loopOnItems _ _ _) => .error .typeErrorUndefined
  | some (.branch _ _ _ _) => .error .typeErrorUndefined
  | some (.router rc ch _) =>
      match ch[childIndex]? with
      | none => .error .jsonSyntaxError
      | some clonedChild =>
        match rc.settings.branches[childIndex]? with
        | none => .error .jsonSyntaxError
        | some _ => do
          let fv1 := { fv with trigger := drcStep routerName childIndex fv.trigger }
          match clonedChild with
          | none => pure fv1
          | some childStep => do
              let existingNames := (getAllSteps fv.trigger).map FStep.name
              let oldNames := (getAllSteps childStep).map FStep.name
              let renames := buildRenames existingNames oldNames
              let dup := renameTree renames childStep
              let fv2 ← addActionE fv1
                ⟨routerName, some .insideBranch, some (ch.length + 1 - 2), none, dup⟩
                none
              (importOpsStep dup).foldlM applyAddOp fv2

/-! ## MOVE_ACTION -/


/-- A `MoveActionRequest`. -/
structure MoveActionRequest where
  name : String
  newParentStep : String
  stepLocationRelativeToNewParent : Option StepLocation
  branchIndex : Option Nat
  branchName : Option String

/-- `moveAction(flowVersion, request)`: locate the source (an action) and
the destination or raise `FLOW_OPERATION_INVALID`; for a loop or branch
source compute the import operations of the clone with `nextAction`
cleared; delete the source; re-add it under the destination (a router
source carries its `children`); then replay the import operations through
`flowHelper.apply` (the spread that copies `branchIndex`/`branchName`
onto the replayed operation objects adds top-level fields that `apply`
never reads, so the requests replay unchanged). -/
def moveActionE (fv : FlowVersion) (req : MoveActionRequest) :
    Except FlowError FlowVersion := do
  let steps := getAllSteps fv.trigger
  match steps.find? (fun s => s.name = req.name) with
  | none =>
      .error (.flowOperationInvalid ("Source step " ++ req.name ++ " not found"))
  | some sourceStep =>
    if !sourceStep.isAction then
      .error (.flowOperationInvalid ("Source step " ++ req.name ++ " not found"))
    else
      match steps.find? (fun s => s.name = req.newParentStep) with
      | none =>
          .error (.flowOperationInvalid
            ("Destination step " ++ req.newParentStep ++ " not found"))
      | some _ => do
          let childOps : List AddActionRequest :=
            match sourceStep with
            | .loopOnItems c b _ => importOpsStep (.loopOnItems c b none)
            | .branch c os f _ => importOpsStep (.branch c os f none)
            | _ => []
          let ctx : Option (List (Option FStep)) :=
            match sourceStep with
            | .router _ ch _ => some ch
            | _ => none
          let fv1 := deleteActionF fv req.name
          let fv2 ← addActionE fv1
            ⟨req.newParentStep, req.stepLocationRelativeToNewParent,
              req.branchIndex, req.branchName, sourceStep⟩ ctx
          childOps.foldlM applyAddOp fv2

/-! ## The dispatcher -/


/-- A `FlowOperationRequest`: the closed set of operation kinds with the
request data each carries.  `UPDATE_ACTION` and `UPDATE_TRIGGER` carry
their request as a step payload (`createAction`/`createTrigger` read only
its type and common fields). -/
inductive FlowOperation where
  | moveAction (request : MoveActionRequest)
  | lockFlow
  | changeName (displayName : String)
  | deleteAction (name : String)
  | addAction (request : AddActionRequest)
  | updateAction (request : FStep)
  | updateTrigger (request : FStep)
  | duplicateAction (stepName : String)
  | deleteBranch (stepName : String) (branchIndex : Nat)
  | addBranch (stepName : String) (branchIndex : Nat)
  | duplicateBranch (stepName : String) (branchIndex : Nat)

/-- `flowHelper.apply(flowVersion, operation)`: deep-clone (identity
here), dispatch on the operation type, and finally recompute
`flow.valid` as `isValid` of the result. -/
def applyF (fv : FlowVersion) (op : FlowOperation) : Except FlowError FlowVersion := do
  let fv' ←
    match op with
    | .moveAction req => moveActionE fv req
    | .lockFlow => pure { fv with state := .locked }
    | .changeName dn => pure { fv with displayName := dn }
    | .deleteAction n => pure (deleteActionF fv n)
    | .addAction req => applyAddOp fv req
    | .updateAction pl => do
        let t1 ← uaStep pl fv.trigger
        let t2 ← upgradeTreeE pl.name t1
        pure { fv with trigger := t2 }
    | .updateTrigger pl => do
        let trg ← createTriggerF fv.trigger.name pl fv.trigger.next
        let t ← upgradeTreeE pl.name trg
        pure { fv with trigger := t }
    | .duplicateAction n => duplicateStepE n fv
    | .deleteBranch n i => pure { fv with trigger := dbStep n i fv.trigger }
    | .addBranch n i => pure { fv with trigger := abStep n i fv.trigger }
    | .duplicateBranch n i => duplicateRouterChildE n i fv
  pure { fv' with valid := isValidT fv'.trigger }

/-! ## Infrastructure: decidable equality and structural induction -/


mutual

def decEqStep : (a b : FStep) → Decidable (a = b)
  | .simple t1 c1 n1, .simple t2 c2 n2 =>
      match decEq t1 t2 with
      | isFalse h => isFalse (fun he => by cases he; exact h rfl)
      | isTrue h1 =>
        match decEq c1 c2 with
        | isFalse h => isFalse (fun he => by cases he; exact h rfl)
        | isTrue h2 =>
          match decEqOptStep n1 n2 with
          | isFalse h => isFalse (fun he => by cases he; exact h rfl)
          | isTrue h3 => isTrue (by rw [h1, h2, h3])
  | .loopOnItems c1 b1 n1, .loopOnItems c2 b2 n2 =>
      match decEq c1 c2 with
      | isFalse h => isFalse (fun he => by cases he; exact h rfl)
      | isTrue h1 =>
        match decEqOptStep b1 b2 with
        | isFalse h => isFalse (fun he => by cases he; exact h rfl)
        | isTrue h2 =>
          match decEqOptStep n1 n2 with
          | isFalse h => isFalse (fun he => by cases he; exact h rfl)
          | isTrue h3 => isTrue (by rw [h1, h2, h3])
  | .branch c1 o1 f1 n1, .branch c2 o2 f2 n2 =>
      match decEq c1 c2 with
      | isFalse h => isFalse (fun he => by cases he; exact h rfl)
      | isTrue h1 =>
        match decEqOptStep o1 o2 with
        | isFalse h => isFalse (fun he => by cases he; exact h rfl)
        | isTrue h2 =>
          match decEqOptStep f1 f2 with
          | isFalse h => isFalse (fun he => by cases he; exact h rfl)
          | isTrue h3 =>
            match decEqOptStep n1 n2 with
            | isFalse h => isFalse (fun he => by cases he; exact h rfl)
            | isTrue h4 => isTrue (by rw [h1, h2, h3, h4])
  | .router c1 ch1 n1, .router c2 ch2 n2 =>
      match decEq c1 c2 with
      | isFalse h => isFalse (fun he => by cases he; exact h rfl)
      | isTrue h1 =>
        match decEqChildren ch1 ch2 with
        | isFalse h => isFalse (fun he => by cases he; exact h rfl)
        | isTrue h2 =>
          match decEqOptStep n1 n2 with
          | isFalse h => isFalse (fun he => by cases he; exact h rfl)
          | isTrue h3 => isTrue (by rw [h1, h2, h3])
  | .simple _ _ _, .loopOnItems _ _ _ => isFalse (fun h => FStep.noConfusion h)
  | .simple _ _ _, .branch _ _ _ _ => isFalse (fun h => FStep.noConfusion h)
  | .simple _ _ _, .router _ _ _ => isFalse (fun h => FStep.noConfusion h)
  | .loopOnItems _ _ _, .simple _ _ _ => isFalse (fun h => FStep.noConfusion h)
  | .loopOnItems _ _ _, .branch _ _ _ _ => isFalse (fun h => FStep.noConfusion h)
  | .loopOnItems _ _ _, .router _ _ _ => isFalse (fun h => FStep.noConfusion h)
  | .branch _ _ _ _, .simple _ _ _ => isFalse (fun h => FStep.noConfusion h)
  | .branch _ _ _ _, .loopOnItems _ _ _ => isFalse (fun h => FStep.noConfusion h)
  | .branch _ _ _ _, .router _ _ _ => isFalse (fun h => FStep.noConfusion h)
  | .router _ _ _, .simple _ _ _ => isFalse (fun h => FStep.noConfusion h)
  | .router _ _ _, .loopOnItems _ _ _ => isFalse (fun h => FStep.noConfusion h)
  | .router _ _ _, .branch _ _ _ _ => isFalse (fun h => FStep.noConfusion h)

def decEqOptStep : (a b : Option FStep) → Decidable (a = b)
  | none, none => isTrue rfl
  | none, some _ => isFalse (fun h => Option.noConfusion h)
  | some _, none => isFalse (fun h => Option.noConfusion h)
  | some x, some y =>
      match decEqStep x y with
      | isTrue h => isTrue (by rw [h])
      | isFalse h => isFalse (fun he => by cases he; exact h rfl)

def decEqChildren : (a b : List (Option FStep)) → Decidable (a = b)
  | [], [] => isTrue rfl
  | [], _ :: _ => isFalse (fun h => List.noConfusion h)
  | _ :: _, [] => isFalse (fun h => List.noConfusion h)
  | x :: xs, y :: ys =>
      match decEqOptStep x y with
      | isFalse h => isFalse (fun he => by cases he; exact h rfl)
      | isTrue h1 =>
        match decEqChildren xs ys with
        | isFalse h => isFalse (fun he => by cases he; exact h rfl)
        | isTrue h2 => isTrue (by rw [h1, h2])

end

instance : DecidableEq FStep := decEqStep

instance : DecidableEq FlowVersion := fun a b =>
  match a, b with
  | ⟨d1, s1, t1, v1⟩, ⟨d2, s2, t2, v2⟩ =>
    match decEq d1 d2, decEq s1 s2, decEqStep t1 t2, decEq v1 v2 with
    | isTrue h1, isTrue h2, isTrue h3, isTrue h4 => isTrue (by rw [h1, h2, h3, h4])
    | isFalse h, _, _, _ => isFalse (fun he => by cases he; exact h rfl)
    | _, isFalse h, _, _ => isFalse (fun he => by cases he; exact h rfl)
    | _, _, isFalse h, _ => isFalse (fun he => by cases he; exact h rfl)
    | _, _, _, isFalse h => isFalse (fun he => by cases he; exact h rfl)

instance {ε α : Type} [DecidableEq ε] [DecidableEq α] :
    DecidableEq (Except ε α) := fun a b =>
  match a, b with
  | .ok x, .ok y =>
      match decEq x y with
      | isTrue h => isTrue (by rw [h])
      | isFalse h => isFalse (fun he => by cases he; exact h rfl)
  | .error x, .error y =>
      match decEq x y with
      | isTrue h => isTrue (by rw [h])
      | isFalse h => isFalse (fun he => by cases he; exact h rfl)
  | .ok _, .error _ => isFalse (fun h => Except.noConfusion h)
  | .error _, .ok _ => isFalse (fun h => Except.noConfusion h)

/-! ## Concrete fixtures used by witnesses and counterexamples -/


/-- Settings with no piece data, no auth, no sample data, and the given
router branches. -/
def plainSettings (branches : List RouterBranchMeta) : StepSettings :=
  { pieceName := "", pieceVersion := "", inputAuth := none, inputRest := 0,
    inputUiInfo := none, branches := branches, settingsRest := 0 }

/-- A core with the given name (used as display name too), valid, and
plain settings. -/
def plainCore (n : String) : StepCore :=
  { name := n, displayName := n, valid := true, settings := plainSettings [] }

/-- A router core named `n` with the given branches. -/
def routerCore (n : String) (branches : List RouterBranchMeta) : StepCore :=
  { name := n, displayName := n, valid := true, settings := plainSettings branches }

/-- A condition branch named `nm` with one empty condition. -/
def condBranch (nm : String) : RouterBranchMeta :=
  { conditions := [[BranchCondition.empty]], branchType := .condition, branchName := nm }

/-- The router branch names of the step found under the trigger's
`nextAction` chain head, if it is a router. -/
def flowRouterBranchNames (fv : FlowVersion) : List String :=
  match fv.trigger with
  | .simple _ _ (some (.router c _ _)) =>
      c.settings.branches.map RouterBranchMeta.branchName
  | _ => []

/-- Whether a result is a `FLOW_OPERATION_INVALID` error. -/
def resultIsFlowOperationInvalid : Except FlowError FlowVersion → Bool
  | .error (.flowOperationInvalid _) => true
  | _ => false

/-- A minimal flow: empty trigger followed by one piece action `p`. -/
def exFlowPlain : FlowVersion :=
  { displayName := "f", state := .draft
    trigger := .simple .triggerEmpty (plainCore "t")
      (some (.simple .actionPiece (plainCore "p") none))
    valid := true }

/-- A flow whose trigger is followed by an empty loop `L`. -/
def exFlowC7 : FlowVersion :=
  { displayName := "f", state := .draft
    trigger := .simple .triggerEmpty (plainCore "t")
      (some (.loopOnItems (plainCore "L") none none))
    valid := true }

/-- An `ADD_ACTION` request targeting the loop `L` with the incompatible
location `INSIDE_TRUE_BRANCH`. -/
def reqC7 : AddActionRequest :=
  { parentStep := "L", stepLocationRelativeToParent := some .insideTrueBranch
    branchIndex := none, branchName := none
    action := .simple .actionCode (plainCore "n") none }

/-! ## Lemmas about the branch operations -/


/-- Whether a step is a router named `r` (the guard of the
`ADD_BRANCH`/`DELETE_BRANCH` callbacks, applied to a `nextAction`). -/
def isRouterNamed (r : String) : FStep → Bool
  | .router c _ _ => c.name = r
  | _ => false

/-- Whether a step's `nextAction` is a router named `r` — the condition
under which the `ADD_BRANCH`/`DELETE_BRANCH` callbacks fire at the step. -/
def nextTargetsRouter (r : String) (s : FStep) : Bool :=
  match s.next with
  | some h => isRouterNamed r h
  | none => false

/-! ## Claim C10 -/


/-- A flow whose router (2 branches) heads a loop body: no step's
`nextAction` is the router. -/
def exFlowC10 : FlowVersion :=
  { displayName := "f", state := .draft
    trigger := .simple .triggerEmpty (plainCore "t")
      (some (.loopOnItems (plainCore "L")
        (some (.router (routerCore "r" [condBranch "B1", condBranch "B2"])
          [none, none] none))
        none))
    valid := true }

/-! ## Claim C4 -/


/-- A flow `trigger → router` with two branches `B1`, `B2`. -/
def exFlowC4 : FlowVersion :=
  { displayName := "f", state := .draft
    trigger := .simple .triggerEmpty (plainCore "t")
      (some (.router (routerCore "r" [condBranch "B1", condBranch "B2"])
        [none, none] none))
    valid := true }

/-! ## Except plumbing -/


@[simp] theorem exBind_ok {α β : Type} (a : α) (f : α → Except FlowError β) :
    (Except.ok a >>= f) = f a := rfl

@[simp] theorem exBind_err {α β : Type} (e : FlowError)
    (f : α → Except FlowError β) :
    ((Except.error e : Except FlowError α) >>= f) = Except.error e := rfl

@[simp] theorem exPure_eq_ok {α : Type} (a : α) :
    (pure a : Except FlowError α) = Except.ok a := rfl

/-- Which location/parent-kind combinations fall into the throwing `else`
of `addAction`: a present location other than `INSIDE_LOOP`/`AFTER` on a
loop, other than the two branch locations/`AFTER` on a branch, other than
`INSIDE_BRANCH` (with a `branchIndex`)/`AFTER` on a router.  Leaf parents
and absent locations never throw. -/
def incompatibleLocation (req : AddActionRequest) : FStep → Bool
  | .loopOnItems _ _ _ =>
      match req.stepLocationRelativeToParent with
      | some .insideLoop => false
      | some .after => false
      | some _ => true
      | none => false
  | .branch _ _ _ _ =>
      match req.stepLocationRelativeToParent with
      | some .insideTrueBranch => false
      | some .insideFalseBranch => false
      | some .after => false
      | some _ => true
      | none => false
  | .router _ _ _ =>
      match req.stepLocationRelativeToParent with
      | some .insideBranch => req.branchIndex.isNone
      | some .after => false
      | some _ => true
      | none => false
  | .simple _ _ _ => false

/-! ## Claim C7 -/


/-! ## Claim C8 -/


/-! ## Lemmas about the piece-version upgrade -/


/-- The normalized shape of a piece step's data: auth missing or blank,
and a legacy or `^`/`~`-pinned piece version. -/
def stepShapeOK (x : FStep) : Prop :=
  (x.settings.inputAuth = none ∨ x.settings.inputAuth = some "") ∧
  (isLegacyApp x.settings.pieceName x.settings.pieceVersion = some true ∨
   startsWithChar x.settings.pieceVersion '^' = true ∨
   startsWithChar x.settings.pieceVersion '~' = true)

/-- Settings of a piece trigger with no auth and an unpinned version
below 1.0.0. -/
def settingsC5t : StepSettings :=
  { pieceName := "@ap/piece-one", pieceVersion := "0.5.0", inputAuth := none,
    inputRest := 0, inputUiInfo := none, branches := [], settingsRest := 0 }

/-- Settings of a piece action with a truthy auth and an unpinned version
above 1.0.0. -/
def settingsC5a : StepSettings :=
  { pieceName := "@ap/piece-two", pieceVersion := "2.0.0",
    inputAuth := some "secret", inputRest := 0, inputUiInfo := none,
    branches := [], settingsRest := 0 }

/-- A piece trigger with no auth set. -/
def coreC5t : StepCore :=
  { name := "t", displayName := "Trigger", valid := true, settings := settingsC5t }

/-- A piece action with a truthy auth. -/
def coreC5a : StepCore :=
  { name := "a", displayName := "Act", valid := true, settings := settingsC5a }

/-- A two-step all-piece flow exercising both upgrade rules. -/
def exFlowC5 : FlowVersion :=
  { displayName := "f", state := FlowVersionState.draft,
    trigger := FStep.simple LeafType.triggerPiece coreC5t
      (some (FStep.simple LeafType.actionPiece coreC5a none)),
    valid := true }

/-- `settingsC5t` after normalization: sample data reset, the absent auth
left absent, `0.5.0` pinned with `~`. -/
def gSettingsC5t : StepSettings :=
  { settingsC5t with
      inputUiInfo := some DEFAULT_SAMPLE_DATA_SETTINGS
      pieceVersion := "~" ++ "0.5.0" }

/-- `settingsC5a` after normalization: sample data reset, the truthy auth
blanked, `2.0.0` pinned with `^`. -/
def gSettingsC5a : StepSettings :=
  { settingsC5a with
      inputAuth := some ""
      inputUiInfo := some DEFAULT_SAMPLE_DATA_SETTINGS
      pieceVersion := "^" ++ "2.0.0" }

/-- The normalization of `exFlowC5`. -/
def gFlowC5 : FlowVersion :=
  { displayName := "f", state := FlowVersionState.draft,
    trigger := FStep.simple LeafType.triggerPiece
      { coreC5t with settings := gSettingsC5t }
      (some (FStep.simple LeafType.actionPiece
        { coreC5a with settings := gSettingsC5a } none)),
    valid := true }

/-! ## Router alignment (claim C3) -/


/-- A single step's router-alignment: a router has exactly as many
`children` as `settings.branches`; any other step is unconstrained. -/
def routerAligned : FStep → Bool
  | .router c ch _ => ch.length == c.settings.branches.length
  | _ => true

mutual

/-- Router-alignment of every step of a subtree, structurally. -/
def alignedStep : FStep → Bool
  | .simple _ _ nx => alignedOpt nx
  | .loopOnItems _ b nx => alignedOpt b && alignedOpt nx
  | .branch _ os f nx => alignedOpt os && alignedOpt f && alignedOpt nx
  | .router c ch nx =>
      (ch.length == c.settings.branches.length) && alignedChildren ch &&
        alignedOpt nx

def alignedOpt : Option FStep → Bool
  | none => true
  | some s => alignedStep s

def alignedChildren : List (Option FStep) → Bool
  | [] => true
  | c :: cs => alignedOpt c && alignedChildren cs

end

/-- Whether an `ADD_ACTION` payload keeps routers aligned: `createAction`
always materializes `children` as `[null, null]`, so a router payload
must declare exactly two branches. -/
def addPayloadAligned : FStep → Bool
  | .router c _ _ => c.settings.branches.length == 2
  | _ => true

/-- Whether an `INSIDE_BRANCH` insertion index stays inside the `children`
array of each router the request can match (an out-of-range index would
extend the array, as the source's `children[branchIndex] = ...` does). -/
def reqIndexOK (req : AddActionRequest) : FStep → Bool
  | .router c ch _ =>
      match req.stepLocationRelativeToParent, req.branchIndex with
      | some .insideBranch, some i =>
          !(c.name == req.parentStep) || decide (i < ch.length)
      | _, _ => true
  | _ => true

/-- The operations (with their side conditions) covered by the amended
router-alignment preservation claim. -/
def opPreservesAlignment : FlowOperation → FlowVersion → Bool
  | .lockFlow, _ => true
  | .changeName _, _ => true
  | .deleteAction _, _ => true
  | .addBranch _ _, _ => true
  | .deleteBranch _ _, _ => true
  | .addAction req, fv =>
      addPayloadAligned req.action &&
        (getAllSteps fv.trigger).all (reqIndexOK req)
  | _, _ => false

/-- An `ADD_ACTION` request inserting (after the trigger) a router payload
that declares three branches. -/
def reqC3 : AddActionRequest :=
  { parentStep := "t", stepLocationRelativeToParent := none,
    branchIndex := none, branchName := none,
    action := .router (routerCore "r"
      [condBranch "B1", condBranch "B2", condBranch "B3"]) [] none }

/-- The result of `ADD_BRANCH{name: r, branch_index: 1}` on `exFlowC4`. -/
def gC3w : FlowVersion :=
  { displayName := "f", state := .draft
    trigger := .simple .triggerEmpty (plainCore "t")
      (some (.router (routerCore "r"
          [condBranch "B1", createEmptyBranch 2, condBranch "B2"])
        [none, none, none] none))
    valid := true }

/-! ## Locality: rewrites that match no step name are the identity -/


/-! ## Claim C9: MOVE_ACTION -/


/-- The `nextAction`'s name of the step named `n`, as found by `getStep`:
`none` when the step is absent, `some none` for a chain-final step. -/
def stepNextName (fv : FlowVersion) (n : String) : Option (Option String) :=
  (getStep fv n).map (fun s => s.next.map FStep.name)

/-- A four-step chain `t → A → S → T`. -/
def exFlowC9cex : FlowVersion :=
  { displayName := "f", state := .draft
    trigger := .simple .triggerEmpty (plainCore "t")
      (some (.simple .actionCode (plainCore "A")
        (some (.simple .actionCode (plainCore "S")
          (some (.simple .actionCode (plainCore "T") none))))))
    valid := true }

/-- Move `S` to `AFTER` its own predecessor `A`. -/
def reqC9cex : MoveActionRequest :=
  { name := "S", newParentStep := "A",
    stepLocationRelativeToNewParent := some .after,
    branchIndex := none, branchName := none }

/-- A flow `t → L (loop, empty body) → S → tail` with an arbitrary
continuation `tail` after the source `S`. -/
def fvC9 (tail : Option FStep) : FlowVersion :=
  { displayName := "f", state := .draft
    trigger := .simple .triggerEmpty (plainCore "t")
      (some (.loopOnItems (plainCore "L") none
        (some (.simple .actionCode (plainCore "S") tail))))
    valid := true }

/-- Move `S` inside the loop `L`. -/
def reqC9 : MoveActionRequest :=
  { name := "S", newParentStep := "L",
    stepLocationRelativeToNewParent := some .insideLoop,
    branchIndex := none, branchName := none }

/-- The trigger after moving `S` inside `L`: the former chain `tail` is
spliced into the slot that pointed at `S`, and the copy of `S` heads the
loop body with `nextAction` cleared. -/
def gC9trigger (tail : Option FStep) : FStep :=
  .simple .triggerEmpty (plainCore "t")
    (some (.loopOnItems (plainCore "L")
      (some (.simple .actionCode (plainCore "S") none)) tail))

/-- The flow after moving `S` inside `L` (with `flow.valid` recomputed by
`apply`). -/
def gC9 (tail : Option FStep) : FlowVersion :=
  { displayName := "f", state := .draft
    trigger := gC9trigger tail
    valid := isValidT (gC9trigger tail) }

/-! ## Claim C1: import-operation replay -/


/-- The action-typed leaf kinds (an `ADD_ACTION` payload must be one). -/
def actionLeaf : LeafType → Bool
  | .actionCode => true
  | .actionPiece => true
  | .triggerEmpty => false
  | .triggerPiece => false

/-- A chain of `nextAction`-linked simple steps wrapped around a hole. -/
def chainCtx : List (LeafType × StepCore) → FStep → FStep
  | [], hole => hole
  | z :: rest, hole => .simple z.1 z.2 (some (chainCtx rest hole))

/-- A non-empty chain of `nextAction`-linked simple steps. -/
def buildChain : (LeafType × StepCore) → List (LeafType × StepCore) → FStep
  | z, [] => .simple z.1 z.2 none
  | z, z' :: rest => .simple z.1 z.2 (some (buildChain z' rest))

/-- A subtree `a → router(3 branches, children [null, null, null])`. -/
def RC1 : FStep :=
  .simple .actionCode (plainCore "a")
    (some (.router (routerCore "r"
      [condBranch "B1", condBranch "B2", condBranch "B3"])
      [none, none, none] none))

/-- A flow containing `RC1` stripped behind the trigger. -/
def baseC1 : FlowVersion :=
  { displayName := "f", state := .draft
    trigger := .simple .triggerEmpty (plainCore "t")
      (some (removeAnySubsequentAction RC1))
    valid := true }

/-- What the replay of `getImportOperations(RC1)` actually produces: the
re-added router keeps its three declared branches but gets fresh
`[null, null]` children. -/
def gBadC1 : FlowVersion :=
  { displayName := "f", state := .draft
    trigger := .simple .triggerEmpty (plainCore "t")
      (some (.simple .actionCode (plainCore "a")
        (some (.router (routerCore "r"
          [condBranch "B1", condBranch "B2", condBranch "B3"])
          [none, none] none))))
    valid := true }

/-- A two-step code chain `a → b`. -/
def qC1 : LeafType × StepCore := (.actionCode, plainCore "a")

/-- The tail of the two-step code chain. -/
def restC1 : List (LeafType × StepCore) := [(.actionCode, plainCore "b")]

/-! ## Theorems -/

/-- The unfolded equation of `delOpt` on a present head (recovers the
source's callback shape: splice if named `n`, else rewrite). -/
theorem delOpt_some (n : String) (s : FStep) :
    delOpt n (some s) =
      if s.name = n then delTail n s.next else some (delStep n s) := by
  cases s <;> rfl

/-- Structural induction over steps, with inductive hypotheses for the
optional slots and for the members of a router's `children`. -/
theorem FStep.inductionOn {P : FStep → Prop}
    (hsimple : ∀ t c nx, (∀ s, nx = some s → P s) → P (.simple t c nx))
    (hloop : ∀ c b nx, (∀ s, b = some s → P s) → (∀ s, nx = some s → P s) →
      P (.loopOnItems c b nx))
    (hbranch : ∀ c os f nx, (∀ s, os = some s → P s) → (∀ s, f = some s → P s) →
      (∀ s, nx = some s → P s) → P (.branch c os f nx))
    (hrouter : ∀ c ch nx, (∀ s, some s ∈ ch → P s) → (∀ s, nx = some s → P s) →
      P (.router c ch nx)) :
    ∀ s, P s := by
  have key : ∀ n (s : FStep), sizeOf s ≤ n → P s := by
    intro n
    induction n with
    | zero =>
        intro s hs
        exact absurd hs (by cases s <;> simp_arith)
    | succ n ih =>
        intro s hs
        cases s with
        | simple t c nx =>
            apply hsimple
            intro s' hs'
            apply ih
            subst hs'
            simp_arith at hs
            omega
        | loopOnItems c b nx =>
            apply hloop <;> intro s' hs' <;> apply ih <;> subst hs' <;>
              simp_arith at hs <;> omega
        | branch c os f nx =>
            apply hbranch <;> intro s' hs' <;> apply ih <;> subst hs' <;>
              simp_arith at hs <;> omega
        | router c ch nx =>
            apply hrouter
            · intro s' hs'
              apply ih
              have h1 : sizeOf (some s') < sizeOf ch := List.sizeOf_lt_of_mem hs'
              simp_arith at hs h1
              omega
            · intro s' hs'
              apply ih
              subst hs'
              simp_arith at hs
              omega
  exact fun s => key (sizeOf s) s le_rfl

theorem list_map_id_of {α : Type} (f : α → α) :
    ∀ (l : List α), (∀ x ∈ l, f x = x) → l.map f = l
  | [], _ => rfl
  | x :: xs, h => by
      simp only [List.map_cons, List.cons.injEq]
      exact ⟨h x (List.mem_cons_self x xs),
        list_map_id_of f xs (fun y hy => h y (List.mem_cons_of_mem x hy))⟩

/-- A step is the head of its own traversal. -/
theorem mem_traverseStep_self (s : FStep) : s ∈ traverseStep s := by
  cases s <;> simp [traverseStep]

/-- Membership in a child's traversal lifts to the flattened traversal of
the `children`. -/
theorem mem_traverseChildren_of_mem (x u : FStep) :
    ∀ (l : List (Option FStep)), some x ∈ l → u ∈ traverseStep x →
      u ∈ traverseChildren l
  | [], hx, _ => by cases hx
  | y :: ys, hx, hu => by
      rcases List.mem_cons.mp hx with hy | hy
      · subst hy
        simp only [traverseChildren, traverseOpt, List.mem_append]
        left; exact hu
      · simp only [traverseChildren, List.mem_append]
        right; exact mem_traverseChildren_of_mem x u ys hy hu

/-- `abNext` on a head that is not a router named `r` is `abStep` of the
head. -/
theorem abNext_some_of_not_router (r : String) (i : Nat) (h : FStep)
    (hh : isRouterNamed r h = false) :
    abNext r i (some h) = some (abStep r i h) := by
  cases h with
  | simple t c nx => rfl
  | loopOnItems c b nx => rfl
  | branch c os f nx => rfl
  | router c ch nx =>
      simp only [isRouterNamed] at hh
      simp only [abNext, abStep, if_neg (of_decide_eq_false hh)]

theorem abChildren_eq_map (r : String) (i : Nat) :
    ∀ (l : List (Option FStep)), abChildren r i l = l.map (abSlot r i)
  | [] => rfl
  | c :: cs => by
      simp only [abChildren, List.map_cons, List.cons.injEq, true_and]
      exact abChildren_eq_map r i cs

/-- If no step reachable from `s` has a router named `r` as its
`nextAction`, the `ADD_BRANCH` rewrite leaves `s` unchanged. -/
theorem abStep_id (r : String) (i : Nat) :
    ∀ s : FStep, (∀ u ∈ traverseStep s, nextTargetsRouter r u = false) →
      abStep r i s = s := by
  intro s
  induction s using FStep.inductionOn with
  | hsimple t c nx ih =>
      intro hyp
      have hself := hyp (FStep.simple t c nx) (mem_traverseStep_self _)
      cases nx with
      | none => rfl
      | some h =>
          simp only [nextTargetsRouter, FStep.next] at hself
          simp only [abStep, abNext_some_of_not_router r i h hself]
          rw [ih h rfl (fun u hu => hyp u (by
            simp [traverseStep, traverseOpt, List.mem_cons, List.mem_append, hu]))]
  | hloop c b nx ihb ihn =>
      intro hyp
      have hself := hyp (FStep.loopOnItems c b nx) (mem_traverseStep_self _)
      simp only [abStep]
      congr 1
      · cases b with
        | none => rfl
        | some hb =>
            simp only [abSlot]
            rw [ihb hb rfl (fun u hu => hyp u (by
              simp [traverseStep, traverseOpt, List.mem_cons, List.mem_append, hu]))]
      · cases nx with
        | none => rfl
        | some h =>
            simp only [nextTargetsRouter, FStep.next] at hself
            rw [abNext_some_of_not_router r i h hself,
              ihn h rfl (fun u hu => hyp u (by
                simp [traverseStep, traverseOpt, List.mem_cons, List.mem_append, hu]))]
  | hbranch c os f nx ihos ihf ihn =>
      intro hyp
      have hself := hyp (FStep.branch c os f nx) (mem_traverseStep_self _)
      simp only [abStep]
      congr 1
      · cases os with
        | none => rfl
        | some hb =>
            simp only [abSlot]
            rw [ihos hb rfl (fun u hu => hyp u (by
              simp [traverseStep, traverseOpt, List.mem_cons, List.mem_append, hu]))]
      · cases f with
        | none => rfl
        | some hb =>
            simp only [abSlot]
            rw [ihf hb rfl (fun u hu => hyp u (by
              simp [traverseStep, traverseOpt, List.mem_cons, List.mem_append, hu]))]
      · cases nx with
        | none => rfl
        | some h =>
            simp only [nextTargetsRouter, FStep.next] at hself
            rw [abNext_some_of_not_router r i h hself,
              ihn h rfl (fun u hu => hyp u (by
                simp [traverseStep, traverseOpt, List.mem_cons, List.mem_append, hu]))]
  | hrouter c ch nx ihch ihn =>
      intro hyp
      have hself := hyp (FStep.router c ch nx) (mem_traverseStep_self _)
      simp only [abStep]
      congr 1
      · rw [abChildren_eq_map]
        apply list_map_id_of
        intro x hx
        cases x with
        | none => rfl
        | some hb =>
            simp only [abSlot]
            rw [ihch hb hx (fun u hu => hyp u (by
              simp only [traverseStep, List.mem_cons, List.mem_append]
              right; left
              exact mem_traverseChildren_of_mem hb u ch hx hu))]
      · cases nx with
        | none => rfl
        | some h =>
            simp only [nextTargetsRouter, FStep.next] at hself
            rw [abNext_some_of_not_router r i h hself,
              ihn h rfl (fun u hu => hyp u (by
                simp [traverseStep, traverseOpt, List.mem_cons, List.mem_append, hu]))]

/-- `dbNext` on a head that is not a router named `r` is `dbStep` of the
head. -/
theorem dbNext_some_of_not_router (r : String) (i : Nat) (h : FStep)
    (hh : isRouterNamed r h = false) :
    dbNext r i (some h) = some (dbStep r i h) := by
  cases h with
  | simple t c nx => rfl
  | loopOnItems c b nx => rfl
  | branch c os f nx => rfl
  | router c ch nx =>
      simp only [isRouterNamed] at hh
      simp only [dbNext, dbStep, if_neg (of_decide_eq_false hh)]

theorem dbChildren_eq_map (r : String) (i : Nat) :
    ∀ (l : List (Option FStep)), dbChildren r i l = l.map (dbSlot r i)
  | [] => rfl
  | c :: cs => by
      simp only [dbChildren, List.map_cons, List.cons.injEq, true_and]
      exact dbChildren_eq_map r i cs

/-- If no step reachable from `s` has a router named `r` as its
`nextAction`, the `DELETE_BRANCH` rewrite leaves `s` unchanged. -/
theorem dbStep_id (r : String) (i : Nat) :
    ∀ s : FStep, (∀ u ∈ traverseStep s, nextTargetsRouter r u = false) →
      dbStep r i s = s := by
  intro s
  induction s using FStep.inductionOn with
  | hsimple t c nx ih =>
      intro hyp
      have hself := hyp (FStep.simple t c nx) (mem_traverseStep_self _)
      cases nx with
      | none => rfl
      | some h =>
          simp only [nextTargetsRouter, FStep.next] at hself
          simp only [dbStep, dbNext_some_of_not_router r i h hself]
          rw [ih h rfl (fun u hu => hyp u (by
            simp [traverseStep, traverseOpt, List.mem_cons, List.mem_append, hu]))]
  | hloop c b nx ihb ihn =>
      intro hyp
      have hself := hyp (FStep.loopOnItems c b nx) (mem_traverseStep_self _)
      simp only [dbStep]
      congr 1
      · cases b with
        | none => rfl
        | some hb =>
            simp only [dbSlot]
            rw [ihb hb rfl (fun u hu => hyp u (by
              simp [traverseStep, traverseOpt, List.mem_cons, List.mem_append, hu]))]
      · cases nx with
        | none => rfl
        | some h =>
            simp only [nextTargetsRouter, FStep.next] at hself
            rw [dbNext_some_of_not_router r i h hself,
              ihn h rfl (fun u hu => hyp u (by
                simp [traverseStep, traverseOpt, List.mem_cons, List.mem_append, hu]))]
  | hbranch c os f nx ihos ihf ihn =>
      intro hyp
      have hself := hyp (FStep.branch c os f nx) (mem_traverseStep_self _)
      simp only [dbStep]
      congr 1
      · cases os with
        | none => rfl
        | some hb =>
            simp only [dbSlot]
            rw [ihos hb rfl (fun u hu => hyp u (by
              simp [traverseStep, traverseOpt, List.mem_cons, List.mem_append, hu]))]
      · cases f with
        | none => rfl
        | some hb =>
            simp only [dbSlot]
            rw [ihf hb rfl (fun u hu => hyp u (by
              simp [traverseStep, traverseOpt, List.mem_cons, List.mem_append, hu]))]
      · cases nx with
        | none => rfl
        | some h =>
            simp only [nextTargetsRouter, FStep.next] at hself
            rw [dbNext_some_of_not_router r i h hself,
              ihn h rfl (fun u hu => hyp u (by
                simp [traverseStep, traverseOpt, List.mem_cons, List.mem_append, hu]))]
  | hrouter c ch nx ihch ihn =>
      intro hyp
      have hself := hyp (FStep.router c ch nx) (mem_traverseStep_self _)
      simp only [dbStep]
      congr 1
      · rw [dbChildren_eq_map]
        apply list_map_id_of
        intro x hx
        cases x with
        | none => rfl
        | some hb =>
            simp only [dbSlot]
            rw [ihch hb hx (fun u hu => hyp u (by
              simp [traverseStep, List.mem_cons, List.mem_append,
                mem_traverseChildren_of_mem hb u ch hx hu]))]
      · cases nx with
        | none => rfl
        | some h =>
            simp only [nextTargetsRouter, FStep.next] at hself
            rw [dbNext_some_of_not_router r i h hself,
              ihn h rfl (fun u hu => hyp u (by
                simp [traverseStep, traverseOpt, List.mem_cons, List.mem_append, hu]))]

/-- `abNext` on a router head named `r` whose own subtree contains no
further firing site: the branch and the `null` child are spliced in and
nothing else changes. -/
theorem abNext_fires (r : String) (i : Nat) (c : StepCore)
    (ch : List (Option FStep)) (nx : Option FStep) (hname : c.name = r)
    (hyp : ∀ u ∈ traverseStep (FStep.router c ch nx), nextTargetsRouter r u = false) :
    abNext r i (some (.router c ch nx)) =
      some (.router (addBranchCore i c) (jsSpliceInsert ch i none) nx) := by
  have hself := hyp (FStep.router c ch nx) (mem_traverseStep_self _)
  have habch : abChildren r i ch = ch := by
    rw [abChildren_eq_map]
    apply list_map_id_of
    intro x hx
    cases x with
    | none => rfl
    | some hb =>
        simp only [abSlot]
        rw [abStep_id r i hb (fun u hu => hyp u (by
          simp [traverseStep, List.mem_cons, List.mem_append,
            mem_traverseChildren_of_mem hb u ch hx hu]))]
  have habnx : abNext r i nx = nx := by
    cases nx with
    | none => rfl
    | some h =>
        simp only [nextTargetsRouter, FStep.next] at hself
        rw [abNext_some_of_not_router r i h hself,
          abStep_id r i h (fun u hu => hyp u (by
            simp [traverseStep, traverseOpt, List.mem_cons, List.mem_append, hu]))]
  simp only [abNext, if_pos hname, habch, habnx]

/-- C10: `ADD_BRANCH` and `DELETE_BRANCH` modify a router only when it is
reachable as the `nextAction` of some step; when no step's `nextAction`
is a router named `stepName` — in particular when the named router heads
a loop body, a branch slot or a router child slot — `apply` returns the
flow unchanged (`flow.valid` recomputed as always) and raises no error. -/
theorem claim_C10_branch_ops_ignore_structural_routers
    (fv : FlowVersion) (r : String) (i : Nat)
    (h : ∀ u ∈ getAllSteps fv.trigger, nextTargetsRouter r u = false) :
    applyF fv (.addBranch r i) = .ok { fv with valid := isValidT fv.trigger } ∧
    applyF fv (.deleteBranch r i) = .ok { fv with valid := isValidT fv.trigger } := by
  constructor
  · have h1 : applyF fv (.addBranch r i) =
        .ok { fv with
                trigger := abStep r i fv.trigger
                valid := isValidT (abStep r i fv.trigger) } := rfl
    rw [h1, abStep_id r i fv.trigger h]
  · have h1 : applyF fv (.deleteBranch r i) =
        .ok { fv with
                trigger := dbStep r i fv.trigger
                valid := isValidT (dbStep r i fv.trigger) } := rfl
    rw [h1, dbStep_id r i fv.trigger h]

/-- C10 (witness): the theorem applied to a loop whose body heads a
two-branch router, hypotheses evaluated by `decide`. -/
theorem claim_C10_witness :
    (∀ u ∈ getAllSteps exFlowC10.trigger, nextTargetsRouter "r" u = false) ∧
    (applyF exFlowC10 (.addBranch "r" 1) =
        .ok { exFlowC10 with valid := isValidT exFlowC10.trigger } ∧
      applyF exFlowC10 (.deleteBranch "r" 1) =
        .ok { exFlowC10 with valid := isValidT exFlowC10.trigger }) :=
  ⟨by decide,
    claim_C10_branch_ops_ignore_structural_routers exFlowC10 "r" 1 (by decide)⟩

/-- C4 counterexample: adding a branch at index 1 to a router with two
branches inserts a branch named `"Branch 2"` — the branch count before
insertion — not `"Branch 3"` as the claim states. -/
theorem claim_C4_counterexample :
    (applyF exFlowC4 (.addBranch "r" 1)).map flowRouterBranchNames =
        .ok ["B1", "Branch 2", "B2"] ∧
      (applyF exFlowC4 (.addBranch "r" 1)).map flowRouterBranchNames ≠
        .ok ["B1", "Branch 3", "B2"] := by
  constructor
  · decide
  · decide

/-- C4 (amended): applying `ADD_BRANCH` at `branch_index` to a router
with `n` branches (reachable as the trigger's `nextAction`, the rest of
the tree free of further firing sites) inserts `null` into `children` at
that index and the fresh condition branch `createEmptyBranch n` — named
`"Branch <n>"`, where `n` is the branch count before the insertion — into
`settings.branches` at the same index. -/
theorem claim_C4_amended (dn : String) (st : FlowVersionState) (vd : Bool)
    (tl : LeafType) (tc : StepCore) (rc : StepCore)
    (ch : List (Option FStep)) (rnx : Option FStep) (i : Nat)
    (hR : ∀ u ∈ traverseStep (FStep.router rc ch rnx),
      nextTargetsRouter rc.name u = false) :
    applyF ⟨dn, st, .simple tl tc (some (.router rc ch rnx)), vd⟩
        (.addBranch rc.name i) =
      .ok ⟨dn, st,
        .simple tl tc (some (.router (addBranchCore i rc)
          (jsSpliceInsert ch i none) rnx)),
        isValidT (.simple tl tc (some (.router (addBranchCore i rc)
          (jsSpliceInsert ch i none) rnx)))⟩ := by
  have h1 : applyF ⟨dn, st, .simple tl tc (some (.router rc ch rnx)), vd⟩
      (.addBranch rc.name i) =
      .ok ⟨dn, st,
        .simple tl tc (abNext rc.name i (some (.router rc ch rnx))),
        isValidT (.simple tl tc (abNext rc.name i (some (.router rc ch rnx))))⟩ := rfl
  rw [h1, abNext_fires rc.name i rc ch rnx rfl hR]

/-- `createAction` cannot fail on an action-typed request. -/
theorem createActionF_ok_of_action (payload : FStep)
    (hact : payload.isAction = true) (nx os f fl : Option FStep)
    (ch : Option (List (Option FStep))) :
    ∃ a, createActionF payload nx os f fl ch = .ok a := by
  cases payload with
  | simple t c n =>
      cases t with
      | triggerEmpty => simp [FStep.isAction] at hact
      | triggerPiece => simp [FStep.isAction] at hact
      | actionCode => exact ⟨_, rfl⟩
      | actionPiece => exact ⟨_, rfl⟩
  | loopOnItems c b n => exact ⟨_, rfl⟩
  | branch c o ff n => exact ⟨_, rfl⟩
  | router c chl n => exact ⟨_, rfl⟩

/-- An `addOptE` failure comes from the head's `addStepE`. -/
theorem addOptE_error_inv (req : AddActionRequest)
    (ctx : Option (List (Option FStep))) :
    ∀ (o : Option FStep) (e : FlowError), addOptE req ctx o = .error e →
      ∃ hb, o = some hb ∧ addStepE req ctx hb = .error e := by
  intro o e h
  cases o with
  | none => exact Except.noConfusion h
  | some s =>
      simp only [addOptE] at h
      cases hx : addStepE req ctx s with
      | error e2 =>
          rw [hx, exBind_err] at h
          cases h
          exact ⟨s, rfl, hx⟩
      | ok a =>
          rw [hx, exBind_ok] at h
          exact Except.noConfusion h

/-- An `addChildrenE` failure comes from some member's `addStepE`. -/
theorem addChildrenE_error_inv (req : AddActionRequest)
    (ctx : Option (List (Option FStep))) :
    ∀ (l : List (Option FStep)) (e : FlowError), addChildrenE req ctx l = .error e →
      ∃ hb, some hb ∈ l ∧ addStepE req ctx hb = .error e
  | [], e, h => Except.noConfusion h
  | c :: cs, e, h => by
      simp only [addChildrenE] at h
      cases hx : addOptE req ctx c with
      | error e2 =>
          rw [hx, exBind_err] at h
          cases h
          obtain ⟨hb, hc, hs⟩ := addOptE_error_inv req ctx c _ hx
          exact ⟨hb, by simp [hc], hs⟩
      | ok a =>
          rw [hx, exBind_ok] at h
          cases hy : addChildrenE req ctx cs with
          | error e2 =>
              rw [hy, exBind_err] at h
              cases h
              obtain ⟨hb, hc, hs⟩ := addChildrenE_error_inv req ctx cs _ hy
              exact ⟨hb, List.mem_cons_of_mem _ hc, hs⟩
          | ok a2 =>
              rw [hy, exBind_ok] at h
              exact Except.noConfusion h

/-- An `addChildrenAtE` failure (for an action-typed payload) comes from
some member's `addStepE`. -/
theorem addChildrenAtE_error_inv (req : AddActionRequest)
    (ctx : Option (List (Option FStep))) (hact : req.action.isAction = true) :
    ∀ (i : Nat) (l : List (Option FStep)) (e : FlowError),
      addChildrenAtE req ctx i l = .error e →
      ∃ hb, some hb ∈ l ∧ addStepE req ctx hb = .error e
  | i, [], e, h => by
      obtain ⟨a, ha⟩ := createActionF_ok_of_action req.action hact none none none none ctx
      simp only [addChildrenAtE, ha, exBind_ok] at h
      exact Except.noConfusion h
  | 0, c :: cs, e, h => by
      obtain ⟨a, ha⟩ := createActionF_ok_of_action req.action hact c none none none ctx
      simp only [addChildrenAtE, ha, exBind_ok] at h
      cases hx : addOptE req ctx c with
      | error e2 =>
          rw [hx, exBind_err] at h
          cases h
          obtain ⟨hb, hc, hs⟩ := addOptE_error_inv req ctx c _ hx
          exact ⟨hb, by simp [hc], hs⟩
      | ok a2 =>
          rw [hx, exBind_ok] at h
          cases hy : addChildrenE req ctx cs with
          | error e2 =>
              rw [hy, exBind_err] at h
              cases h
              obtain ⟨hb, hc, hs⟩ := addChildrenE_error_inv req ctx cs _ hy
              exact ⟨hb, List.mem_cons_of_mem _ hc, hs⟩
          | ok a3 =>
              rw [hy, exBind_ok] at h
              exact Except.noConfusion h
  | Nat.succ i, c :: cs, e, h => by
      simp only [addChildrenAtE] at h
      cases hx : addOptE req ctx c with
      | error e2 =>
          rw [hx, exBind_err] at h
          cases h
          obtain ⟨hb, hc, hs⟩ := addOptE_error_inv req ctx c _ hx
          exact ⟨hb, by simp [hc], hs⟩
      | ok a =>
          rw [hx, exBind_ok] at h
          cases hy : addChildrenAtE req ctx i cs with
          | error e2 =>
              rw [hy, exBind_err] at h
              cases h
              obtain ⟨hb, hc, hs⟩ := addChildrenAtE_error_inv req ctx hact i cs _ hy
              exact ⟨hb, List.mem_cons_of_mem _ hc, hs⟩
          | ok a2 =>
              rw [hy, exBind_ok] at h
              exact Except.noConfusion h

/-- Every failure of `addAction` on an action-typed request is a
`FLOW_OPERATION_INVALID` error (the only `throw` sites in the callback). -/
theorem addStepE_error_classified (req : AddActionRequest)
    (ctx : Option (List (Option FStep))) (hact : req.action.isAction = true) :
    ∀ s : FStep, ∀ e : FlowError, addStepE req ctx s = .error e →
      ∃ m, e = .flowOperationInvalid m := by
  intro s
  induction s using FStep.inductionOn with
  | hsimple t c nx ih =>
      intro e h
      simp only [addStepE] at h
      split at h
      · obtain ⟨a, ha⟩ := createActionF_ok_of_action req.action hact nx none none none ctx
        rw [ha, exBind_ok] at h
        cases hx : addOptE req ctx nx with
        | error e2 =>
            rw [hx, exBind_err] at h
            cases h
            obtain ⟨hb, hc, hs⟩ := addOptE_error_inv req ctx nx _ hx
            exact ih hb hc _ hs
        | ok a2 => rw [hx, exBind_ok] at h; exact Except.noConfusion h
      · cases hx : addOptE req ctx nx with
        | error e2 =>
            rw [hx, exBind_err] at h
            cases h
            obtain ⟨hb, hc, hs⟩ := addOptE_error_inv req ctx nx _ hx
            exact ih hb hc _ hs
        | ok a2 => rw [hx, exBind_ok] at h; exact Except.noConfusion h
  | hloop c b nx ihb ihn =>
      intro e h
      simp only [addStepE] at h
      split at h
      · split at h
        · obtain ⟨a, ha⟩ := createActionF_ok_of_action req.action hact b none none none ctx
          rw [ha, exBind_ok] at h
          cases hx : addOptE req ctx b with
          | error e2 =>
              rw [hx, exBind_err] at h
              cases h
              obtain ⟨hb, hc, hs⟩ := addOptE_error_inv req ctx b _ hx
              exact ihb hb hc _ hs
          | ok a2 =>
              rw [hx, exBind_ok] at h
              cases hy : addOptE req ctx nx with
              | error e2 =>
                  rw [hy, exBind_err] at h
                  cases h
                  obtain ⟨hb, hc, hs⟩ := addOptE_error_inv req ctx nx _ hy
                  exact ihn hb hc _ hs
              | ok a3 => rw [hy, exBind_ok] at h; exact Except.noConfusion h
        · obtain ⟨a, ha⟩ := createActionF_ok_of_action req.action hact nx none none none ctx
          rw [ha, exBind_ok] at h
          cases hx : addOptE req ctx b with
          | error e2 =>
              rw [hx, exBind_err] at h
              cases h
              obtain ⟨hb, hc, hs⟩ := addOptE_error_inv req ctx b _ hx
              exact ihb hb hc _ hs
          | ok a2 =>
              rw [hx, exBind_ok] at h
              cases hy : addOptE req ctx nx with
              | error e2 =>
                  rw [hy, exBind_err] at h
                  cases h
                  obtain ⟨hb, hc, hs⟩ := addOptE_error_inv req ctx nx _ hy
                  exact ihn hb hc _ hs
              | ok a3 => rw [hy, exBind_ok] at h; exact Except.noConfusion h
        · cases h; exact ⟨_, rfl⟩
        · obtain ⟨a, ha⟩ := createActionF_ok_of_action req.action hact nx none none none ctx
          rw [ha, exBind_ok] at h
          cases hx : addOptE req ctx b with
          | error e2 =>
              rw [hx, exBind_err] at h
              cases h
              obtain ⟨hb, hc, hs⟩ := addOptE_error_inv req ctx b _ hx
              exact ihb hb hc _ hs
          | ok a2 =>
              rw [hx, exBind_ok] at h
              cases hy : addOptE req ctx nx with
              | error e2 =>
                  rw [hy, exBind_err] at h
                  cases h
                  obtain ⟨hb, hc, hs⟩ := addOptE_error_inv req ctx nx _ hy
                  exact ihn hb hc _ hs
              | ok a3 => rw [hy, exBind_ok] at h; exact Except.noConfusion h
      · cases hx : addOptE req ctx b with
        | error e2 =>
            rw [hx, exBind_err] at h
            cases h
            obtain ⟨hb, hc, hs⟩ := addOptE_error_inv req ctx b _ hx
            exact ihb hb hc _ hs
        | ok a2 =>
            rw [hx, exBind_ok] at h
            cases hy : addOptE req ctx nx with
            | error e2 =>
                rw [hy, exBind_err] at h
                cases h
                obtain ⟨hb, hc, hs⟩ := addOptE_error_inv req ctx nx _ hy
                exact ihn hb hc _ hs
            | ok a3 => rw [hy, exBind_ok] at h; exact Except.noConfusion h
  | hbranch c os f nx ihos ihf ihn =>
      intro e h
      simp only [addStepE] at h
      split at h
      · split at h
        · obtain ⟨a, ha⟩ := createActionF_ok_of_action req.action hact os none none none ctx
          rw [ha, exBind_ok] at h
          cases hx : addOptE req ctx os with
          | error e2 =>
              rw [hx, exBind_err] at h
              cases h
              obtain ⟨hb, hc, hs⟩ := addOptE_error_inv req ctx os _ hx
              exact ihos hb hc _ hs
          | ok a2 =>
              rw [hx, exBind_ok] at h
              cases hy : addOptE req ctx f with
              | error e2 =>
                  rw [hy, exBind_err] at h
                  cases h
                  obtain ⟨hb, hc, hs⟩ := addOptE_error_inv req ctx f _ hy
                  exact ihf hb hc _ hs
              | ok a3 =>
                  rw [hy, exBind_ok] at h
                  cases hz : addOptE req ctx nx with
                  | error e2 =>
                      rw [hz, exBind_err] at h
                      cases h
                      obtain ⟨hb, hc, hs⟩ := addOptE_error_inv req ctx nx _ hz
                      exact ihn hb hc _ hs
                  | ok a4 => rw [hz, exBind_ok] at h; exact Except.noConfusion h
        · obtain ⟨a, ha⟩ := createActionF_ok_of_action req.action hact f none none none ctx
          rw [ha, exBind_ok] at h
          cases hx : addOptE req ctx os with
          | error e2 =>
              rw [hx, exBind_err] at h
              cases h
              obtain ⟨hb, hc, hs⟩ := addOptE_error_inv req ctx os _ hx
              exact ihos hb hc _ hs
          | ok a2 =>
              rw [hx, exBind_ok] at h
              cases hy : addOptE req ctx f with
              | error e2 =>
                  rw [hy, exBind_err] at h
                  cases h
                  obtain ⟨hb, hc, hs⟩ := addOptE_error_inv req ctx f _ hy
                  exact ihf hb hc _ hs
              | ok a3 =>
                  rw [hy, exBind_ok] at h
                  cases hz : addOptE req ctx nx with
                  | error e2 =>
                      rw [hz, exBind_err] at h
                      cases h
                      obtain ⟨hb, hc, hs⟩ := addOptE_error_inv req ctx nx _ hz
                      exact ihn hb hc _ hs
                  | ok a4 => rw [hz, exBind_ok] at h; exact Except.noConfusion h
        · obtain ⟨a, ha⟩ := createActionF_ok_of_action req.action hact nx none none none ctx
          rw [ha, exBind_ok] at h
          cases hx : addOptE req ctx os with
          | error e2 =>
              rw [hx, exBind_err] at h
              cases h
              obtain ⟨hb, hc, hs⟩ := addOptE_error_inv req ctx os _ hx
              exact ihos hb hc _ hs
          | ok a2 =>
              rw [hx, exBind_ok] at h
              cases hy : addOptE req ctx f with
              | error e2 =>
                  rw [hy, exBind_err] at h
                  cases h
                  obtain ⟨hb, hc, hs⟩ := addOptE_error_inv req ctx f _ hy
                  exact ihf hb hc _ hs
              | ok a3 =>
                  rw [hy, exBind_ok] at h
                  cases hz : addOptE req ctx nx with
                  | error e2 =>
                      rw [hz, exBind_err] at h
                      cases h
                      obtain ⟨hb, hc, hs⟩ := addOptE_error_inv req ctx nx _ hz
                      exact ihn hb hc _ hs
                  | ok a4 => rw [hz, exBind_ok] at h; exact Except.noConfusion h
        · cases h; exact ⟨_, rfl⟩
        · obtain ⟨a, ha⟩ := createActionF_ok_of_action req.action hact nx none none none ctx
          rw [ha, exBind_ok] at h
          cases hx : addOptE req ctx os with
          | error e2 =>
              rw [hx, exBind_err] at h
              cases h
              obtain ⟨hb, hc, hs⟩ := addOptE_error_inv req ctx os _ hx
              exact ihos hb hc _ hs
          | ok a2 =>
              rw [hx, exBind_ok] at h
              cases hy : addOptE req ctx f with
              | error e2 =>
                  rw [hy, exBind_err] at h
                  cases h
                  obtain ⟨hb, hc, hs⟩ := addOptE_error_inv req ctx f _ hy
                  exact ihf hb hc _ hs
              | ok a3 =>
                  rw [hy, exBind_ok] at h
                  cases hz : addOptE req ctx nx with
                  | error e2 =>
                      rw [hz, exBind_err] at h
                      cases h
                      obtain ⟨hb, hc, hs⟩ := addOptE_error_inv req ctx nx _ hz
                      exact ihn hb hc _ hs
                  | ok a4 => rw [hz, exBind_ok] at h; exact Except.noConfusion h
      · cases hx : addOptE req ctx os with
        | error e2 =>
            rw [hx, exBind_err] at h
            cases h
            obtain ⟨hb, hc, hs⟩ := addOptE_error_inv req ctx os _ hx
            exact ihos hb hc _ hs
        | ok a2 =>
            rw [hx, exBind_ok] at h
            cases hy : addOptE req ctx f with
            | error e2 =>
                rw [hy, exBind_err] at h
                cases h
                obtain ⟨hb, hc, hs⟩ := addOptE_error_inv req ctx f _ hy
                exact ihf hb hc _ hs
            | ok a3 =>
                rw [hy, exBind_ok] at h
                cases hz : addOptE req ctx nx with
                | error e2 =>
                    rw [hz, exBind_err] at h
                    cases h
                    obtain ⟨hb, hc, hs⟩ := addOptE_error_inv req ctx nx _ hz
                    exact ihn hb hc _ hs
                | ok a4 => rw [hz, exBind_ok] at h; exact Except.noConfusion h
  | hrouter c ch nx ihch ihn =>
      intro e h
      simp only [addStepE] at h
      split at h
      · split at h
        · split at h
          · cases hx : addChildrenAtE req ctx _ ch with
            | error e2 =>
                rw [hx, exBind_err] at h
                cases h
                obtain ⟨hb, hc, hs⟩ := addChildrenAtE_error_inv req ctx hact _ ch _ hx
                exact ihch hb hc _ hs
            | ok a2 =>
                rw [hx, exBind_ok] at h
                cases hy : addOptE req ctx nx with
                | error e2 =>
                    rw [hy, exBind_err] at h
                    cases h
                    obtain ⟨hb, hc, hs⟩ := addOptE_error_inv req ctx nx _ hy
                    exact ihn hb hc _ hs
                | ok a3 => rw [hy, exBind_ok] at h; exact Except.noConfusion h
          · cases h; exact ⟨_, rfl⟩
        · obtain ⟨a, ha⟩ := createActionF_ok_of_action req.action hact nx none none none ctx
          rw [ha, exBind_ok] at h
          cases hx : addChildrenE req ctx ch with
          | error e2 =>
              rw [hx, exBind_err] at h
              cases h
              obtain ⟨hb, hc, hs⟩ := addChildrenE_error_inv req ctx ch _ hx
              exact ihch hb hc _ hs
          | ok a2 =>
              rw [hx, exBind_ok] at h
              cases hy : addOptE req ctx nx with
              | error e2 =>
                  rw [hy, exBind_err] at h
                  cases h
                  obtain ⟨hb, hc, hs⟩ := addOptE_error_inv req ctx nx _ hy
                  exact ihn hb hc _ hs
              | ok a3 => rw [hy, exBind_ok] at h; exact Except.noConfusion h
        · cases h; exact ⟨_, rfl⟩
        · obtain ⟨a, ha⟩ := createActionF_ok_of_action req.action hact nx none none none ctx
          rw [ha, exBind_ok] at h
          cases hx : addChildrenE req ctx ch with
          | error e2 =>
              rw [hx, exBind_err] at h
              cases h
              obtain ⟨hb, hc, hs⟩ := addChildrenE_error_inv req ctx ch _ hx
              exact ihch hb hc _ hs
          | ok a2 =>
              rw [hx, exBind_ok] at h
              cases hy : addOptE req ctx nx with
              | error e2 =>
                  rw [hy, exBind_err] at h
                  cases h
                  obtain ⟨hb, hc, hs⟩ := addOptE_error_inv req ctx nx _ hy
                  exact ihn hb hc _ hs
              | ok a3 => rw [hy, exBind_ok] at h; exact Except.noConfusion h
      · cases hx : addChildrenE req ctx ch with
        | error e2 =>
            rw [hx, exBind_err] at h
            cases h
            obtain ⟨hb, hc, hs⟩ := addChildrenE_error_inv req ctx ch _ hx
            exact ihch hb hc _ hs
        | ok a2 =>
            rw [hx, exBind_ok] at h
            cases hy : addOptE req ctx nx with
            | error e2 =>
                rw [hy, exBind_err] at h
                cases h
                obtain ⟨hb, hc, hs⟩ := addOptE_error_inv req ctx nx _ hy
                exact ihn hb hc _ hs
            | ok a3 => rw [hy, exBind_ok] at h; exact Except.noConfusion h

/-- Membership in `traverseOpt` forces a present head. -/
theorem mem_traverseOpt_inv (u : FStep) :
    ∀ (o : Option FStep), u ∈ traverseOpt o →
      ∃ hb, o = some hb ∧ u ∈ traverseStep hb
  | none, h => absurd h (by simp [traverseOpt])
  | some s, h => ⟨s, rfl, h⟩

/-- Membership in `traverseChildren` comes from some present member. -/
theorem mem_traverseChildren_inv (u : FStep) :
    ∀ (l : List (Option FStep)), u ∈ traverseChildren l →
      ∃ hb, some hb ∈ l ∧ u ∈ traverseStep hb
  | [], h => absurd h (by simp [traverseChildren])
  | c :: cs, h => by
      rcases List.mem_append.mp h with h1 | h2
      · obtain ⟨hb, hc, hm⟩ := mem_traverseOpt_inv u c h1
        exact ⟨hb, by simp [hc], hm⟩
      · obtain ⟨hb, hc, hm⟩ := mem_traverseChildren_inv u cs h2
        exact ⟨hb, List.mem_cons_of_mem _ hc, hm⟩

/-- A failing head makes the slot fail. -/
theorem addOptE_error_fwd (req : AddActionRequest)
    (ctx : Option (List (Option FStep))) (hb : FStep) (e : FlowError)
    (h : addStepE req ctx hb = .error e) :
    addOptE req ctx (some hb) = .error e := by
  simp only [addOptE, h, exBind_err]

/-- A failing member makes `addChildrenE` fail. -/
theorem addChildrenE_error_fwd (req : AddActionRequest)
    (ctx : Option (List (Option FStep))) (hb : FStep) (e : FlowError) :
    ∀ (l : List (Option FStep)), some hb ∈ l → addStepE req ctx hb = .error e →
      ∃ e2, addChildrenE req ctx l = .error e2
  | [], hmem, _ => absurd hmem (by simp)
  | c :: cs, hmem, hs => by
      simp only [addChildrenE]
      cases hx : addOptE req ctx c with
      | error e2 => exact ⟨e2, rfl⟩
      | ok a =>
          rcases List.mem_cons.mp hmem with hc | hc
          · subst hc
            rw [addOptE_error_fwd req ctx hb e hs] at hx
            exact Except.noConfusion hx
          · obtain ⟨e2, h2⟩ := addChildrenE_error_fwd req ctx hb e cs hc hs
            exact ⟨e2, by simp only [h2, exBind_ok, exBind_err]⟩

/-- A failing member makes `addChildrenAtE` fail. -/
theorem addChildrenAtE_error_fwd (req : AddActionRequest)
    (ctx : Option (List (Option FStep))) (hb : FStep) (e : FlowError) :
    ∀ (i : Nat) (l : List (Option FStep)), some hb ∈ l →
      addStepE req ctx hb = .error e →
      ∃ e2, addChildrenAtE req ctx i l = .error e2
  | _, [], hmem, _ => absurd hmem (by simp)
  | 0, c :: cs, hmem, hs => by
      simp only [addChildrenAtE]
      cases hcr : createActionF req.action c none none none ctx with
      | error e2 => exact ⟨e2, rfl⟩
      | ok a =>
          cases hx : addOptE req ctx c with
          | error e2 => exact ⟨e2, rfl⟩
          | ok a2 =>
              rcases List.mem_cons.mp hmem with hc | hc
              · subst hc
                rw [addOptE_error_fwd req ctx hb e hs] at hx
                exact Except.noConfusion hx
              · obtain ⟨e2, h2⟩ := addChildrenE_error_fwd req ctx hb e cs hc hs
                exact ⟨e2, by simp only [h2, exBind_ok, exBind_err]⟩
  | Nat.succ i, c :: cs, hmem, hs => by
      simp only [addChildrenAtE]
      cases hx : addOptE req ctx c with
      | error e2 => exact ⟨e2, rfl⟩
      | ok a =>
          rcases List.mem_cons.mp hmem with hc | hc
          · subst hc
            rw [addOptE_error_fwd req ctx hb e hs] at hx
            exact Except.noConfusion hx
          · obtain ⟨e2, h2⟩ := addChildrenAtE_error_fwd req ctx hb e i cs hc hs
            exact ⟨e2, by simp only [h2, exBind_ok, exBind_err]⟩

/-- A successful `addOptE` means the head (if any) succeeded. -/
theorem addOptE_ok_inv (req : AddActionRequest)
    (ctx : Option (List (Option FStep))) :
    ∀ (o : Option FStep) (o' : Option FStep), addOptE req ctx o = .ok o' →
      ∀ hb, o = some hb → ∃ a, addStepE req ctx hb = .ok a := by
  intro o o' h hb ho
  subst ho
  simp only [addOptE] at h
  cases hx : addStepE req ctx hb with
  | error e2 => rw [hx, exBind_err] at h; exact Except.noConfusion h
  | ok a => exact ⟨a, rfl⟩

/-- A successful `addChildrenE` means every member succeeded. -/
theorem addChildrenE_ok_inv (req : AddActionRequest)
    (ctx : Option (List (Option FStep))) :
    ∀ (l : List (Option FStep)) l', addChildrenE req ctx l = .ok l' →
      ∀ hb, some hb ∈ l → ∃ a, addStepE req ctx hb = .ok a
  | [], _, _, hb, hmem => absurd hmem (by simp)
  | c :: cs, l', h, hb, hmem => by
      simp only [addChildrenE] at h
      cases hx : addOptE req ctx c with
      | error e2 => rw [hx, exBind_err] at h; exact Except.noConfusion h
      | ok a =>
          rw [hx, exBind_ok] at h
          cases hy : addChildrenE req ctx cs with
          | error e2 => rw [hy, exBind_err] at h; exact Except.noConfusion h
          | ok l2 =>
              rcases List.mem_cons.mp hmem with hc | hc
              · exact addOptE_ok_inv req ctx c a hx hb hc.symm
              · exact addChildrenE_ok_inv req ctx cs l2 hy hb hc

/-- A successful `addChildrenAtE` means every member succeeded. -/
theorem addChildrenAtE_ok_inv (req : AddActionRequest)
    (ctx : Option (List (Option FStep))) :
    ∀ (i : Nat) (l : List (Option FStep)) l', addChildrenAtE req ctx i l = .ok l' →
      ∀ hb, some hb ∈ l → ∃ a, addStepE req ctx hb = .ok a
  | _, [], _, _, hb, hmem => absurd hmem (by simp)
  | 0, c :: cs, l', h, hb, hmem => by
      simp only [addChildrenAtE] at h
      cases hcr : createActionF req.action c none none none ctx with
      | error e2 => rw [hcr, exBind_err] at h; exact Except.noConfusion h
      | ok a =>
          rw [hcr, exBind_ok] at h
          cases hx : addOptE req ctx c with
          | error e2 => rw [hx, exBind_err] at h; exact Except.noConfusion h
          | ok a2 =>
              rw [hx, exBind_ok] at h
              cases hy : addChildrenE req ctx cs with
              | error e2 => rw [hy, exBind_err] at h; exact Except.noConfusion h
              | ok l2 =>
                  rcases List.mem_cons.mp hmem with hc | hc
                  · exact addOptE_ok_inv req ctx c a2 hx hb hc.symm
                  · exact addChildrenE_ok_inv req ctx cs l2 hy hb hc
  | Nat.succ i, c :: cs, l', h, hb, hmem => by
      simp only [addChildrenAtE] at h
      cases hx : addOptE req ctx c with
      | error e2 => rw [hx, exBind_err] at h; exact Except.noConfusion h
      | ok a =>
          rw [hx, exBind_ok] at h
          cases hy : addChildrenAtE req ctx i cs with
          | error e2 => rw [hy, exBind_err] at h; exact Except.noConfusion h
          | ok l2 =>
              rcases List.mem_cons.mp hmem with hc | hc
              · exact addOptE_ok_inv req ctx c a hx hb hc.symm
              · exact addChildrenAtE_ok_inv req ctx i cs l2 hy hb hc

/-- If `addAction` succeeds, every reachable step named `parentStep` had a
compatible location (the contrapositive of: an incompatible parent makes
the callback throw). -/
theorem addStepE_ok_compat (req : AddActionRequest)
    (ctx : Option (List (Option FStep))) :
    ∀ s : FStep, ∀ t, addStepE req ctx s = .ok t →
      ∀ u ∈ traverseStep s, u.name = req.parentStep →
        incompatibleLocation req u = false := by
  intro s
  induction s using FStep.inductionOn with
  | hsimple t c nx ih =>
      intro t' h u hu hname
      simp only [traverseStep, List.mem_cons] at hu
      rcases hu with rfl | hu
      · simp [incompatibleLocation]
      · obtain ⟨hb, rfl, hm⟩ := mem_traverseOpt_inv u nx hu
        simp only [addStepE] at h
        split at h
        · cases hcr : createActionF req.action (some hb) none none none ctx with
          | error e2 => rw [hcr, exBind_err] at h; exact Except.noConfusion h
          | ok a =>
              rw [hcr, exBind_ok] at h
              cases hx : addOptE req ctx (some hb) with
              | error e2 => rw [hx, exBind_err] at h; exact Except.noConfusion h
              | ok a2 =>
                  obtain ⟨a3, h3⟩ := addOptE_ok_inv req ctx (some hb) a2 hx hb rfl
                  exact ih hb rfl a3 h3 u hm hname
        · cases hx : addOptE req ctx (some hb) with
          | error e2 => rw [hx, exBind_err] at h; exact Except.noConfusion h
          | ok a2 =>
              obtain ⟨a3, h3⟩ := addOptE_ok_inv req ctx (some hb) a2 hx hb rfl
              exact ih hb rfl a3 h3 u hm hname
  | hloop c b nx ihb ihn =>
      intro t' h u hu hname
      simp only [traverseStep, List.mem_cons, List.mem_append] at hu
      simp only [addStepE] at h
      rcases hu with rfl | hu
      · -- the node itself is the matched parent: the arm that ran was a
        -- non-throwing one, which forces a compatible location
        simp only [FStep.name, FStep.core] at hname
        rw [if_pos hname] at h
        split at h
        · next heq => simp [incompatibleLocation, heq]
        · next heq => simp [incompatibleLocation, heq]
        · exact Except.noConfusion h
        · next heq => simp [incompatibleLocation, heq]
      · have hsub : ∀ hb2, (b = some hb2 ∨ nx = some hb2) → u ∈ traverseStep hb2 →
            (∃ a, addStepE req ctx hb2 = .ok a) →
            incompatibleLocation req u = false := by
          rintro hb2 (hslot | hslot) hm ⟨a, ha⟩
          · exact ihb hb2 hslot a ha u hm hname
          · exact ihn hb2 hslot a ha u hm hname
        split at h
        · split at h
          · cases hcr : createActionF req.action b none none none ctx with
            | error e2 => rw [hcr, exBind_err] at h; exact Except.noConfusion h
            | ok a =>
                rw [hcr, exBind_ok] at h
                cases hx : addOptE req ctx b with
                | error e2 => rw [hx, exBind_err] at h; exact Except.noConfusion h
                | ok a2 =>
                    rw [hx, exBind_ok] at h
                    cases hy : addOptE req ctx nx with
                    | error e2 => rw [hy, exBind_err] at h; exact Except.noConfusion h
                    | ok a3 =>
                        rcases hu with hub | hun
                        · obtain ⟨hb2, rfl, hm⟩ := mem_traverseOpt_inv u b hub
                          exact hsub hb2 (Or.inl rfl) hm
                            (addOptE_ok_inv req ctx _ a2 hx hb2 rfl)
                        · obtain ⟨hb2, rfl, hm⟩ := mem_traverseOpt_inv u nx hun
                          exact hsub hb2 (Or.inr rfl) hm
                            (addOptE_ok_inv req ctx _ a3 hy hb2 rfl)
          · cases hcr : createActionF req.action nx none none none ctx with
            | error e2 => rw [hcr, exBind_err] at h; exact Except.noConfusion h
            | ok a =>
                rw [hcr, exBind_ok] at h
                cases hx : addOptE req ctx b with
                | error e2 => rw [hx, exBind_err] at h; exact Except.noConfusion h
                | ok a2 =>
                    rw [hx, exBind_ok] at h
                    cases hy : addOptE req ctx nx with
                    | error e2 => rw [hy, exBind_err] at h; exact Except.noConfusion h
                    | ok a3 =>
                        rcases hu with hub | hun
                        · obtain ⟨hb2, rfl, hm⟩ := mem_traverseOpt_inv u b hub
                          exact hsub hb2 (Or.inl rfl) hm
                            (addOptE_ok_inv req ctx _ a2 hx hb2 rfl)
                        · obtain ⟨hb2, rfl, hm⟩ := mem_traverseOpt_inv u nx hun
                          exact hsub hb2 (Or.inr rfl) hm
                            (addOptE_ok_inv req ctx _ a3 hy hb2 rfl)
          · exact Except.noConfusion h
          · cases hcr : createActionF req.action nx none none none ctx with
            | error e2 => rw [hcr, exBind_err] at h; exact Except.noConfusion h
            | ok a =>
                rw [hcr, exBind_ok] at h
                cases hx : addOptE req ctx b with
                | error e2 => rw [hx, exBind_err] at h; exact Except.noConfusion h
                | ok a2 =>
                    rw [hx, exBind_ok] at h
                    cases hy : addOptE req ctx nx with
                    | error e2 => rw [hy, exBind_err] at h; exact Except.noConfusion h
                    | ok a3 =>
                        rcases hu with hub | hun
                        · obtain ⟨hb2, rfl, hm⟩ := mem_traverseOpt_inv u b hub
                          exact hsub hb2 (Or.inl rfl) hm
                            (addOptE_ok_inv req ctx _ a2 hx hb2 rfl)
                        · obtain ⟨hb2, rfl, hm⟩ := mem_traverseOpt_inv u nx hun
                          exact hsub hb2 (Or.inr rfl) hm
                            (addOptE_ok_inv req ctx _ a3 hy hb2 rfl)
        · cases hx : addOptE req ctx b with
          | error e2 => rw [hx, exBind_err] at h; exact Except.noConfusion h
          | ok a2 =>
              rw [hx, exBind_ok] at h
              cases hy : addOptE req ctx nx with
              | error e2 => rw [hy, exBind_err] at h; exact Except.noConfusion h
              | ok a3 =>
                  rcases hu with hub | hun
                  · obtain ⟨hb2, rfl, hm⟩ := mem_traverseOpt_inv u b hub
                    exact hsub hb2 (Or.inl rfl) hm
                      (addOptE_ok_inv req ctx _ a2 hx hb2 rfl)
                  · obtain ⟨hb2, rfl, hm⟩ := mem_traverseOpt_inv u nx hun
                    exact hsub hb2 (Or.inr rfl) hm
                      (addOptE_ok_inv req ctx _ a3 hy hb2 rfl)
  | hbranch c os f nx ihos ihf ihn =>
      intro t' h u hu hname
      simp only [traverseStep, List.mem_cons, List.mem_append] at hu
      simp only [addStepE] at h
      rcases hu with rfl | hu
      · simp only [FStep.name, FStep.core] at hname
        rw [if_pos hname] at h
        split at h
        · next heq => simp [incompatibleLocation, heq]
        · next heq => simp [incompatibleLocation, heq]
        · next heq => simp [incompatibleLocation, heq]
        · exact Except.noConfusion h
        · next heq => simp [incompatibleLocation, heq]
      · have hsub : ∀ hb2, (os = some hb2 ∨ f = some hb2 ∨ nx = some hb2) →
            u ∈ traverseStep hb2 → (∃ a, addStepE req ctx hb2 = .ok a) →
            incompatibleLocation req u = false := by
          rintro hb2 (hslot | hslot | hslot) hm ⟨a, ha⟩
          · exact ihos hb2 hslot a ha u hm hname
          · exact ihf hb2 hslot a ha u hm hname
          · exact ihn hb2 hslot a ha u hm hname
        have hdone : (∃ a2, addOptE req ctx os = .ok a2) →
            (∃ a3, addOptE req ctx f = .ok a3) →
            (∃ a4, addOptE req ctx nx = .ok a4) →
            incompatibleLocation req u = false := by
          rintro ⟨a2, hx⟩ ⟨a3, hy⟩ ⟨a4, hz⟩
          rcases hu with (hus | huf) | hun
          · obtain ⟨hb2, rfl, hm⟩ := mem_traverseOpt_inv u os hus
            exact hsub hb2 (Or.inl rfl) hm (addOptE_ok_inv req ctx _ a2 hx hb2 rfl)
          · obtain ⟨hb2, rfl, hm⟩ := mem_traverseOpt_inv u f huf
            exact hsub hb2 (Or.inr (Or.inl rfl)) hm
              (addOptE_ok_inv req ctx _ a3 hy hb2 rfl)
          · obtain ⟨hb2, rfl, hm⟩ := mem_traverseOpt_inv u nx hun
            exact hsub hb2 (Or.inr (Or.inr rfl)) hm
              (addOptE_ok_inv req ctx _ a4 hz hb2 rfl)
        split at h
        · split at h
          all_goals
            first
            | exact Except.noConfusion h
            | (cases hcr : createActionF req.action os none none none ctx with
               | error e2 => rw [hcr, exBind_err] at h; exact Except.noConfusion h
               | ok a =>
                  rw [hcr, exBind_ok] at h
                  cases hx : addOptE req ctx os with
                  | error e2 => rw [hx, exBind_err] at h; exact Except.noConfusion h
                  | ok a2 =>
                      rw [hx, exBind_ok] at h
                      cases hy : addOptE req ctx f with
                      | error e2 => rw [hy, exBind_err] at h; exact Except.noConfusion h
                      | ok a3 =>
                          rw [hy, exBind_ok] at h
                          cases hz : addOptE req ctx nx with
                          | error e2 => rw [hz, exBind_err] at h; exact Except.noConfusion h
                          | ok a4 => exact hdone ⟨a2, hx⟩ ⟨a3, hy⟩ ⟨a4, hz⟩)
            | (cases hcr : createActionF req.action f none none none ctx with
               | error e2 => rw [hcr, exBind_err] at h; exact Except.noConfusion h
               | ok a =>
                  rw [hcr, exBind_ok] at h
                  cases hx : addOptE req ctx os with
                  | error e2 => rw [hx, exBind_err] at h; exact Except.noConfusion h
                  | ok a2 =>
                      rw [hx, exBind_ok] at h
                      cases hy : addOptE req ctx f with
                      | error e2 => rw [hy, exBind_err] at h; exact Except.noConfusion h
                      | ok a3 =>
                          rw [hy, exBind_ok] at h
                          cases hz : addOptE req ctx nx with
                          | error e2 => rw [hz, exBind_err] at h; exact Except.noConfusion h
                          | ok a4 => exact hdone ⟨a2, hx⟩ ⟨a3, hy⟩ ⟨a4, hz⟩)
            | (cases hcr : createActionF req.action nx none none none ctx with
               | error e2 => rw [hcr, exBind_err] at h; exact Except.noConfusion h
               | ok a =>
                  rw [hcr, exBind_ok] at h
                  cases hx : addOptE req ctx os with
                  | error e2 => rw [hx, exBind_err] at h; exact Except.noConfusion h
                  | ok a2 =>
                      rw [hx, exBind_ok] at h
                      cases hy : addOptE req ctx f with
                      | error e2 => rw [hy, exBind_err] at h; exact Except.noConfusion h
                      | ok a3 =>
                          rw [hy, exBind_ok] at h
                          cases hz : addOptE req ctx nx with
                          | error e2 => rw [hz, exBind_err] at h; exact Except.noConfusion h
                          | ok a4 => exact hdone ⟨a2, hx⟩ ⟨a3, hy⟩ ⟨a4, hz⟩)
        · cases hx : addOptE req ctx os with
          | error e2 => rw [hx, exBind_err] at h; exact Except.noConfusion h
          | ok a2 =>
              rw [hx, exBind_ok] at h
              cases hy : addOptE req ctx f with
              | error e2 => rw [hy, exBind_err] at h; exact Except.noConfusion h
              | ok a3 =>
                  rw [hy, exBind_ok] at h
                  cases hz : addOptE req ctx nx with
                  | error e2 => rw [hz, exBind_err] at h; exact Except.noConfusion h
                  | ok a4 => exact hdone ⟨a2, hx⟩ ⟨a3, hy⟩ ⟨a4, hz⟩
  | hrouter c ch nx ihch ihn =>
      intro t' h u hu hname
      simp only [traverseStep, List.mem_cons, List.mem_append] at hu
      simp only [addStepE] at h
      rcases hu with rfl | hu
      · simp only [FStep.name, FStep.core] at hname
        rw [if_pos hname] at h
        split at h
        next heqloc =>
          split at h
          next i2 heqbi => simp [incompatibleLocation, heqloc, heqbi]
          next heqbi => exact Except.noConfusion h
        next heqloc => simp [incompatibleLocation, heqloc]
        next loc2 heqloc => exact Except.noConfusion h
        next heqloc => simp [incompatibleLocation, heqloc]
      · have hsub : ∀ hb2, (some hb2 ∈ ch ∨ nx = some hb2) →
            u ∈ traverseStep hb2 → (∃ a, addStepE req ctx hb2 = .ok a) →
            incompatibleLocation req u = false := by
          rintro hb2 (hslot | hslot) hm ⟨a, ha⟩
          · exact ihch hb2 hslot a ha u hm hname
          · exact ihn hb2 hslot a ha u hm hname
        have hdone : (∀ hb2, some hb2 ∈ ch → ∃ a, addStepE req ctx hb2 = .ok a) →
            (∃ a4, addOptE req ctx nx = .ok a4) →
            incompatibleLocation req u = false := by
          rintro hch ⟨a4, hz⟩
          rcases hu with huc | hun
          · obtain ⟨hb2, hcm, hm⟩ := mem_traverseChildren_inv u ch huc
            exact hsub hb2 (Or.inl hcm) hm (hch hb2 hcm)
          · obtain ⟨hb2, rfl, hm⟩ := mem_traverseOpt_inv u nx hun
            exact hsub hb2 (Or.inr rfl) hm (addOptE_ok_inv req ctx _ a4 hz hb2 rfl)
        split at h
        next hnm =>
          split at h
          next heqloc =>
            split at h
            next i2 heqbi =>
              cases hx : addChildrenAtE req ctx i2 ch with
              | error e2 => rw [hx, exBind_err] at h; exact Except.noConfusion h
              | ok l2 =>
                  rw [hx, exBind_ok] at h
                  cases hy : addOptE req ctx nx with
                  | error e2 => rw [hy, exBind_err] at h; exact Except.noConfusion h
                  | ok a4 =>
                      exact hdone (fun hb2 hcm =>
                        addChildrenAtE_ok_inv req ctx i2 ch l2 hx hb2 hcm) ⟨a4, hy⟩
            next heqbi => exact Except.noConfusion h
          next heqloc =>
            cases hcr : createActionF req.action nx none none none ctx with
            | error e2 => rw [hcr, exBind_err] at h; exact Except.noConfusion h
            | ok a =>
                rw [hcr, exBind_ok] at h
                cases hx : addChildrenE req ctx ch with
                | error e2 => rw [hx, exBind_err] at h; exact Except.noConfusion h
                | ok l2 =>
                    rw [hx, exBind_ok] at h
                    cases hy : addOptE req ctx nx with
                    | error e2 => rw [hy, exBind_err] at h; exact Except.noConfusion h
                    | ok a4 =>
                        exact hdone (fun hb2 hcm =>
                          addChildrenE_ok_inv req ctx ch l2 hx hb2 hcm) ⟨a4, hy⟩
          next loc2 heqloc => exact Except.noConfusion h
          next heqloc =>
            cases hcr : createActionF req.action nx none none none ctx with
            | error e2 => rw [hcr, exBind_err] at h; exact Except.noConfusion h
            | ok a =>
                rw [hcr, exBind_ok] at h
                cases hx : addChildrenE req ctx ch with
                | error e2 => rw [hx, exBind_err] at h; exact Except.noConfusion h
                | ok l2 =>
                    rw [hx, exBind_ok] at h
                    cases hy : addOptE req ctx nx with
                    | error e2 => rw [hy, exBind_err] at h; exact Except.noConfusion h
                    | ok a4 =>
                        exact hdone (fun hb2 hcm =>
                          addChildrenE_ok_inv req ctx ch l2 hx hb2 hcm) ⟨a4, hy⟩
        next hnm =>
          cases hx : addChildrenE req ctx ch with
          | error e2 => rw [hx, exBind_err] at h; exact Except.noConfusion h
          | ok l2 =>
              rw [hx, exBind_ok] at h
              cases hy : addOptE req ctx nx with
              | error e2 => rw [hy, exBind_err] at h; exact Except.noConfusion h
              | ok a4 =>
                  exact hdone (fun hb2 hcm =>
                    addChildrenE_ok_inv req ctx ch l2 hx hb2 hcm) ⟨a4, hy⟩

/-- C7 counterexample: `ADD_ACTION` with `INSIDE_LOOP` on a plain piece
parent is incompatible with the parent's kind, yet `apply` raises no
error — the location guards are only checked for composite parents, and
the final else inserts the action `AFTER` the piece step. -/
theorem claim_C7_counterexample :
    applyF exFlowPlain (.addAction ⟨"p", some .insideLoop, none, none,
        .simple .actionCode (plainCore "n") none⟩) =
      .ok { displayName := "f", state := .draft
            trigger := .simple .triggerEmpty (plainCore "t")
              (some (.simple .actionPiece (plainCore "p")
                (some (.simple .actionCode (plainCore "n") none))))
            valid := true } ∧
    resultIsFlowOperationInvalid
      (applyF exFlowPlain (.addAction ⟨"p", some .insideLoop, none, none,
        .simple .actionCode (plainCore "n") none⟩)) = false := by
  exact ⟨by decide, by decide⟩

/-- C7 (amended): for every `ADD_ACTION` operation (with an action-typed
payload) whose `step_location_relative_to_parent` is incompatible with
the kind of a reachable step named `parentStep` — a location other than
`INSIDE_LOOP`/`AFTER` on a loop, other than the branch locations/`AFTER`
on a branch, other than `INSIDE_BRANCH`-with-index/`AFTER` on a router —
`apply` throws a `FLOW_OPERATION_INVALID` error.  (For leaf parents no
location is incompatible: every location falls through to an `AFTER`
insertion, as the counterexample shows.) -/
theorem claim_C7_amended (fv : FlowVersion) (req : AddActionRequest)
    (hact : req.action.isAction = true) (u : FStep)
    (hu : u ∈ getAllSteps fv.trigger) (hname : u.name = req.parentStep)
    (hinc : incompatibleLocation req u = true) :
    ∃ m, applyF fv (.addAction req) = .error (.flowOperationInvalid m) := by
  cases hadd : addStepE req none fv.trigger with
  | ok t =>
      have hc := addStepE_ok_compat req none fv.trigger t hadd u hu hname
      rw [hinc] at hc
      exact absurd hc (by decide)
  | error e =>
      obtain ⟨m, rfl⟩ := addStepE_error_classified req none hact fv.trigger e hadd
      refine ⟨m, ?_⟩
      simp only [applyF, applyAddOp, addActionE, hadd, exBind_err]

/-- C7 (witness): the amended theorem applied to a flow with a loop
parent and an `INSIDE_TRUE_BRANCH` request, hypotheses evaluated by
`decide`. -/
theorem claim_C7_witness :
    ((FStep.loopOnItems (plainCore "L") none none) ∈ getAllSteps exFlowC7.trigger ∧
      incompatibleLocation reqC7 (FStep.loopOnItems (plainCore "L") none none) = true) ∧
    ∃ m, applyF exFlowC7 (.addAction reqC7) = .error (.flowOperationInvalid m) :=
  ⟨⟨by decide, by decide⟩,
    claim_C7_amended exFlowC7 reqC7 (by decide)
      (.loopOnItems (plainCore "L") none none) (by decide) (by decide) (by decide)⟩

/-- C8 counterexample: duplicating a step name absent from the flow does
not surface a `FLOW_OPERATION_INVALID` error carrying the name — the
`JSON.parse(JSON.stringify(undefined))` clone of the failed lookup throws
a `SyntaxError` first (and even the in-code not-found guard, which is
unreachable because the clone precedes it, would throw a plain `Error`). -/
theorem claim_C8_counterexample :
    getStep exFlowPlain "ghost" = none ∧
    applyF exFlowPlain (.duplicateAction "ghost") = .error .jsonSyntaxError ∧
    resultIsFlowOperationInvalid (applyF exFlowPlain (.duplicateAction "ghost")) = false := by
  refine ⟨by decide, by decide, by decide⟩

/-- C8 (amended): for every `DUPLICATE_ACTION` operation whose named step
does not exist in the flow, `apply` fails — but with the `SyntaxError` of
cloning the `undefined` lookup result, not with a `FLOW_OPERATION_INVALID`
error carrying the missing name. -/
theorem claim_C8_amended (fv : FlowVersion) (n : String)
    (h : getStep fv n = none) :
    applyF fv (.duplicateAction n) = .error .jsonSyntaxError ∧
    resultIsFlowOperationInvalid (applyF fv (.duplicateAction n)) = false := by
  have h1 : applyF fv (.duplicateAction n) =
      Except.bind (duplicateStepE n fv)
        (fun fv' => pure { fv' with valid := isValidT fv'.trigger }) := rfl
  have h2 : duplicateStepE n fv = .error .jsonSyntaxError := by
    unfold duplicateStepE
    rw [h]
  rw [h1, h2]
  exact ⟨rfl, rfl⟩

/-- C8 (witness): the amended theorem applied to a flow without a step
named `missing`, the lookup-failure hypothesis evaluated by `decide`. -/
theorem claim_C8_witness :
    (getStep exFlowPlain "missing" = none) ∧
    (applyF exFlowPlain (.duplicateAction "missing") = .error .jsonSyntaxError ∧
      resultIsFlowOperationInvalid
        (applyF exFlowPlain (.duplicateAction "missing")) = false) :=
  ⟨by decide, claim_C8_amended exFlowPlain "missing" (by decide)⟩

/-- C4 (witness): the amended theorem applied to a two-branch router
reachable as the trigger's `nextAction`, hypotheses evaluated by
`decide`. -/
theorem claim_C4_witness :
    (∀ u ∈ traverseStep (FStep.router (routerCore "r" [condBranch "B1", condBranch "B2"])
      [none, none] none), nextTargetsRouter "r" u = false) ∧
    applyF ⟨"f", .draft, .simple .triggerEmpty (plainCore "t")
        (some (.router (routerCore "r" [condBranch "B1", condBranch "B2"])
          [none, none] none)), true⟩ (.addBranch "r" 1) =
      .ok ⟨"f", .draft,
        .simple .triggerEmpty (plainCore "t")
          (some (.router (addBranchCore 1 (routerCore "r" [condBranch "B1", condBranch "B2"]))
            (jsSpliceInsert [none, none] 1 none) none)),
        isValidT (.simple .triggerEmpty (plainCore "t")
          (some (.router (addBranchCore 1 (routerCore "r" [condBranch "B1", condBranch "B2"]))
            (jsSpliceInsert [none, none] 1 none) none)))⟩ :=
  ⟨by decide,
    claim_C4_amended "f" .draft true .triggerEmpty (plainCore "t")
      (routerCore "r" [condBranch "B1", condBranch "B2"]) [none, none] none 1
      (by decide)⟩

theorem startsWithChar_tilde (v : String) : startsWithChar ("~" ++ v) '~' = true := by
  simp [startsWithChar]

theorem startsWithChar_tilde_caret (v : String) :
    startsWithChar ("~" ++ v) '^' = false := by
  simp [startsWithChar]

theorem startsWithChar_caret (v : String) : startsWithChar ("^" ++ v) '^' = true := by
  simp [startsWithChar]

theorem startsWithChar_caret_tilde (v : String) :
    startsWithChar ("^" ++ v) '~' = false := by
  simp [startsWithChar]

theorem dropFirstChar_tilde (v : String) : dropFirstChar ("~" ++ v) = v := rfl

theorem dropFirstChar_caret (v : String) : dropFirstChar ("^" ++ v) = v := rfl

/-- Prefixing `~` commutes with the legacy test on an unprefixed version:
both strip to the same bare version. -/
theorem isLegacyApp_tilde (p v : String) (h1 : startsWithChar v '^' = false)
    (h2 : startsWithChar v '~' = false) :
    isLegacyApp p ("~" ++ v) = isLegacyApp p v := by
  simp [isLegacyApp, startsWithChar_tilde, startsWithChar_tilde_caret, h1, h2,
    dropFirstChar_tilde]

/-- Prefixing `^` commutes with the legacy test on an unprefixed version. -/
theorem isLegacyApp_caret (p v : String) (h1 : startsWithChar v '^' = false)
    (h2 : startsWithChar v '~' = false) :
    isLegacyApp p ("^" ++ v) = isLegacyApp p v := by
  simp [isLegacyApp, startsWithChar_caret, startsWithChar_caret_tilde, h1, h2,
    dropFirstChar_caret]

/-- A successful `upgradePiece` only ever rewrites `settings.pieceVersion`. -/
theorem upgradeStepCoreE_ok_shape (pt : Bool) (nm : String) (c c' : StepCore)
    (h : upgradeStepCoreE pt nm c = .ok c') :
    ∃ z, c' = { c with settings := { c.settings with pieceVersion := z } } := by
  unfold upgradeStepCoreE at h
  split at h
  · split at h
    · split at h
      · exact Except.noConfusion h
      · exact ⟨c.settings.pieceVersion, by rw [← Except.ok.inj h]⟩
      · split at h
        · exact ⟨c.settings.pieceVersion, by rw [← Except.ok.inj h]⟩
        · split at h
          · exact ⟨"~" ++ c.settings.pieceVersion, (Except.ok.inj h).symm⟩
          · exact ⟨"^" ++ c.settings.pieceVersion, (Except.ok.inj h).symm⟩
    · exact ⟨c.settings.pieceVersion, by rw [← Except.ok.inj h]⟩
  · exact ⟨c.settings.pieceVersion, by rw [← Except.ok.inj h]⟩

/-- A core whose version is already legacy, or already pinned, is a fixed
point of `upgradePiece`. -/
theorem upgradeStepCoreE_fixed (c : StepCore) (b : Bool)
    (hleg : isLegacyApp c.settings.pieceName c.settings.pieceVersion = some b)
    (hp : b = false → (startsWithChar c.settings.pieceVersion '^' ||
      startsWithChar c.settings.pieceVersion '~') = true) :
    upgradeStepCoreE true c.name c = .ok c := by
  cases b with
  | true => simp [upgradeStepCoreE, hleg]
  | false => simp [upgradeStepCoreE, hleg, hp rfl]

/-- The `~`/`^` selection rule of `upgradePiece` on a non-legacy,
not-yet-pinned piece version: a parsable version below `1.0.0` is pinned
with `~`, anything else with `^`. -/
theorem upgradeStepCoreE_rule (c : StepCore)
    (hleg : isLegacyApp c.settings.pieceName c.settings.pieceVersion = some false)
    (h1 : startsWithChar c.settings.pieceVersion '^' = false)
    (h2 : startsWithChar c.settings.pieceVersion '~' = false) :
    (((parseSemver c.settings.pieceVersion).isSome &&
        semverLt c.settings.pieceVersion "1.0.0" = some true) = true →
      upgradeStepCoreE true c.name c = .ok { c with settings :=
        { c.settings with pieceVersion := "~" ++ c.settings.pieceVersion } }) ∧
    (((parseSemver c.settings.pieceVersion).isSome &&
        semverLt c.settings.pieceVersion "1.0.0" = some true) = false →
      upgradeStepCoreE true c.name c = .ok { c with settings :=
        { c.settings with pieceVersion := "^" ++ c.settings.pieceVersion } }) := by
  constructor
  · intro hlt
    simp [upgradeStepCoreE, hleg, h1, h2, hlt]
  · intro hlt
    simp [upgradeStepCoreE, hleg, h1, h2, hlt]

/-- The output of a successful `upgradePiece` is a fixed point of
`upgradePiece` (on piece-typed cores, with the name guard satisfied). -/
theorem upgradeStepCoreE_idem (c c' : StepCore)
    (h : upgradeStepCoreE true c.name c = .ok c') :
    upgradeStepCoreE true c'.name c' = .ok c' := by
  have h0 := h
  unfold upgradeStepCoreE at h
  rw [if_pos rfl, if_pos rfl] at h
  cases hleg : isLegacyApp c.settings.pieceName c.settings.pieceVersion with
  | none => rw [hleg] at h; exact Except.noConfusion h
  | some b =>
      cases b with
      | true =>
          rw [hleg] at h
          rw [← Except.ok.inj h] at h0 ⊢
          exact h0
      | false =>
          rw [hleg] at h
          by_cases hpre : (startsWithChar c.settings.pieceVersion '^' ||
              startsWithChar c.settings.pieceVersion '~') = true
          · rw [if_pos hpre] at h
            rw [← Except.ok.inj h] at h0 ⊢
            exact h0
          · have hor : (startsWithChar c.settings.pieceVersion '^' ||
                startsWithChar c.settings.pieceVersion '~') = false :=
              Bool.eq_false_iff.mpr hpre
            have h1 := (Bool.or_eq_false_iff.mp hor).1
            have h2 := (Bool.or_eq_false_iff.mp hor).2
            rw [if_neg hpre] at h
            by_cases hlt : ((parseSemver c.settings.pieceVersion).isSome &&
                semverLt c.settings.pieceVersion "1.0.0" = some true) = true
            · rw [if_pos hlt] at h
              have hc' := (Except.ok.inj h).symm
              subst hc'
              apply upgradeStepCoreE_fixed _ false
              · show isLegacyApp c.settings.pieceName
                  ("~" ++ c.settings.pieceVersion) = some false
                rw [isLegacyApp_tilde _ _ h1 h2, hleg]
              · intro _
                show (startsWithChar ("~" ++ c.settings.pieceVersion) '^' ||
                  startsWithChar ("~" ++ c.settings.pieceVersion) '~') = true
                rw [startsWithChar_tilde]
                exact Bool.or_true _
            · rw [if_neg hlt] at h
              have hc' := (Except.ok.inj h).symm
              subst hc'
              apply upgradeStepCoreE_fixed _ false
              · show isLegacyApp c.settings.pieceName
                  ("^" ++ c.settings.pieceVersion) = some false
                rw [isLegacyApp_caret _ _ h1 h2, hleg]
              · intro _
                show (startsWithChar ("^" ++ c.settings.pieceVersion) '^' ||
                  startsWithChar ("^" ++ c.settings.pieceVersion) '~') = true
                rw [startsWithChar_caret]
                exact Bool.true_or _

/-- The version of a successful `upgradePiece` on a piece-typed core is
legacy or pinned with `^`/`~`. -/
theorem upgradeStepCoreE_shape (c c' : StepCore)
    (h : upgradeStepCoreE true c.name c = .ok c') :
    isLegacyApp c'.settings.pieceName c'.settings.pieceVersion = some true ∨
    startsWithChar c'.settings.pieceVersion '^' = true ∨
    startsWithChar c'.settings.pieceVersion '~' = true := by
  unfold upgradeStepCoreE at h
  rw [if_pos rfl, if_pos rfl] at h
  cases hleg : isLegacyApp c.settings.pieceName c.settings.pieceVersion with
  | none => rw [hleg] at h; exact Except.noConfusion h
  | some b =>
      cases b with
      | true =>
          rw [hleg] at h
          rw [← Except.ok.inj h]
          left; exact hleg
      | false =>
          rw [hleg] at h
          by_cases hpre : (startsWithChar c.settings.pieceVersion '^' ||
              startsWithChar c.settings.pieceVersion '~') = true
          · rw [if_pos hpre] at h
            rw [← Except.ok.inj h]
            rcases Bool.or_eq_true_iff.mp hpre with hx | hx
            · right; left; exact hx
            · right; right; exact hx
          · rw [if_neg hpre] at h
            by_cases hlt : ((parseSemver c.settings.pieceVersion).isSome &&
                semverLt c.settings.pieceVersion "1.0.0" = some true) = true
            · rw [if_pos hlt] at h
              rw [← Except.ok.inj h]
              right; right
              exact startsWithChar_tilde _
            · rw [if_neg hlt] at h
              rw [← Except.ok.inj h]
              right; left
              exact startsWithChar_caret _

/-- After the normalization callback, a piece-typed core's auth is gone or
blank and its version is legacy or pinned. -/
theorem normalizeCoreE_true_shape (c c' : StepCore)
    (h : normalizeCoreE true c = .ok c') :
    (c'.settings.inputAuth = none ∨ c'.settings.inputAuth = some "") ∧
    (isLegacyApp c'.settings.pieceName c'.settings.pieceVersion = some true ∨
     startsWithChar c'.settings.pieceVersion '^' = true ∨
     startsWithChar c'.settings.pieceVersion '~' = true) := by
  simp only [normalizeCoreE, Bool.and_true] at h
  by_cases hauth : authTruthy c.settings.inputAuth = true
  · rw [if_pos hauth] at h
    refine ⟨?_, upgradeStepCoreE_shape _ _ h⟩
    obtain ⟨z, rfl⟩ := upgradeStepCoreE_ok_shape _ _ _ _ h
    right; rfl
  · rw [if_neg hauth] at h
    refine ⟨?_, upgradeStepCoreE_shape _ _ h⟩
    obtain ⟨z, rfl⟩ := upgradeStepCoreE_ok_shape _ _ _ _ h
    have hf : authTruthy c.settings.inputAuth = false := Bool.eq_false_iff.mpr hauth
    cases hx : c.settings.inputAuth with
    | none => left; rfl
    | some s =>
        right
        rw [hx] at hf
        simp [authTruthy] at hf
        rw [hf]

/-- The normalization callback is idempotent on cores. -/
theorem normalizeCoreE_idem (pt : Bool) (c c' : StepCore)
    (h : normalizeCoreE pt c = .ok c') : normalizeCoreE pt c' = .ok c' := by
  cases pt with
  | false =>
      simp only [normalizeCoreE, Bool.and_false, if_neg] at h
      simp only [upgradeStepCoreE, if_pos rfl] at h
      simp only [Bool.false_eq_true, if_false] at h
      rw [← Except.ok.inj h]
      simp [normalizeCoreE, upgradeStepCoreE]
  | true =>
      simp only [normalizeCoreE, Bool.and_true] at h
      by_cases hauth : authTruthy c.settings.inputAuth = true
      · rw [if_pos hauth] at h
        obtain ⟨z, rfl⟩ := upgradeStepCoreE_ok_shape _ _ _ _ h
        simp only [normalizeCoreE, Bool.and_true, authTruthy]
        simp only [decide_not]
        simp
        exact upgradeStepCoreE_idem _ _ h
      · rw [if_neg hauth] at h
        obtain ⟨z, rfl⟩ := upgradeStepCoreE_ok_shape _ _ _ _ h
        have hf : authTruthy c.settings.inputAuth = false := Bool.eq_false_iff.mpr hauth
        simp only [normalizeCoreE, Bool.and_true]
        rw [if_neg (by simp [hf])]
        exact upgradeStepCoreE_idem _ _ h

theorem isPieceType_simple (t : LeafType) (c : StepCore) (nx : Option FStep) :
    (FStep.simple t c nx).isPieceType = t.pieceTyped := by
  cases t <;> rfl

/-- `normOptE` output is a fixed point, given the fixed-point property of
the wrapped step. -/
theorem normOptE_idem_of (o o' : Option FStep) (h : normOptE o = .ok o')
    (ih : ∀ s, o = some s → ∀ u, normStepE s = .ok u → normStepE u = .ok u) :
    normOptE o' = .ok o' := by
  cases o with
  | none =>
      simp only [normOptE, exPure_eq_ok] at h
      rw [← Except.ok.inj h]
      rfl
  | some s =>
      simp only [normOptE] at h
      cases hs : normStepE s with
      | error e => rw [hs, exBind_err] at h; exact Except.noConfusion h
      | ok s' =>
          rw [hs, exBind_ok, exPure_eq_ok] at h
          rw [← Except.ok.inj h]
          simp only [normOptE]
          rw [ih s rfl s' hs, exBind_ok, exPure_eq_ok]

/-- `normChildrenE` output is a fixed point, given the fixed-point
property of the member steps. -/
theorem normChildrenE_idem_of : ∀ (l : List (Option FStep)),
    (∀ s, some s ∈ l → ∀ u, normStepE s = .ok u → normStepE u = .ok u) →
    ∀ l', normChildrenE l = .ok l' → normChildrenE l' = .ok l' := by
  intro l
  induction l with
  | nil =>
      intro _ l' h
      simp only [normChildrenE, exPure_eq_ok] at h
      rw [← Except.ok.inj h]
      rfl
  | cons c cs ihl =>
      intro ih l' h
      simp only [normChildrenE] at h
      cases hc : normOptE c with
      | error e => rw [hc, exBind_err] at h; exact Except.noConfusion h
      | ok c' =>
          rw [hc, exBind_ok] at h
          cases hcs : normChildrenE cs with
          | error e => rw [hcs, exBind_err] at h; exact Except.noConfusion h
          | ok cs' =>
              rw [hcs, exBind_ok, exPure_eq_ok] at h
              rw [← Except.ok.inj h]
              simp only [normChildrenE]
              rw [normOptE_idem_of c c' hc
                  (fun s hs => ih s (by rw [hs]; exact List.mem_cons_self _ _)),
                exBind_ok,
                ihl (fun s hs => ih s (List.mem_cons_of_mem _ hs)) cs' hcs,
                exBind_ok, exPure_eq_ok]

/-- The output of a successful `normalize` pass over a step tree is a
fixed point of the pass. -/
theorem normStepE_idem : ∀ s u, normStepE s = .ok u → normStepE u = .ok u := by
  intro s
  induction s using FStep.inductionOn with
  | hsimple t c nx ih =>
      intro u h
      simp only [normStepE] at h
      cases hc : normalizeCoreE t.pieceTyped c with
      | error e => rw [hc, exBind_err] at h; exact Except.noConfusion h
      | ok c' =>
          rw [hc, exBind_ok] at h
          cases hnx : normOptE nx with
          | error e => rw [hnx, exBind_err] at h; exact Except.noConfusion h
          | ok nx' =>
              rw [hnx, exBind_ok, exPure_eq_ok] at h
              rw [← Except.ok.inj h]
              simp only [normStepE]
              rw [normalizeCoreE_idem _ _ _ hc, exBind_ok,
                normOptE_idem_of nx nx' hnx ih, exBind_ok, exPure_eq_ok]
  | hloop c b nx ihb ihnx =>
      intro u h
      simp only [normStepE] at h
      cases hc : normalizeCoreE false c with
      | error e => rw [hc, exBind_err] at h; exact Except.noConfusion h
      | ok c' =>
          rw [hc, exBind_ok] at h
          cases hb : normOptE b with
          | error e => rw [hb, exBind_err] at h; exact Except.noConfusion h
          | ok b' =>
              rw [hb, exBind_ok] at h
              cases hnx : normOptE nx with
              | error e => rw [hnx, exBind_err] at h; exact Except.noConfusion h
              | ok nx' =>
                  rw [hnx, exBind_ok, exPure_eq_ok] at h
                  rw [← Except.ok.inj h]
                  simp only [normStepE]
                  rw [normalizeCoreE_idem _ _ _ hc, exBind_ok,
                    normOptE_idem_of b b' hb ihb, exBind_ok,
                    normOptE_idem_of nx nx' hnx ihnx, exBind_ok, exPure_eq_ok]
  | hbranch c os f nx ihos ihf ihnx =>
      intro u h
      simp only [normStepE] at h
      cases hc : normalizeCoreE false c with
      | error e => rw [hc, exBind_err] at h; exact Except.noConfusion h
      | ok c' =>
          rw [hc, exBind_ok] at h
          cases hos : normOptE os with
          | error e => rw [hos, exBind_err] at h; exact Except.noConfusion h
          | ok os' =>
              rw [hos, exBind_ok] at h
              cases hf : normOptE f with
              | error e => rw [hf, exBind_err] at h; exact Except.noConfusion h
              | ok f' =>
                  rw [hf, exBind_ok] at h
                  cases hnx : normOptE nx with
                  | error e => rw [hnx, exBind_err] at h; exact Except.noConfusion h
                  | ok nx' =>
                      rw [hnx, exBind_ok, exPure_eq_ok] at h
                      rw [← Except.ok.inj h]
                      simp only [normStepE]
                      rw [normalizeCoreE_idem _ _ _ hc, exBind_ok,
                        normOptE_idem_of os os' hos ihos, exBind_ok,
                        normOptE_idem_of f f' hf ihf, exBind_ok,
                        normOptE_idem_of nx nx' hnx ihnx, exBind_ok, exPure_eq_ok]
  | hrouter c ch nx ihch ihnx =>
      intro u h
      simp only [normStepE] at h
      cases hc : normalizeCoreE false c with
      | error e => rw [hc, exBind_err] at h; exact Except.noConfusion h
      | ok c' =>
          rw [hc, exBind_ok] at h
          cases hch : normChildrenE ch with
          | error e => rw [hch, exBind_err] at h; exact Except.noConfusion h
          | ok ch' =>
              rw [hch, exBind_ok] at h
              cases hnx : normOptE nx with
              | error e => rw [hnx, exBind_err] at h; exact Except.noConfusion h
              | ok nx' =>
                  rw [hnx, exBind_ok, exPure_eq_ok] at h
                  rw [← Except.ok.inj h]
                  simp only [normStepE]
                  rw [normalizeCoreE_idem _ _ _ hc, exBind_ok,
                    normChildrenE_idem_of ch ihch ch' hch, exBind_ok,
                    normOptE_idem_of nx nx' hnx ihnx, exBind_ok, exPure_eq_ok]

/-- Piece steps listed by `normOptE` output satisfy the normalized shape,
given the property for the wrapped step. -/
theorem normOptE_shape_of (o o' : Option FStep) (h : normOptE o = .ok o')
    (ih : ∀ s, o = some s → ∀ u, normStepE s = .ok u →
      ∀ x ∈ traverseStep u, x.isPieceType = true → stepShapeOK x) :
    ∀ x ∈ traverseOpt o', x.isPieceType = true → stepShapeOK x := by
  cases o with
  | none =>
      simp only [normOptE, exPure_eq_ok] at h
      rw [← Except.ok.inj h]
      intro x hx
      exact absurd hx (List.not_mem_nil x)
  | some s =>
      simp only [normOptE] at h
      cases hs : normStepE s with
      | error e => rw [hs, exBind_err] at h; exact Except.noConfusion h
      | ok s' =>
          rw [hs, exBind_ok, exPure_eq_ok] at h
          rw [← Except.ok.inj h]
          exact ih s rfl s' hs

/-- Piece steps listed by `normChildrenE` output satisfy the normalized
shape, given the property for the member steps. -/
theorem normChildrenE_shape_of : ∀ (l : List (Option FStep)),
    (∀ s, some s ∈ l → ∀ u, normStepE s = .ok u →
      ∀ x ∈ traverseStep u, x.isPieceType = true → stepShapeOK x) →
    ∀ l', normChildrenE l = .ok l' →
    ∀ x ∈ traverseChildren l', x.isPieceType = true → stepShapeOK x := by
  intro l
  induction l with
  | nil =>
      intro _ l' h
      simp only [normChildrenE, exPure_eq_ok] at h
      rw [← Except.ok.inj h]
      intro x hx
      exact absurd hx (List.not_mem_nil x)
  | cons c cs ihl =>
      intro ih l' h
      simp only [normChildrenE] at h
      cases hc : normOptE c with
      | error e => rw [hc, exBind_err] at h; exact Except.noConfusion h
      | ok c' =>
          rw [hc, exBind_ok] at h
          cases hcs : normChildrenE cs with
          | error e => rw [hcs, exBind_err] at h; exact Except.noConfusion h
          | ok cs' =>
              rw [hcs, exBind_ok, exPure_eq_ok] at h
              rw [← Except.ok.inj h]
              intro x hx hpiece
              simp only [traverseChildren] at hx
              rcases List.mem_append.mp hx with hx1 | hx2
              · exact normOptE_shape_of c c' hc
                  (fun s hs => ih s (by rw [hs]; exact List.mem_cons_self _ _))
                  x hx1 hpiece
              · exact ihl (fun s hs => ih s (List.mem_cons_of_mem _ hs)) cs' hcs
                  x hx2 hpiece

/-- Every piece step reachable in the output of a successful `normalize`
pass satisfies the normalized shape. -/
theorem normStepE_shape : ∀ s u, normStepE s = .ok u →
    ∀ x ∈ traverseStep u, x.isPieceType = true → stepShapeOK x := by
  intro s
  induction s using FStep.inductionOn with
  | hsimple t c nx ih =>
      intro u h
      simp only [normStepE] at h
      cases hc : normalizeCoreE t.pieceTyped c with
      | error e => rw [hc, exBind_err] at h; exact Except.noConfusion h
      | ok c' =>
          rw [hc, exBind_ok] at h
          cases hnx : normOptE nx with
          | error e => rw [hnx, exBind_err] at h; exact Except.noConfusion h
          | ok nx' =>
              rw [hnx, exBind_ok, exPure_eq_ok] at h
              rw [← Except.ok.inj h]
              intro x hx hpiece
              simp only [traverseStep] at hx
              rcases List.mem_cons.mp hx with rfl | hx2
              · have ht : t.pieceTyped = true := by
                  rw [isPieceType_simple] at hpiece
                  exact hpiece
                rw [ht] at hc
                exact normalizeCoreE_true_shape c c' hc
              · exact normOptE_shape_of nx nx' hnx ih x hx2 hpiece
  | hloop c b nx ihb ihnx =>
      intro u h
      simp only [normStepE] at h
      cases hc : normalizeCoreE false c with
      | error e => rw [hc, exBind_err] at h; exact Except.noConfusion h
      | ok c' =>
          rw [hc, exBind_ok] at h
          cases hb : normOptE b with
          | error e => rw [hb, exBind_err] at h; exact Except.noConfusion h
          | ok b' =>
              rw [hb, exBind_ok] at h
              cases hnx : normOptE nx with
              | error e => rw [hnx, exBind_err] at h; exact Except.noConfusion h
              | ok nx' =>
                  rw [hnx, exBind_ok, exPure_eq_ok] at h
                  rw [← Except.ok.inj h]
                  intro x hx hpiece
                  simp only [traverseStep] at hx
                  rcases List.mem_cons.mp hx with rfl | hx2
                  · exact Bool.noConfusion hpiece
                  · rcases List.mem_append.mp hx2 with h1 | h2
                    · exact normOptE_shape_of b b' hb ihb x h1 hpiece
                    · exact normOptE_shape_of nx nx' hnx ihnx x h2 hpiece
  | hbranch c os f nx ihos ihf ihnx =>
      intro u h
      simp only [normStepE] at h
      cases hc : normalizeCoreE false c with
      | error e => rw [hc, exBind_err] at h; exact Except.noConfusion h
      | ok c' =>
          rw [hc, exBind_ok] at h
          cases hos : normOptE os with
          | error e => rw [hos, exBind_err] at h; exact Except.noConfusion h
          | ok os' =>
              rw [hos, exBind_ok] at h
              cases hf : normOptE f with
              | error e => rw [hf, exBind_err] at h; exact Except.noConfusion h
              | ok f' =>
                  rw [hf, exBind_ok] at h
                  cases hnx : normOptE nx with
                  | error e => rw [hnx, exBind_err] at h; exact Except.noConfusion h
                  | ok nx' =>
                      rw [hnx, exBind_ok, exPure_eq_ok] at h
                      rw [← Except.ok.inj h]
                      intro x hx hpiece
                      simp only [traverseStep] at hx
                      rcases List.mem_cons.mp hx with rfl | hx2
                      · exact Bool.noConfusion hpiece
                      · rcases List.mem_append.mp hx2 with h12 | h3
                        · rcases List.mem_append.mp h12 with h1 | h2
                          · exact normOptE_shape_of os os' hos ihos x h1 hpiece
                          · exact normOptE_shape_of f f' hf ihf x h2 hpiece
                        · exact normOptE_shape_of nx nx' hnx ihnx x h3 hpiece
  | hrouter c ch nx ihch ihnx =>
      intro u h
      simp only [normStepE] at h
      cases hc : normalizeCoreE false c with
      | error e => rw [hc, exBind_err] at h; exact Except.noConfusion h
      | ok c' =>
          rw [hc, exBind_ok] at h
          cases hch : normChildrenE ch with
          | error e => rw [hch, exBind_err] at h; exact Except.noConfusion h
          | ok ch' =>
              rw [hch, exBind_ok] at h
              cases hnx : normOptE nx with
              | error e => rw [hnx, exBind_err] at h; exact Except.noConfusion h
              | ok nx' =>
                  rw [hnx, exBind_ok, exPure_eq_ok] at h
                  rw [← Except.ok.inj h]
                  intro x hx hpiece
                  simp only [traverseStep] at hx
                  rcases List.mem_cons.mp hx with rfl | hx2
                  · exact Bool.noConfusion hpiece
                  · rcases List.mem_append.mp hx2 with h1 | h2
                    · exact normChildrenE_shape_of ch ihch ch' hch x h1 hpiece
                    · exact normOptE_shape_of nx nx' hnx ihnx x h2 hpiece

/-- C5 (counterexample): after `normalize`, a piece step whose
`settings.input.auth` was absent keeps it absent — it does not equal the
empty string, refuting the claim that every piece step in the result has
`auth == ""`. -/
theorem claim_C5_counterexample :
    normalizeF exFlowC5 = Except.ok gFlowC5 ∧
    gFlowC5.trigger ∈ getAllSteps gFlowC5.trigger ∧
    gFlowC5.trigger.isPieceType = true ∧
    ¬ gFlowC5.trigger.settings.inputAuth = some "" := by
  refine ⟨rfl, mem_traverseStep_self _, rfl, ?_⟩
  intro hcontra
  exact Option.noConfusion hcontra

/-- C5 (amended): for every piece step reachable in a successful
`normalize(f)`, `settings.input.auth` is absent or the empty string (the
callback only blanks a truthy auth), and `settings.piece_version` is
legacy or starts with `^`/`~`; moreover on a non-legacy, not-yet-pinned
core the upgrade pins a parsable version below `1.0.0` with `~` and every
other version with `^`. -/
theorem claim_C5_amended (fv g : FlowVersion) (h : normalizeF fv = Except.ok g) :
    (∀ s ∈ getAllSteps g.trigger, s.isPieceType = true → stepShapeOK s) ∧
    (∀ c : StepCore,
      isLegacyApp c.settings.pieceName c.settings.pieceVersion = some false →
      startsWithChar c.settings.pieceVersion '^' = false →
      startsWithChar c.settings.pieceVersion '~' = false →
      (((parseSemver c.settings.pieceVersion).isSome &&
          semverLt c.settings.pieceVersion "1.0.0" = some true) = true →
        upgradeStepCoreE true c.name c = .ok { c with settings :=
          { c.settings with pieceVersion := "~" ++ c.settings.pieceVersion } }) ∧
      (((parseSemver c.settings.pieceVersion).isSome &&
          semverLt c.settings.pieceVersion "1.0.0" = some true) = false →
        upgradeStepCoreE true c.name c = .ok { c with settings :=
          { c.settings with pieceVersion := "^" ++ c.settings.pieceVersion } })) := by
  constructor
  · intro s hs hp
    simp only [normalizeF] at h
    cases ht : normStepE fv.trigger with
    | error e => rw [ht, exBind_err] at h; exact Except.noConfusion h
    | ok t' =>
        rw [ht, exBind_ok, exPure_eq_ok] at h
        have hgt : g.trigger = t' := by rw [← Except.ok.inj h]
        rw [hgt] at hs
        exact normStepE_shape fv.trigger t' ht s hs hp
  · intro c hleg h1 h2
    exact upgradeStepCoreE_rule c hleg h1 h2

/-- C5 (witness): the amended theorem applied to the concrete two-piece
flow, whose normalization evaluates by `rfl`. -/
theorem claim_C5_witness :
    normalizeF exFlowC5 = Except.ok gFlowC5 ∧
    (∀ s ∈ getAllSteps gFlowC5.trigger, s.isPieceType = true → stepShapeOK s) :=
  ⟨rfl, (claim_C5_amended exFlowC5 gFlowC5 rfl).1⟩

/-- C6: `normalize` is idempotent — composing `normalize` with itself (in
the `Except` monad, so a thrown error propagates unchanged) equals a
single `normalize`. -/
theorem claim_C6_normalize_idempotent (fv : FlowVersion) :
    (normalizeF fv >>= normalizeF) = normalizeF fv := by
  cases h : normalizeF fv with
  | error e => rw [exBind_err]
  | ok g =>
      rw [exBind_ok]
      simp only [normalizeF] at h ⊢
      cases ht : normStepE fv.trigger with
      | error e => rw [ht, exBind_err] at h; exact Except.noConfusion h
      | ok t' =>
          rw [ht, exBind_ok, exPure_eq_ok] at h
          have hg := Except.ok.inj h
          subst hg
          rw [show ({ fv with trigger := t' } : FlowVersion).trigger = t' from rfl]
          rw [normStepE_idem fv.trigger t' ht, exBind_ok, exPure_eq_ok]

theorem jsSpliceInsert_length {α : Type} (x : α) : ∀ (l : List α) (i : Nat),
    (jsSpliceInsert l i x).length = l.length + 1 := by
  intro l
  induction l with
  | nil => intro i; cases i <;> rfl
  | cons a l ih =>
      intro i
      cases i with
      | zero => rfl
      | succ j => simp [jsSpliceInsert, ih j]

theorem jsSpliceRemove_length_eq {α β : Type} :
    ∀ (l1 : List α) (l2 : List β) (i : Nat), l1.length = l2.length →
      (jsSpliceRemove l1 i).length = (jsSpliceRemove l2 i).length := by
  intro l1
  induction l1 with
  | nil =>
      intro l2 i h
      cases l2 with
      | nil => rfl
      | cons b l2' => exact absurd h (by simp)
  | cons a l ih =>
      intro l2 i h
      cases l2 with
      | nil => exact absurd h (by simp)
      | cons b l2' =>
          cases i with
          | zero => simpa using h
          | succ j =>
              simp only [jsSpliceRemove, List.length_cons]
              rw [ih l2' j (by simpa using h)]

theorem delChildren_eq_map (n : String) : ∀ (l : List (Option FStep)),
    delChildren n l = l.map (delOpt n) := by
  intro l
  induction l with
  | nil => rfl
  | cons c cs ih => simp [delChildren, ih]

/-- `alignedOpt` through `traverseOpt`, given the equivalence for the
wrapped step. -/
theorem alignedOpt_eq_of (o : Option FStep)
    (ih : ∀ s, o = some s →
      alignedStep s = (traverseStep s).all routerAligned) :
    alignedOpt o = (traverseOpt o).all routerAligned := by
  cases o with
  | none => rfl
  | some s => exact ih s rfl

/-- `alignedChildren` through `traverseChildren`, given the equivalence
for the member steps. -/
theorem alignedChildren_eq_of : ∀ (l : List (Option FStep)),
    (∀ s, some s ∈ l →
      alignedStep s = (traverseStep s).all routerAligned) →
    alignedChildren l = (traverseChildren l).all routerAligned := by
  intro l
  induction l with
  | nil => intro _; rfl
  | cons c cs ihl =>
      intro ih
      simp only [alignedChildren, traverseChildren, List.all_append]
      rw [alignedOpt_eq_of c
          (fun s hs => ih s (by rw [hs]; exact List.mem_cons_self _ _)),
        ihl (fun s hs => ih s (List.mem_cons_of_mem _ hs))]

/-- The structural alignment predicate agrees with "every reachable step
is router-aligned". -/
theorem alignedStep_eq_all : ∀ s,
    alignedStep s = (traverseStep s).all routerAligned := by
  intro s
  induction s using FStep.inductionOn with
  | hsimple t c nx ih =>
      simp only [alignedStep, traverseStep, List.all_cons]
      rw [alignedOpt_eq_of nx ih]
      simp [routerAligned]
  | hloop c b nx ihb ihnx =>
      simp only [alignedStep, traverseStep, List.all_cons, List.all_append]
      rw [alignedOpt_eq_of b ihb, alignedOpt_eq_of nx ihnx]
      simp [routerAligned]
  | hbranch c os f nx ihos ihf ihnx =>
      simp only [alignedStep, traverseStep, List.all_cons, List.all_append]
      rw [alignedOpt_eq_of os ihos, alignedOpt_eq_of f ihf,
        alignedOpt_eq_of nx ihnx]
      simp [routerAligned, Bool.and_assoc]
  | hrouter c ch nx ihch ihnx =>
      simp only [alignedStep, traverseStep, List.all_cons, List.all_append]
      rw [alignedChildren_eq_of ch ihch, alignedOpt_eq_of nx ihnx]
      simp [routerAligned, Bool.and_assoc]

theorem alignedChildren_insert_none : ∀ (l : List (Option FStep)) (i : Nat),
    alignedChildren l = true → alignedChildren (jsSpliceInsert l i none) = true := by
  intro l
  induction l with
  | nil => intro i _; cases i <;> rfl
  | cons a l ih =>
      intro i h
      cases i with
      | zero => simpa [jsSpliceInsert, alignedChildren, alignedOpt] using h
      | succ j =>
          simp only [jsSpliceInsert, alignedChildren, Bool.and_eq_true] at h ⊢
          exact ⟨h.1, ih j h.2⟩

theorem alignedChildren_remove : ∀ (l : List (Option FStep)) (i : Nat),
    alignedChildren l = true → alignedChildren (jsSpliceRemove l i) = true := by
  intro l
  induction l with
  | nil => intro i _; rfl
  | cons a l ih =>
      intro i h
      simp only [alignedChildren, Bool.and_eq_true] at h
      cases i with
      | zero => exact h.2
      | succ j =>
          simp only [jsSpliceRemove, alignedChildren, Bool.and_eq_true]
          exact ⟨h.1, ih j h.2⟩

/-- A step built by `createAction` (with no carried `children`) is aligned
once its processed `nextAction` is attached, provided a router payload
declares exactly two branches. -/
theorem createActionF_made_aligned (payload : FStep) (nx0 : Option FStep)
    (made : FStep) (h : createActionF payload nx0 none none none none = .ok made)
    (hpa : addPayloadAligned payload = true) (nx' : Option FStep)
    (hnx : alignedOpt nx' = true) :
    alignedStep (made.withNext nx') = true := by
  cases payload with
  | simple t c nx =>
      cases t with
      | actionPiece =>
          have hm := Except.ok.inj h
          rw [← hm]
          exact hnx
      | actionCode =>
          have hm := Except.ok.inj h
          rw [← hm]
          exact hnx
      | triggerEmpty => exact Except.noConfusion h
      | triggerPiece => exact Except.noConfusion h
  | loopOnItems c b nx =>
      have hm := Except.ok.inj h
      rw [← hm]
      simp only [FStep.withNext, alignedStep, Bool.and_eq_true]
      exact ⟨rfl, hnx⟩
  | branch c os f nx =>
      have hm := Except.ok.inj h
      rw [← hm]
      simp only [FStep.withNext, alignedStep, Bool.and_eq_true]
      exact ⟨⟨rfl, rfl⟩, hnx⟩
  | router c ch nx =>
      have hm := Except.ok.inj h
      rw [← hm]
      simp only [addPayloadAligned] at hpa
      have hlen : c.settings.branches.length = 2 := by simpa using hpa
      simp [FStep.withNext, alignedStep, alignedChildren, alignedOpt, hnx, hlen]
      exact hlen.symm

theorem delOpt_aligned_of (n : String) (o : Option FStep)
    (ih : ∀ s, o = some s → alignedStep s = true →
      alignedOpt (delOpt n (some s)) = true)
    (h : alignedOpt o = true) : alignedOpt (delOpt n o) = true := by
  cases o with
  | none => rfl
  | some s => exact ih s rfl h

theorem delChildren_aligned_of (n : String) : ∀ (l : List (Option FStep)),
    (∀ s, some s ∈ l → alignedStep s = true →
      alignedOpt (delOpt n (some s)) = true) →
    alignedChildren l = true → alignedChildren (delChildren n l) = true := by
  intro l
  induction l with
  | nil => intro _ _; rfl
  | cons c cs ihl =>
      intro ih h
      simp only [alignedChildren, Bool.and_eq_true] at h
      simp only [delChildren, alignedChildren, Bool.and_eq_true]
      exact ⟨delOpt_aligned_of n c
          (fun s hs => ih s (by rw [hs]; exact List.mem_cons_self _ _)) h.1,
        ihl (fun s hs => ih s (List.mem_cons_of_mem _ hs)) h.2⟩

/-- `deleteAction`'s rewrite preserves router alignment. -/
theorem delStep_aligned (n : String) : ∀ s,
    (alignedStep s = true → alignedStep (delStep n s) = true) ∧
    (alignedStep s = true → alignedOpt (delOpt n (some s)) = true) := by
  intro s
  induction s using FStep.inductionOn with
  | hsimple t c nx ih =>
      have ihopt : ∀ s', nx = some s' → alignedStep s' = true →
          alignedOpt (delOpt n (some s')) = true := fun s' hs' => (ih s' hs').2
      have ihstep : ∀ s', nx = some s' → alignedStep s' = true →
          alignedStep (delStep n s') = true := fun s' hs' => (ih s' hs').1
      constructor
      · intro h
        exact delOpt_aligned_of n nx ihopt h
      · intro h
        simp only [delOpt]
        by_cases hn : c.name = n
        · rw [if_pos hn]
          cases nx with
          | none => rfl
          | some s2 => exact ihstep s2 rfl h
        · rw [if_neg hn]
          exact delOpt_aligned_of n nx ihopt h
  | hloop c b nx ihb ihnx =>
      have ihbo : ∀ s', b = some s' → alignedStep s' = true →
          alignedOpt (delOpt n (some s')) = true := fun s' hs' => (ihb s' hs').2
      have ihno : ∀ s', nx = some s' → alignedStep s' = true →
          alignedOpt (delOpt n (some s')) = true := fun s' hs' => (ihnx s' hs').2
      have ihns : ∀ s', nx = some s' → alignedStep s' = true →
          alignedStep (delStep n s') = true := fun s' hs' => (ihnx s' hs').1
      constructor
      · intro h
        simp only [alignedStep, Bool.and_eq_true] at h
        simp only [delStep, alignedStep, Bool.and_eq_true]
        exact ⟨delOpt_aligned_of n b ihbo h.1, delOpt_aligned_of n nx ihno h.2⟩
      · intro h
        simp only [alignedStep, Bool.and_eq_true] at h
        simp only [delOpt]
        by_cases hn : c.name = n
        · rw [if_pos hn]
          cases nx with
          | none => rfl
          | some s2 => exact ihns s2 rfl h.2
        · rw [if_neg hn]
          simp only [alignedOpt, alignedStep, Bool.and_eq_true]
          exact ⟨delOpt_aligned_of n b ihbo h.1, delOpt_aligned_of n nx ihno h.2⟩
  | hbranch c os f nx ihos ihf ihnx =>
      have ihoso : ∀ s', os = some s' → alignedStep s' = true →
          alignedOpt (delOpt n (some s')) = true := fun s' hs' => (ihos s' hs').2
      have ihfo : ∀ s', f = some s' → alignedStep s' = true →
          alignedOpt (delOpt n (some s')) = true := fun s' hs' => (ihf s' hs').2
      have ihno : ∀ s', nx = some s' → alignedStep s' = true →
          alignedOpt (delOpt n (some s')) = true := fun s' hs' => (ihnx s' hs').2
      have ihns : ∀ s', nx = some s' → alignedStep s' = true →
          alignedStep (delStep n s') = true := fun s' hs' => (ihnx s' hs').1
      constructor
      · intro h
        simp only [alignedStep, Bool.and_eq_true] at h
        simp only [delStep, alignedStep, Bool.and_eq_true]
        exact ⟨⟨delOpt_aligned_of n os ihoso h.1.1,
          delOpt_aligned_of n f ihfo h.1.2⟩, delOpt_aligned_of n nx ihno h.2⟩
      · intro h
        simp only [alignedStep, Bool.and_eq_true] at h
        simp only [delOpt]
        by_cases hn : c.name = n
        · rw [if_pos hn]
          cases nx with
          | none => rfl
          | some s2 => exact ihns s2 rfl h.2
        · rw [if_neg hn]
          simp only [alignedOpt, alignedStep, Bool.and_eq_true]
          exact ⟨⟨delOpt_aligned_of n os ihoso h.1.1,
            delOpt_aligned_of n f ihfo h.1.2⟩, delOpt_aligned_of n nx ihno h.2⟩
  | hrouter c ch nx ihch ihnx =>
      have ihcho : ∀ s', some s' ∈ ch → alignedStep s' = true →
          alignedOpt (delOpt n (some s')) = true := fun s' hs' => (ihch s' hs').2
      have ihno : ∀ s', nx = some s' → alignedStep s' = true →
          alignedOpt (delOpt n (some s')) = true := fun s' hs' => (ihnx s' hs').2
      have ihns : ∀ s', nx = some s' → alignedStep s' = true →
          alignedStep (delStep n s') = true := fun s' hs' => (ihnx s' hs').1
      have hlen : (delChildren n ch).length = ch.length := by
        rw [delChildren_eq_map, List.length_map]
      constructor
      · intro h
        simp only [alignedStep, Bool.and_eq_true] at h
        simp only [delStep, alignedStep, Bool.and_eq_true]
        exact ⟨⟨by rw [hlen]; exact h.1.1,
          delChildren_aligned_of n ch ihcho h.1.2⟩,
          delOpt_aligned_of n nx ihno h.2⟩
      · intro h
        simp only [alignedStep, Bool.and_eq_true] at h
        simp only [delOpt]
        by_cases hn : c.name = n
        · rw [if_pos hn]
          cases nx with
          | none => rfl
          | some s2 => exact ihns s2 rfl h.2
        · rw [if_neg hn]
          simp only [alignedOpt, alignedStep, Bool.and_eq_true]
          exact ⟨⟨by rw [hlen]; exact h.1.1,
            delChildren_aligned_of n ch ihcho h.1.2⟩,
            delOpt_aligned_of n nx ihno h.2⟩

theorem abSlot_aligned_of (n : String) (i : Nat) (o : Option FStep)
    (ih : ∀ s, o = some s → alignedStep s = true →
      alignedStep (abStep n i s) = true)
    (h : alignedOpt o = true) : alignedOpt (abSlot n i o) = true := by
  cases o with
  | none => rfl
  | some s => exact ih s rfl h

theorem abChildren_aligned_of (n : String) (i : Nat) :
    ∀ (l : List (Option FStep)),
    (∀ s, some s ∈ l → alignedStep s = true →
      alignedStep (abStep n i s) = true) →
    alignedChildren l = true → alignedChildren (abChildren n i l) = true := by
  intro l
  induction l with
  | nil => intro _ _; rfl
  | cons c cs ihl =>
      intro ih h
      simp only [alignedChildren, Bool.and_eq_true] at h
      simp only [abChildren, alignedChildren, Bool.and_eq_true]
      exact ⟨abSlot_aligned_of n i c
          (fun s hs => ih s (by rw [hs]; exact List.mem_cons_self _ _)) h.1,
        ihl (fun s hs => ih s (List.mem_cons_of_mem _ hs)) h.2⟩

theorem abNext_aligned_of (n : String) (i : Nat) (o : Option FStep)
    (ih : ∀ s, o = some s → alignedStep s = true →
      alignedOpt (abNext n i (some s)) = true)
    (h : alignedOpt o = true) : alignedOpt (abNext n i o) = true := by
  cases o with
  | none => rfl
  | some s => exact ih s rfl h

/-- `ADD_BRANCH`'s rewrite preserves router alignment: an unmatched node
is mapped, and a matched router gains one `null` child and one fresh
branch at the same index. -/
theorem abStep_aligned (n : String) (i : Nat) : ∀ s,
    (alignedStep s = true → alignedStep (abStep n i s) = true) ∧
    (alignedStep s = true → alignedOpt (abNext n i (some s)) = true) := by
  intro s
  induction s using FStep.inductionOn with
  | hsimple t c nx ih =>
      have ihno : ∀ s', nx = some s' → alignedStep s' = true →
          alignedOpt (abNext n i (some s')) = true := fun s' hs' => (ih s' hs').2
      constructor
      · intro h
        exact abNext_aligned_of n i nx ihno h
      · intro h
        simp only [abNext]
        exact abNext_aligned_of n i nx ihno h
  | hloop c b nx ihb ihnx =>
      have ihbs : ∀ s', b = some s' → alignedStep s' = true →
          alignedStep (abStep n i s') = true := fun s' hs' => (ihb s' hs').1
      have ihno : ∀ s', nx = some s' → alignedStep s' = true →
          alignedOpt (abNext n i (some s')) = true := fun s' hs' => (ihnx s' hs').2
      constructor
      · intro h
        simp only [alignedStep, Bool.and_eq_true] at h
        simp only [abStep, alignedStep, Bool.and_eq_true]
        exact ⟨abSlot_aligned_of n i b ihbs h.1, abNext_aligned_of n i nx ihno h.2⟩
      · intro h
        simp only [alignedStep, Bool.and_eq_true] at h
        simp only [abNext, alignedOpt, alignedStep, Bool.and_eq_true]
        exact ⟨abSlot_aligned_of n i b ihbs h.1, abNext_aligned_of n i nx ihno h.2⟩
  | hbranch c os f nx ihos ihf ihnx =>
      have ihoss : ∀ s', os = some s' → alignedStep s' = true →
          alignedStep (abStep n i s') = true := fun s' hs' => (ihos s' hs').1
      have ihfs : ∀ s', f = some s' → alignedStep s' = true →
          alignedStep (abStep n i s') = true := fun s' hs' => (ihf s' hs').1
      have ihno : ∀ s', nx = some s' → alignedStep s' = true →
          alignedOpt (abNext n i (some s')) = true := fun s' hs' => (ihnx s' hs').2
      constructor
      · intro h
        simp only [alignedStep, Bool.and_eq_true] at h
        simp only [abStep, alignedStep, Bool.and_eq_true]
        exact ⟨⟨abSlot_aligned_of n i os ihoss h.1.1,
          abSlot_aligned_of n i f ihfs h.1.2⟩,
          abNext_aligned_of n i nx ihno h.2⟩
      · intro h
        simp only [alignedStep, Bool.and_eq_true] at h
        simp only [abNext, alignedOpt, alignedStep, Bool.and_eq_true]
        exact ⟨⟨abSlot_aligned_of n i os ihoss h.1.1,
          abSlot_aligned_of n i f ihfs h.1.2⟩,
          abNext_aligned_of n i nx ihno h.2⟩
  | hrouter c ch nx ihch ihnx =>
      have ihchs : ∀ s', some s' ∈ ch → alignedStep s' = true →
          alignedStep (abStep n i s') = true := fun s' hs' => (ihch s' hs').1
      have ihno : ∀ s', nx = some s' → alignedStep s' = true →
          alignedOpt (abNext n i (some s')) = true := fun s' hs' => (ihnx s' hs').2
      have hlen : (abChildren n i ch).length = ch.length := by
        rw [abChildren_eq_map, List.length_map]
      constructor
      · intro h
        simp only [alignedStep, Bool.and_eq_true] at h
        simp only [abStep, alignedStep, Bool.and_eq_true]
        exact ⟨⟨by rw [hlen]; exact h.1.1,
          abChildren_aligned_of n i ch ihchs h.1.2⟩,
          abNext_aligned_of n i nx ihno h.2⟩
      · intro h
        simp only [alignedStep, Bool.and_eq_true] at h
        simp only [abNext]
        by_cases hn : c.name = n
        · rw [if_pos hn]
          simp only [alignedOpt, alignedStep, Bool.and_eq_true]
          refine ⟨⟨?_, ?_⟩, abNext_aligned_of n i nx ihno h.2⟩
          · rw [jsSpliceInsert_length, hlen]
            simp only [addBranchCore, jsSpliceInsert_length]
            have := Nat.eq_of_beq_eq_true (by simpa using h.1.1)
            simp [this]
          · exact alignedChildren_insert_none _ i
              (abChildren_aligned_of n i ch ihchs h.1.2)
        · rw [if_neg hn]
          simp only [alignedOpt, alignedStep, Bool.and_eq_true]
          exact ⟨⟨by rw [hlen]; exact h.1.1,
            abChildren_aligned_of n i ch ihchs h.1.2⟩,
            abNext_aligned_of n i nx ihno h.2⟩

theorem dbSlot_aligned_of (n : String) (i : Nat) (o : Option FStep)
    (ih : ∀ s, o = some s → alignedStep s = true →
      alignedStep (dbStep n i s) = true)
    (h : alignedOpt o = true) : alignedOpt (dbSlot n i o) = true := by
  cases o with
  | none => rfl
  | some s => exact ih s rfl h

theorem dbChildren_aligned_of (n : String) (i : Nat) :
    ∀ (l : List (Option FStep)),
    (∀ s, some s ∈ l → alignedStep s = true →
      alignedStep (dbStep n i s) = true) →
    alignedChildren l = true → alignedChildren (dbChildren n i l) = true := by
  intro l
  induction l with
  | nil => intro _ _; rfl
  | cons c cs ihl =>
      intro ih h
      simp only [alignedChildren, Bool.and_eq_true] at h
      simp only [dbChildren, alignedChildren, Bool.and_eq_true]
      exact ⟨dbSlot_aligned_of n i c
          (fun s hs => ih s (by rw [hs]; exact List.mem_cons_self _ _)) h.1,
        ihl (fun s hs => ih s (List.mem_cons_of_mem _ hs)) h.2⟩

theorem dbNext_aligned_of (n : String) (i : Nat) (o : Option FStep)
    (ih : ∀ s, o = some s → alignedStep s = true →
      alignedOpt (dbNext n i (some s)) = true)
    (h : alignedOpt o = true) : alignedOpt (dbNext n i o) = true := by
  cases o with
  | none => rfl
  | some s => exact ih s rfl h

/-- `DELETE_BRANCH`'s rewrite preserves router alignment: a matched router
loses the child and the branch at the same index. -/
theorem dbStep_aligned (n : String) (i : Nat) : ∀ s,
    (alignedStep s = true → alignedStep (dbStep n i s) = true) ∧
    (alignedStep s = true → alignedOpt (dbNext n i (some s)) = true) := by
  intro s
  induction s using FStep.inductionOn with
  | hsimple t c nx ih =>
      have ihno : ∀ s', nx = some s' → alignedStep s' = true →
          alignedOpt (dbNext n i (some s')) = true := fun s' hs' => (ih s' hs').2
      constructor
      · intro h
        exact dbNext_aligned_of n i nx ihno h
      · intro h
        simp only [dbNext]
        exact dbNext_aligned_of n i nx ihno h
  | hloop c b nx ihb ihnx =>
      have ihbs : ∀ s', b = some s' → alignedStep s' = true →
          alignedStep (dbStep n i s') = true := fun s' hs' => (ihb s' hs').1
      have ihno : ∀ s', nx = some s' → alignedStep s' = true →
          alignedOpt (dbNext n i (some s')) = true := fun s' hs' => (ihnx s' hs').2
      constructor
      · intro h
        simp only [alignedStep, Bool.and_eq_true] at h
        simp only [dbStep, alignedStep, Bool.and_eq_true]
        exact ⟨dbSlot_aligned_of n i b ihbs h.1, dbNext_aligned_of n i nx ihno h.2⟩
      · intro h
        simp only [alignedStep, Bool.and_eq_true] at h
        simp only [dbNext, alignedOpt, alignedStep, Bool.and_eq_true]
        exact ⟨dbSlot_aligned_of n i b ihbs h.1, dbNext_aligned_of n i nx ihno h.2⟩
  | hbranch c os f nx ihos ihf ihnx =>
      have ihoss : ∀ s', os = some s' → alignedStep s' = true →
          alignedStep (dbStep n i s') = true := fun s' hs' => (ihos s' hs').1
      have ihfs : ∀ s', f = some s' → alignedStep s' = true →
          alignedStep (dbStep n i s') = true := fun s' hs' => (ihf s' hs').1
      have ihno : ∀ s', nx = some s' → alignedStep s' = true →
          alignedOpt (dbNext n i (some s')) = true := fun s' hs' => (ihnx s' hs').2
      constructor
      · intro h
        simp only [alignedStep, Bool.and_eq_true] at h
        simp only [dbStep, alignedStep, Bool.and_eq_true]
        exact ⟨⟨dbSlot_aligned_of n i os ihoss h.1.1,
          dbSlot_aligned_of n i f ihfs h.1.2⟩,
          dbNext_aligned_of n i nx ihno h.2⟩
      · intro h
        simp only [alignedStep, Bool.and_eq_true] at h
        simp only [dbNext, alignedOpt, alignedStep, Bool.and_eq_true]
        exact ⟨⟨dbSlot_aligned_of n i os ihoss h.1.1,
          dbSlot_aligned_of n i f ihfs h.1.2⟩,
          dbNext_aligned_of n i nx ihno h.2⟩
  | hrouter c ch nx ihch ihnx =>
      have ihchs : ∀ s', some s' ∈ ch → alignedStep s' = true →
          alignedStep (dbStep n i s') = true := fun s' hs' => (ihch s' hs').1
      have ihno : ∀ s', nx = some s' → alignedStep s' = true →
          alignedOpt (dbNext n i (some s')) = true := fun s' hs' => (ihnx s' hs').2
      have hlen : (dbChildren n i ch).length = ch.length := by
        rw [dbChildren_eq_map, List.length_map]
      constructor
      · intro h
        simp only [alignedStep, Bool.and_eq_true] at h
        simp only [dbStep, alignedStep, Bool.and_eq_true]
        exact ⟨⟨by rw [hlen]; exact h.1.1,
          dbChildren_aligned_of n i ch ihchs h.1.2⟩,
          dbNext_aligned_of n i nx ihno h.2⟩
      · intro h
        simp only [alignedStep, Bool.and_eq_true] at h
        simp only [dbNext]
        by_cases hn : c.name = n
        · rw [if_pos hn]
          simp only [alignedOpt, alignedStep, Bool.and_eq_true]
          refine ⟨⟨?_, ?_⟩, dbNext_aligned_of n i nx ihno h.2⟩
          · have h2 := jsSpliceRemove_length_eq (dbChildren n i ch)
              c.settings.branches i
              (by rw [hlen]; exact Nat.eq_of_beq_eq_true (by simpa using h.1.1))
            simp [delBranchCore, h2]
          · exact alignedChildren_remove _ i
              (dbChildren_aligned_of n i ch ihchs h.1.2)
        · rw [if_neg hn]
          simp only [alignedOpt, alignedStep, Bool.and_eq_true]
          exact ⟨⟨by rw [hlen]; exact h.1.1,
            dbChildren_aligned_of n i ch ihchs h.1.2⟩,
            dbNext_aligned_of n i nx ihno h.2⟩

theorem upgradeOptE_aligned_of (nm : String) (o o' : Option FStep)
    (h : upgradeOptE nm o = .ok o')
    (ih : ∀ s, o = some s → ∀ u, upgradeTreeE nm s = .ok u →
      alignedStep s = true → alignedStep u = true)
    (hal : alignedOpt o = true) : alignedOpt o' = true := by
  cases o with
  | none =>
      simp only [upgradeOptE, exPure_eq_ok] at h
      rw [← Except.ok.inj h]; rfl
  | some s =>
      simp only [upgradeOptE] at h
      cases hs : upgradeTreeE nm s with
      | error e => rw [hs, exBind_err] at h; exact Except.noConfusion h
      | ok s' =>
          rw [hs, exBind_ok, exPure_eq_ok] at h
          rw [← Except.ok.inj h]
          exact ih s rfl s' hs hal

theorem upgradeChildrenE_aligned_of (nm : String) : ∀ (l : List (Option FStep)),
    (∀ s, some s ∈ l → ∀ u, upgradeTreeE nm s = .ok u →
      alignedStep s = true → alignedStep u = true) →
    ∀ l', upgradeChildrenE nm l = .ok l' → alignedChildren l = true →
      alignedChildren l' = true ∧ l'.length = l.length := by
  intro l
  induction l with
  | nil =>
      intro _ l' h _
      simp only [upgradeChildrenE, exPure_eq_ok] at h
      rw [← Except.ok.inj h]
      exact ⟨rfl, rfl⟩
  | cons c cs ihl =>
      intro ih l' h hal
      simp only [upgradeChildrenE] at h
      cases hc : upgradeOptE nm c with
      | error e => rw [hc, exBind_err] at h; exact Except.noConfusion h
      | ok c' =>
          rw [hc, exBind_ok] at h
          cases hcs : upgradeChildrenE nm cs with
          | error e => rw [hcs, exBind_err] at h; exact Except.noConfusion h
          | ok cs' =>
              rw [hcs, exBind_ok, exPure_eq_ok] at h
              rw [← Except.ok.inj h]
              simp only [alignedChildren, Bool.and_eq_true] at hal
              have htail := ihl (fun s hs => ih s (List.mem_cons_of_mem _ hs))
                cs' hcs hal.2
              refine ⟨?_, by simp [htail.2]⟩
              simp only [alignedChildren, Bool.and_eq_true]
              exact ⟨upgradeOptE_aligned_of nm c c' hc
                  (fun s hs => ih s (by rw [hs]; exact List.mem_cons_self _ _))
                  hal.1, htail.1⟩

/-- The targeted `upgradePiece` pass preserves router alignment: it only
rewrites `settings.pieceVersion`. -/
theorem upgradeTreeE_aligned (nm : String) : ∀ s u,
    upgradeTreeE nm s = .ok u → alignedStep s = true → alignedStep u = true := by
  intro s
  induction s using FStep.inductionOn with
  | hsimple t c nx ih =>
      intro u h hal
      simp only [upgradeTreeE] at h
      cases hc : upgradeStepCoreE t.pieceTyped nm c with
      | error e => rw [hc, exBind_err] at h; exact Except.noConfusion h
      | ok c' =>
          rw [hc, exBind_ok] at h
          cases hnx : upgradeOptE nm nx with
          | error e => rw [hnx, exBind_err] at h; exact Except.noConfusion h
          | ok nx' =>
              rw [hnx, exBind_ok, exPure_eq_ok] at h
              rw [← Except.ok.inj h]
              exact upgradeOptE_aligned_of nm nx nx' hnx ih hal
  | hloop c b nx ihb ihnx =>
      intro u h hal
      simp only [upgradeTreeE] at h
      simp only [alignedStep, Bool.and_eq_true] at hal
      cases hc : upgradeStepCoreE false nm c with
      | error e => rw [hc, exBind_err] at h; exact Except.noConfusion h
      | ok c' =>
          rw [hc, exBind_ok] at h
          cases hb : upgradeOptE nm b with
          | error e => rw [hb, exBind_err] at h; exact Except.noConfusion h
          | ok b' =>
              rw [hb, exBind_ok] at h
              cases hnx : upgradeOptE nm nx with
              | error e => rw [hnx, exBind_err] at h; exact Except.noConfusion h
              | ok nx' =>
                  rw [hnx, exBind_ok, exPure_eq_ok] at h
                  rw [← Except.ok.inj h]
                  simp only [alignedStep, Bool.and_eq_true]
                  exact ⟨upgradeOptE_aligned_of nm b b' hb ihb hal.1,
                    upgradeOptE_aligned_of nm nx nx' hnx ihnx hal.2⟩
  | hbranch c os f nx ihos ihf ihnx =>
      intro u h hal
      simp only [upgradeTreeE] at h
      simp only [alignedStep, Bool.and_eq_true] at hal
      cases hc : upgradeStepCoreE false nm c with
      | error e => rw [hc, exBind_err] at h; exact Except.noConfusion h
      | ok c' =>
          rw [hc, exBind_ok] at h
          cases hos : upgradeOptE nm os with
          | error e => rw [hos, exBind_err] at h; exact Except.noConfusion h
          | ok os' =>
              rw [hos, exBind_ok] at h
              cases hf : upgradeOptE nm f with
              | error e => rw [hf, exBind_err] at h; exact Except.noConfusion h
              | ok f' =>
                  rw [hf, exBind_ok] at h
                  cases hnx : upgradeOptE nm nx with
                  | error e => rw [hnx, exBind_err] at h; exact Except.noConfusion h
                  | ok nx' =>
                      rw [hnx, exBind_ok, exPure_eq_ok] at h
                      rw [← Except.ok.inj h]
                      simp only [alignedStep, Bool.and_eq_true]
                      exact ⟨⟨upgradeOptE_aligned_of nm os os' hos ihos hal.1.1,
                        upgradeOptE_aligned_of nm f f' hf ihf hal.1.2⟩,
                        upgradeOptE_aligned_of nm nx nx' hnx ihnx hal.2⟩
  | hrouter c ch nx ihch ihnx =>
      intro u h hal
      simp only [upgradeTreeE] at h
      simp only [alignedStep, Bool.and_eq_true] at hal
      cases hc : upgradeStepCoreE false nm c with
      | error e => rw [hc, exBind_err] at h; exact Except.noConfusion h
      | ok c' =>
          rw [hc, exBind_ok] at h
          cases hch : upgradeChildrenE nm ch with
          | error e => rw [hch, exBind_err] at h; exact Except.noConfusion h
          | ok ch' =>
              rw [hch, exBind_ok] at h
              cases hnx : upgradeOptE nm nx with
              | error e => rw [hnx, exBind_err] at h; exact Except.noConfusion h
              | ok nx' =>
                  rw [hnx, exBind_ok, exPure_eq_ok] at h
                  rw [← Except.ok.inj h]
                  obtain ⟨z, rfl⟩ := upgradeStepCoreE_ok_shape _ _ _ _ hc
                  have hcw := upgradeChildrenE_aligned_of nm ch ihch ch' hch hal.1.2
                  simp only [alignedStep, Bool.and_eq_true]
                  refine ⟨⟨?_, hcw.1⟩,
                    upgradeOptE_aligned_of nm nx nx' hnx ihnx hal.2⟩
                  rw [hcw.2]
                  exact hal.1.1

theorem addOptE_aligned_of (req : AddActionRequest) (o o' : Option FStep)
    (h : addOptE req none o = .ok o') (hal : alignedOpt o = true)
    (hidx : ∀ u ∈ traverseOpt o, reqIndexOK req u = true)
    (ih : ∀ s, o = some s → ∀ t, addStepE req none s = .ok t →
      alignedStep s = true → (∀ u ∈ traverseStep s, reqIndexOK req u = true) →
      alignedStep t = true) :
    alignedOpt o' = true := by
  cases o with
  | none =>
      simp only [addOptE, exPure_eq_ok] at h
      rw [← Except.ok.inj h]; rfl
  | some s =>
      simp only [addOptE] at h
      cases hx : addStepE req none s with
      | error e => rw [hx, exBind_err] at h; exact Except.noConfusion h
      | ok s' =>
          rw [hx, exBind_ok, exPure_eq_ok] at h
          rw [← Except.ok.inj h]
          exact ih s rfl s' hx hal hidx

theorem addChildrenE_aligned_of (req : AddActionRequest) :
    ∀ (l l' : List (Option FStep)),
    addChildrenE req none l = .ok l' → alignedChildren l = true →
    (∀ u ∈ traverseChildren l, reqIndexOK req u = true) →
    (∀ s, some s ∈ l → ∀ t, addStepE req none s = .ok t →
      alignedStep s = true → (∀ u ∈ traverseStep s, reqIndexOK req u = true) →
      alignedStep t = true) →
    alignedChildren l' = true ∧ l'.length = l.length := by
  intro l
  induction l with
  | nil =>
      intro l' h _ _ _
      simp only [addChildrenE, exPure_eq_ok] at h
      rw [← Except.ok.inj h]
      exact ⟨rfl, rfl⟩
  | cons c cs ihl =>
      intro l' h hal hidx ih
      simp only [addChildrenE] at h
      cases hc : addOptE req none c with
      | error e => rw [hc, exBind_err] at h; exact Except.noConfusion h
      | ok c' =>
          rw [hc, exBind_ok] at h
          cases hcs : addChildrenE req none cs with
          | error e => rw [hcs, exBind_err] at h; exact Except.noConfusion h
          | ok cs' =>
              rw [hcs, exBind_ok, exPure_eq_ok] at h
              rw [← Except.ok.inj h]
              simp only [alignedChildren, Bool.and_eq_true] at hal
              have htail := ihl cs' hcs hal.2
                (fun u hu => hidx u (by
                  simp only [traverseChildren]
                  exact List.mem_append.mpr (Or.inr hu)))
                (fun s hs => ih s (List.mem_cons_of_mem _ hs))
              refine ⟨?_, by simp [htail.2]⟩
              simp only [alignedChildren, Bool.and_eq_true]
              refine ⟨addOptE_aligned_of req c c' hc hal.1
                (fun u hu => hidx u (by
                  simp only [traverseChildren]
                  exact List.mem_append.mpr (Or.inl hu)))
                (fun s hs => ih s (by rw [hs]; exact List.mem_cons_self _ _)),
                htail.1⟩

theorem addChildrenAtE_aligned_of (req : AddActionRequest)
    (hpa : addPayloadAligned req.action = true) :
    ∀ (l : List (Option FStep)) (i : Nat) (l' : List (Option FStep)),
    addChildrenAtE req none i l = .ok l' → i < l.length →
    alignedChildren l = true →
    (∀ u ∈ traverseChildren l, reqIndexOK req u = true) →
    (∀ s, some s ∈ l → ∀ t, addStepE req none s = .ok t →
      alignedStep s = true → (∀ u ∈ traverseStep s, reqIndexOK req u = true) →
      alignedStep t = true) →
    alignedChildren l' = true ∧ l'.length = l.length := by
  intro l
  induction l with
  | nil => intro i l' _ hi _ _ _; exact absurd hi (Nat.not_lt_zero i)
  | cons c cs ihl =>
      intro i l' h hi hal hidx ih
      simp only [alignedChildren, Bool.and_eq_true] at hal
      cases i with
      | zero =>
          simp only [addChildrenAtE] at h
          cases hmk : createActionF req.action c none none none none with
          | error e => rw [hmk, exBind_err] at h; exact Except.noConfusion h
          | ok made =>
              rw [hmk, exBind_ok] at h
              cases hc : addOptE req none c with
              | error e => rw [hc, exBind_err] at h; exact Except.noConfusion h
              | ok slot' =>
                  rw [hc, exBind_ok] at h
                  cases hcs : addChildrenE req none cs with
                  | error e => rw [hcs, exBind_err] at h; exact Except.noConfusion h
                  | ok cs' =>
                      rw [hcs, exBind_ok, exPure_eq_ok] at h
                      rw [← Except.ok.inj h]
                      have hslot : alignedOpt slot' = true :=
                        addOptE_aligned_of req c slot' hc hal.1
                          (fun u hu => hidx u (by
                            simp only [traverseChildren]
                            exact List.mem_append.mpr (Or.inl hu)))
                          (fun s hs => ih s
                            (by rw [hs]; exact List.mem_cons_self _ _))
                      have htail := addChildrenE_aligned_of req cs cs' hcs hal.2
                        (fun u hu => hidx u (by
                          simp only [traverseChildren]
                          exact List.mem_append.mpr (Or.inr hu)))
                        (fun s hs => ih s (List.mem_cons_of_mem _ hs))
                      refine ⟨?_, by simp [htail.2]⟩
                      simp only [alignedChildren, Bool.and_eq_true]
                      exact ⟨createActionF_made_aligned req.action c made hmk
                        hpa slot' hslot, htail.1⟩
      | succ j =>
          simp only [addChildrenAtE] at h
          cases hc : addOptE req none c with
          | error e => rw [hc, exBind_err] at h; exact Except.noConfusion h
          | ok c' =>
              rw [hc, exBind_ok] at h
              cases hcs : addChildrenAtE req none j cs with
              | error e => rw [hcs, exBind_err] at h; exact Except.noConfusion h
              | ok cs'' =>
                  rw [hcs, exBind_ok, exPure_eq_ok] at h
                  rw [← Except.ok.inj h]
                  have htail := ihl j cs'' hcs
                    (Nat.lt_of_succ_lt_succ (by simpa using hi)) hal.2
                    (fun u hu => hidx u (by
                      simp only [traverseChildren]
                      exact List.mem_append.mpr (Or.inr hu)))
                    (fun s hs => ih s (List.mem_cons_of_mem _ hs))
                  refine ⟨?_, by simp [htail.2]⟩
                  simp only [alignedChildren, Bool.and_eq_true]
                  refine ⟨addOptE_aligned_of req c c' hc hal.1
                    (fun u hu => hidx u (by
                      simp only [traverseChildren]
                      exact List.mem_append.mpr (Or.inl hu)))
                    (fun s hs => ih s (by rw [hs]; exact List.mem_cons_self _ _)),
                    htail.1⟩

/-- `addAction`'s rewrite preserves router alignment when the payload
keeps routers aligned and any `INSIDE_BRANCH` index stays in range. -/
theorem addStepE_aligned (req : AddActionRequest)
    (hpa : addPayloadAligned req.action = true) : ∀ s t,
    addStepE req none s = .ok t → alignedStep s = true →
    (∀ u ∈ traverseStep s, reqIndexOK req u = true) →
    alignedStep t = true := by
  intro s
  induction s using FStep.inductionOn with
  | hsimple t0 c nx ih =>
      intro t h hal hidx
      have hidxn : ∀ u ∈ traverseOpt nx, reqIndexOK req u = true :=
        fun u hu => hidx u (by
          simp only [traverseStep]; exact List.mem_cons_of_mem _ hu)
      simp only [addStepE] at h
      by_cases hn : c.name = req.parentStep
      · rw [if_pos hn] at h
        cases hmk : createActionF req.action nx none none none none with
        | error e => rw [hmk, exBind_err] at h; exact Except.noConfusion h
        | ok made =>
            rw [hmk, exBind_ok] at h
            cases hx : addOptE req none nx with
            | error e => rw [hx, exBind_err] at h; exact Except.noConfusion h
            | ok nx' =>
                rw [hx, exBind_ok, exPure_eq_ok] at h
                rw [← Except.ok.inj h]
                exact createActionF_made_aligned req.action nx made hmk hpa nx'
                  (addOptE_aligned_of req nx nx' hx hal hidxn ih)
      · rw [if_neg hn] at h
        cases hx : addOptE req none nx with
        | error e => rw [hx, exBind_err] at h; exact Except.noConfusion h
        | ok nx' =>
            rw [hx, exBind_ok, exPure_eq_ok] at h
            rw [← Except.ok.inj h]
            exact addOptE_aligned_of req nx nx' hx hal hidxn ih
  | hloop c b nx ihb ihnx =>
      intro t h hal hidx
      simp only [alignedStep, Bool.and_eq_true] at hal
      have hidxb : ∀ u ∈ traverseOpt b, reqIndexOK req u = true :=
        fun u hu => hidx u (by
          simp only [traverseStep]
          exact List.mem_cons_of_mem _ (List.mem_append.mpr (Or.inl hu)))
      have hidxn : ∀ u ∈ traverseOpt nx, reqIndexOK req u = true :=
        fun u hu => hidx u (by
          simp only [traverseStep]
          exact List.mem_cons_of_mem _ (List.mem_append.mpr (Or.inr hu)))
      simp only [addStepE] at h
      by_cases hn : c.name = req.parentStep
      · rw [if_pos hn] at h
        split at h
        · -- INSIDE_LOOP
          cases hmk : createActionF req.action b none none none none with
          | error e => rw [hmk, exBind_err] at h; exact Except.noConfusion h
          | ok made =>
              rw [hmk, exBind_ok] at h
              cases hb : addOptE req none b with
              | error e => rw [hb, exBind_err] at h; exact Except.noConfusion h
              | ok b' =>
                  rw [hb, exBind_ok] at h
                  cases hx : addOptE req none nx with
                  | error e => rw [hx, exBind_err] at h; exact Except.noConfusion h
                  | ok nx' =>
                      rw [hx, exBind_ok, exPure_eq_ok] at h
                      rw [← Except.ok.inj h]
                      simp only [alignedStep, Bool.and_eq_true]
                      exact ⟨createActionF_made_aligned req.action b made hmk
                          hpa b' (addOptE_aligned_of req b b' hb hal.1 hidxb ihb),
                        addOptE_aligned_of req nx nx' hx hal.2 hidxn ihnx⟩
        · -- AFTER
          cases hmk : createActionF req.action nx none none none none with
          | error e => rw [hmk, exBind_err] at h; exact Except.noConfusion h
          | ok made =>
              rw [hmk, exBind_ok] at h
              cases hb : addOptE req none b with
              | error e => rw [hb, exBind_err] at h; exact Except.noConfusion h
              | ok b' =>
                  rw [hb, exBind_ok] at h
                  cases hx : addOptE req none nx with
                  | error e => rw [hx, exBind_err] at h; exact Except.noConfusion h
                  | ok nx' =>
                      rw [hx, exBind_ok, exPure_eq_ok] at h
                      rw [← Except.ok.inj h]
                      simp only [alignedStep, Bool.and_eq_true]
                      exact ⟨addOptE_aligned_of req b b' hb hal.1 hidxb ihb,
                        createActionF_made_aligned req.action nx made hmk hpa
                          nx' (addOptE_aligned_of req nx nx' hx hal.2 hidxn ihnx)⟩
        · -- incompatible location: throws
          exact Except.noConfusion h
        · -- location absent: AFTER
          cases hmk : createActionF req.action nx none none none none with
          | error e => rw [hmk, exBind_err] at h; exact Except.noConfusion h
          | ok made =>
              rw [hmk, exBind_ok] at h
              cases hb : addOptE req none b with
              | error e => rw [hb, exBind_err] at h; exact Except.noConfusion h
              | ok b' =>
                  rw [hb, exBind_ok] at h
                  cases hx : addOptE req none nx with
                  | error e => rw [hx, exBind_err] at h; exact Except.noConfusion h
                  | ok nx' =>
                      rw [hx, exBind_ok, exPure_eq_ok] at h
                      rw [← Except.ok.inj h]
                      simp only [alignedStep, Bool.and_eq_true]
                      exact ⟨addOptE_aligned_of req b b' hb hal.1 hidxb ihb,
                        createActionF_made_aligned req.action nx made hmk hpa
                          nx' (addOptE_aligned_of req nx nx' hx hal.2 hidxn ihnx)⟩
      · rw [if_neg hn] at h
        cases hb : addOptE req none b with
        | error e => rw [hb, exBind_err] at h; exact Except.noConfusion h
        | ok b' =>
            rw [hb, exBind_ok] at h
            cases hx : addOptE req none nx with
            | error e => rw [hx, exBind_err] at h; exact Except.noConfusion h
            | ok nx' =>
                rw [hx, exBind_ok, exPure_eq_ok] at h
                rw [← Except.ok.inj h]
                simp only [alignedStep, Bool.and_eq_true]
                exact ⟨addOptE_aligned_of req b b' hb hal.1 hidxb ihb,
                  addOptE_aligned_of req nx nx' hx hal.2 hidxn ihnx⟩
  | hbranch c os f nx ihos ihf ihnx =>
      intro t h hal hidx
      simp only [alignedStep, Bool.and_eq_true] at hal
      have hidxos : ∀ u ∈ traverseOpt os, reqIndexOK req u = true :=
        fun u hu => hidx u (by
          simp only [traverseStep]
          exact List.mem_cons_of_mem _
            (List.mem_append.mpr (Or.inl (List.mem_append.mpr (Or.inl hu)))))
      have hidxf : ∀ u ∈ traverseOpt f, reqIndexOK req u = true :=
        fun u hu => hidx u (by
          simp only [traverseStep]
          exact List.mem_cons_of_mem _
            (List.mem_append.mpr (Or.inl (List.mem_append.mpr (Or.inr hu)))))
      have hidxn : ∀ u ∈ traverseOpt nx, reqIndexOK req u = true :=
        fun u hu => hidx u (by
          simp only [traverseStep]
          exact List.mem_cons_of_mem _ (List.mem_append.mpr (Or.inr hu)))
      have hos' : ∀ os2, addOptE req none os = .ok os2 → alignedOpt os2 = true :=
        fun os2 hx => addOptE_aligned_of req os os2 hx hal.1.1 hidxos ihos
      have hf' : ∀ f2, addOptE req none f = .ok f2 → alignedOpt f2 = true :=
        fun f2 hx => addOptE_aligned_of req f f2 hx hal.1.2 hidxf ihf
      have hnx' : ∀ nx2, addOptE req none nx = .ok nx2 → alignedOpt nx2 = true :=
        fun nx2 hx => addOptE_aligned_of req nx nx2 hx hal.2 hidxn ihnx
      simp only [addStepE] at h
      by_cases hn : c.name = req.parentStep
      · rw [if_pos hn] at h
        split at h
        · -- INSIDE_TRUE_BRANCH
          cases hmk : createActionF req.action os none none none none with
          | error e => rw [hmk, exBind_err] at h; exact Except.noConfusion h
          | ok made =>
              rw [hmk, exBind_ok] at h
              cases hxo : addOptE req none os with
              | error e => rw [hxo, exBind_err] at h; exact Except.noConfusion h
              | ok os' =>
                  rw [hxo, exBind_ok] at h
                  cases hxf : addOptE req none f with
                  | error e => rw [hxf, exBind_err] at h; exact Except.noConfusion h
                  | ok f' =>
                      rw [hxf, exBind_ok] at h
                      cases hx : addOptE req none nx with
                      | error e =>
                          rw [hx, exBind_err] at h; exact Except.noConfusion h
                      | ok nx2 =>
                          rw [hx, exBind_ok, exPure_eq_ok] at h
                          rw [← Except.ok.inj h]
                          simp only [alignedStep, Bool.and_eq_true]
                          exact ⟨⟨createActionF_made_aligned req.action os made
                              hmk hpa os' (hos' os' hxo), hf' f' hxf⟩,
                            hnx' nx2 hx⟩
        · -- INSIDE_FALSE_BRANCH
          cases hmk : createActionF req.action f none none none none with
          | error e => rw [hmk, exBind_err] at h; exact Except.noConfusion h
          | ok made =>
              rw [hmk, exBind_ok] at h
              cases hxo : addOptE req none os with
              | error e => rw [hxo, exBind_err] at h; exact Except.noConfusion h
              | ok os' =>
                  rw [hxo, exBind_ok] at h
                  cases hxf : addOptE req none f with
                  | error e => rw [hxf, exBind_err] at h; exact Except.noConfusion h
                  | ok f' =>
                      rw [hxf, exBind_ok] at h
                      cases hx : addOptE req none nx with
                      | error e =>
                          rw [hx, exBind_err] at h; exact Except.noConfusion h
                      | ok nx2 =>
                          rw [hx, exBind_ok, exPure_eq_ok] at h
                          rw [← Except.ok.inj h]
                          simp only [alignedStep, Bool.and_eq_true]
                          exact ⟨⟨hos' os' hxo,
                            createActionF_made_aligned req.action f made hmk
                              hpa f' (hf' f' hxf)⟩, hnx' nx2 hx⟩
        · -- AFTER
          cases hmk : createActionF req.action nx none none none none with
          | error e => rw [hmk, exBind_err] at h; exact Except.noConfusion h
          | ok made =>
              rw [hmk, exBind_ok] at h
              cases hxo : addOptE req none os with
              | error e => rw [hxo, exBind_err] at h; exact Except.noConfusion h
              | ok os' =>
                  rw [hxo, exBind_ok] at h
                  cases hxf : addOptE req none f with
                  | error e => rw [hxf, exBind_err] at h; exact Except.noConfusion h
                  | ok f' =>
                      rw [hxf, exBind_ok] at h
                      cases hx : addOptE req none nx with
                      | error e =>
                          rw [hx, exBind_err] at h; exact Except.noConfusion h
                      | ok nx2 =>
                          rw [hx, exBind_ok, exPure_eq_ok] at h
                          rw [← Except.ok.inj h]
                          simp only [alignedStep, Bool.and_eq_true]
                          exact ⟨⟨hos' os' hxo, hf' f' hxf⟩,
                            createActionF_made_aligned req.action nx made hmk
                              hpa nx2 (hnx' nx2 hx)⟩
        · -- incompatible location: throws
          exact Except.noConfusion h
        · -- location absent: AFTER
          cases hmk : createActionF req.action nx none none none none with
          | error e => rw [hmk, exBind_err] at h; exact Except.noConfusion h
          | ok made =>
              rw [hmk, exBind_ok] at h
              cases hxo : addOptE req none os with
              | error e => rw [hxo, exBind_err] at h; exact Except.noConfusion h
              | ok os' =>
                  rw [hxo, exBind_ok] at h
                  cases hxf : addOptE req none f with
                  | error e => rw [hxf, exBind_err] at h; exact Except.noConfusion h
                  | ok f' =>
                      rw [hxf, exBind_ok] at h
                      cases hx : addOptE req none nx with
                      | error e =>
                          rw [hx, exBind_err] at h; exact Except.noConfusion h
                      | ok nx2 =>
                          rw [hx, exBind_ok, exPure_eq_ok] at h
                          rw [← Except.ok.inj h]
                          simp only [alignedStep, Bool.and_eq_true]
                          exact ⟨⟨hos' os' hxo, hf' f' hxf⟩,
                            createActionF_made_aligned req.action nx made hmk
                              hpa nx2 (hnx' nx2 hx)⟩
      · rw [if_neg hn] at h
        cases hxo : addOptE req none os with
        | error e => rw [hxo, exBind_err] at h; exact Except.noConfusion h
        | ok os' =>
            rw [hxo, exBind_ok] at h
            cases hxf : addOptE req none f with
            | error e => rw [hxf, exBind_err] at h; exact Except.noConfusion h
            | ok f' =>
                rw [hxf, exBind_ok] at h
                cases hx : addOptE req none nx with
                | error e => rw [hx, exBind_err] at h; exact Except.noConfusion h
                | ok nx2 =>
                    rw [hx, exBind_ok, exPure_eq_ok] at h
                    rw [← Except.ok.inj h]
                    simp only [alignedStep, Bool.and_eq_true]
                    exact ⟨⟨hos' os' hxo, hf' f' hxf⟩, hnx' nx2 hx⟩
  | hrouter c ch nx ihch ihnx =>
      intro t h hal hidx
      simp only [alignedStep, Bool.and_eq_true] at hal
      have hidxch : ∀ u ∈ traverseChildren ch, reqIndexOK req u = true :=
        fun u hu => hidx u (by
          simp only [traverseStep]
          exact List.mem_cons_of_mem _ (List.mem_append.mpr (Or.inl hu)))
      have hidxn : ∀ u ∈ traverseOpt nx, reqIndexOK req u = true :=
        fun u hu => hidx u (by
          simp only [traverseStep]
          exact List.mem_cons_of_mem _ (List.mem_append.mpr (Or.inr hu)))
      have hnx' : ∀ nx2, addOptE req none nx = .ok nx2 → alignedOpt nx2 = true :=
        fun nx2 hx => addOptE_aligned_of req nx nx2 hx hal.2 hidxn ihnx
      simp only [addStepE] at h
      by_cases hn : c.name = req.parentStep
      · rw [if_pos hn] at h
        split at h
        · -- INSIDE_BRANCH
          next heqloc =>
            split at h
            · next i heqbi =>
                cases hch : addChildrenAtE req none i ch with
                | error e => rw [hch, exBind_err] at h; exact Except.noConfusion h
                | ok ch' =>
                    rw [hch, exBind_ok] at h
                    cases hx : addOptE req none nx with
                    | error e =>
                        rw [hx, exBind_err] at h; exact Except.noConfusion h
                    | ok nx2 =>
                        rw [hx, exBind_ok, exPure_eq_ok] at h
                        rw [← Except.ok.inj h]
                        have hself := hidx (.router c ch nx)
                          (mem_traverseStep_self _)
                        simp only [reqIndexOK, heqloc, heqbi, hn,
                          beq_self_eq_true, Bool.not_true, Bool.false_or,
                          decide_eq_true_eq] at hself
                        have hcw := addChildrenAtE_aligned_of req hpa ch i ch'
                          hch hself hal.1.2 hidxch ihch
                        simp only [alignedStep, Bool.and_eq_true]
                        refine ⟨⟨?_, hcw.1⟩, hnx' nx2 hx⟩
                        rw [hcw.2]
                        exact hal.1.1
            · exact Except.noConfusion h
        · -- AFTER
          cases hmk : createActionF req.action nx none none none none with
          | error e => rw [hmk, exBind_err] at h; exact Except.noConfusion h
          | ok made =>
              rw [hmk, exBind_ok] at h
              cases hch : addChildrenE req none ch with
              | error e => rw [hch, exBind_err] at h; exact Except.noConfusion h
              | ok ch' =>
                  rw [hch, exBind_ok] at h
                  cases hx : addOptE req none nx with
                  | error e => rw [hx, exBind_err] at h; exact Except.noConfusion h
                  | ok nx2 =>
                      rw [hx, exBind_ok, exPure_eq_ok] at h
                      rw [← Except.ok.inj h]
                      have hcw := addChildrenE_aligned_of req ch ch' hch
                        hal.1.2 hidxch ihch
                      simp only [alignedStep, Bool.and_eq_true]
                      refine ⟨⟨?_, hcw.1⟩,
                        createActionF_made_aligned req.action nx made hmk hpa
                          nx2 (hnx' nx2 hx)⟩
                      rw [hcw.2]
                      exact hal.1.1
        · -- incompatible location: throws
          exact Except.noConfusion h
        · -- location absent: AFTER
          cases hmk : createActionF req.action nx none none none none with
          | error e => rw [hmk, exBind_err] at h; exact Except.noConfusion h
          | ok made =>
              rw [hmk, exBind_ok] at h
              cases hch : addChildrenE req none ch with
              | error e => rw [hch, exBind_err] at h; exact Except.noConfusion h
              | ok ch' =>
                  rw [hch, exBind_ok] at h
                  cases hx : addOptE req none nx with
                  | error e => rw [hx, exBind_err] at h; exact Except.noConfusion h
                  | ok nx2 =>
                      rw [hx, exBind_ok, exPure_eq_ok] at h
                      rw [← Except.ok.inj h]
                      have hcw := addChildrenE_aligned_of req ch ch' hch
                        hal.1.2 hidxch ihch
                      simp only [alignedStep, Bool.and_eq_true]
                      refine ⟨⟨?_, hcw.1⟩,
                        createActionF_made_aligned req.action nx made hmk hpa
                          nx2 (hnx' nx2 hx)⟩
                      rw [hcw.2]
                      exact hal.1.1
      · rw [if_neg hn] at h
        cases hch : addChildrenE req none ch with
        | error e => rw [hch, exBind_err] at h; exact Except.noConfusion h
        | ok ch' =>
            rw [hch, exBind_ok] at h
            cases hx : addOptE req none nx with
            | error e => rw [hx, exBind_err] at h; exact Except.noConfusion h
            | ok nx2 =>
                rw [hx, exBind_ok, exPure_eq_ok] at h
                rw [← Except.ok.inj h]
                have hcw := addChildrenE_aligned_of req ch ch' hch
                  hal.1.2 hidxch ihch
                simp only [alignedStep, Bool.and_eq_true]
                refine ⟨⟨?_, hcw.1⟩, hnx' nx2 hx⟩
                rw [hcw.2]
                exact hal.1.1

/-- C3 (counterexample): `apply` does not preserve router alignment for
every operation — `ADD_ACTION` with a router payload declaring three
branches succeeds on an aligned flow, but `createAction` materializes the
new router's `children` as `[null, null]`, leaving `|children| = 2` while
`|settings.branches| = 3`. -/
theorem claim_C3_counterexample :
    (getAllSteps exFlowPlain.trigger).all routerAligned = true ∧
    Except.map (fun g => (getAllSteps g.trigger).all routerAligned)
      (applyF exFlowPlain (.addAction reqC3)) = .ok false :=
  ⟨by decide, by decide⟩

/-- C3 (amended): router alignment (`|children| == |settings.branches|`
at every reachable router) is preserved by `apply` for `LOCK_FLOW`,
`CHANGE_NAME`, `DELETE_ACTION`, `ADD_BRANCH`, `DELETE_BRANCH`, and for
`ADD_ACTION` whose payload keeps routers aligned (a router payload
declares exactly two branches) and whose `INSIDE_BRANCH` index, if any,
is in range for every router the request can match. -/
theorem claim_C3_amended (fv : FlowVersion) (op : FlowOperation)
    (g : FlowVersion)
    (hwf : (getAllSteps fv.trigger).all routerAligned = true)
    (hop : opPreservesAlignment op fv = true)
    (h : applyF fv op = .ok g) :
    (getAllSteps g.trigger).all routerAligned = true := by
  have hwf' : alignedStep fv.trigger = true := by
    rw [alignedStep_eq_all]; exact hwf
  show (traverseStep g.trigger).all routerAligned = true
  rw [← alignedStep_eq_all]
  cases op with
  | lockFlow =>
      simp only [applyF, exBind_ok, exPure_eq_ok] at h
      rw [← Except.ok.inj h]
      exact hwf'
  | changeName dn =>
      simp only [applyF, exBind_ok, exPure_eq_ok] at h
      rw [← Except.ok.inj h]
      exact hwf'
  | deleteAction n =>
      simp only [applyF, deleteActionF, exBind_ok, exPure_eq_ok] at h
      rw [← Except.ok.inj h]
      exact (delStep_aligned n fv.trigger).1 hwf'
  | addBranch n i =>
      simp only [applyF, exBind_ok, exPure_eq_ok] at h
      rw [← Except.ok.inj h]
      exact (abStep_aligned n i fv.trigger).1 hwf'
  | deleteBranch n i =>
      simp only [applyF, exBind_ok, exPure_eq_ok] at h
      rw [← Except.ok.inj h]
      exact (dbStep_aligned n i fv.trigger).1 hwf'
  | addAction req =>
      simp only [opPreservesAlignment, Bool.and_eq_true] at hop
      simp only [applyF, applyAddOp, addActionE] at h
      cases hadd : addStepE req none fv.trigger with
      | error e =>
          simp only [hadd, exBind_err] at h
          exact Except.noConfusion h
      | ok t1 =>
          simp only [hadd, exBind_ok, exPure_eq_ok] at h
          cases hup : upgradeTreeE req.action.name t1 with
          | error e =>
              simp only [hup, exBind_err] at h
              exact Except.noConfusion h
          | ok t2 =>
              simp only [hup, exBind_ok, exPure_eq_ok] at h
              rw [← Except.ok.inj h]
              exact upgradeTreeE_aligned req.action.name t1 t2 hup
                (addStepE_aligned req hop.1 fv.trigger t1 hadd hwf'
                  (List.all_eq_true.mp hop.2))
  | moveAction req => simp only [opPreservesAlignment] at hop; exact Bool.noConfusion hop
  | updateAction pl => simp only [opPreservesAlignment] at hop; exact Bool.noConfusion hop
  | updateTrigger pl => simp only [opPreservesAlignment] at hop; exact Bool.noConfusion hop
  | duplicateAction n => simp only [opPreservesAlignment] at hop; exact Bool.noConfusion hop
  | duplicateBranch n i => simp only [opPreservesAlignment] at hop; exact Bool.noConfusion hop

/-- C3 (witness): the amended theorem applied to an aligned flow with a
two-branch router and `ADD_BRANCH` at index 1, all hypotheses evaluated
by `decide`. -/
theorem claim_C3_witness :
    (getAllSteps exFlowC4.trigger).all routerAligned = true ∧
    opPreservesAlignment (.addBranch "r" 1) exFlowC4 = true ∧
    applyF exFlowC4 (.addBranch "r" 1) = .ok gC3w ∧
    (getAllSteps gC3w.trigger).all routerAligned = true :=
  ⟨by decide, by decide, by decide,
    claim_C3_amended exFlowC4 (.addBranch "r" 1) gC3w (by decide) (by decide)
      (by decide)⟩

theorem delOpt_id_of (n : String) (o : Option FStep)
    (hnm : ∀ u ∈ traverseOpt o, u.name ≠ n)
    (ih : ∀ s, o = some s → (∀ u ∈ traverseStep s, u.name ≠ n) →
      delOpt n (some s) = some s) :
    delOpt n o = o := by
  cases o with
  | none => rfl
  | some s => exact ih s rfl hnm

theorem delChildren_id_of (n : String) : ∀ (l : List (Option FStep)),
    (∀ u ∈ traverseChildren l, u.name ≠ n) →
    (∀ s, some s ∈ l → (∀ u ∈ traverseStep s, u.name ≠ n) →
      delOpt n (some s) = some s) →
    delChildren n l = l := by
  intro l
  induction l with
  | nil => intro _ _; rfl
  | cons c cs ihl =>
      intro hnm ih
      simp only [delChildren]
      rw [delOpt_id_of n c
          (fun u hu => hnm u (by
            simp only [traverseChildren]
            exact List.mem_append.mpr (Or.inl hu)))
          (fun s hs => ih s (by rw [hs]; exact List.mem_cons_self _ _)),
        ihl (fun u hu => hnm u (by
            simp only [traverseChildren]
            exact List.mem_append.mpr (Or.inr hu)))
          (fun s hs => ih s (List.mem_cons_of_mem _ hs))]

/-- `deleteAction` of a name that occurs nowhere in the subtree leaves the
subtree unchanged. -/
theorem delStep_id (n : String) : ∀ s,
    (∀ u ∈ traverseStep s, u.name ≠ n) →
    delStep n s = s ∧ delOpt n (some s) = some s := by
  intro s
  induction s using FStep.inductionOn with
  | hsimple t c nx ih =>
      intro hnm
      have hself : ¬(c.name = n) :=
        hnm (FStep.simple t c nx) (mem_traverseStep_self _)
      have hnmn : ∀ u ∈ traverseOpt nx, u.name ≠ n := fun u hu => hnm u (by
        simp only [traverseStep]; exact List.mem_cons_of_mem _ hu)
      have ihd : ∀ s', nx = some s' → (∀ u ∈ traverseStep s', u.name ≠ n) →
          delOpt n (some s') = some s' := fun s' hs' => (by
        intro hz
        exact ((ih s' hs') hz).2)
      have hd : delOpt n nx = nx := delOpt_id_of n nx hnmn ihd
      constructor
      · simp only [delStep, hd]
      · simp only [delOpt, hd]
        rw [if_neg hself]
  | hloop c b nx ihb ihnx =>
      intro hnm
      have hself : ¬(c.name = n) :=
        hnm (FStep.loopOnItems c b nx) (mem_traverseStep_self _)
      have hnmb : ∀ u ∈ traverseOpt b, u.name ≠ n := fun u hu => hnm u (by
        simp only [traverseStep]
        exact List.mem_cons_of_mem _ (List.mem_append.mpr (Or.inl hu)))
      have hnmn : ∀ u ∈ traverseOpt nx, u.name ≠ n := fun u hu => hnm u (by
        simp only [traverseStep]
        exact List.mem_cons_of_mem _ (List.mem_append.mpr (Or.inr hu)))
      have hb : delOpt n b = b := delOpt_id_of n b hnmb
        (fun s' hs' hz => ((ihb s' hs') hz).2)
      have hd : delOpt n nx = nx := delOpt_id_of n nx hnmn
        (fun s' hs' hz => ((ihnx s' hs') hz).2)
      constructor
      · simp only [delStep, hb, hd]
      · simp only [delOpt, hb, hd]
        rw [if_neg hself]
  | hbranch c os f nx ihos ihf ihnx =>
      intro hnm
      have hself : ¬(c.name = n) :=
        hnm (FStep.branch c os f nx) (mem_traverseStep_self _)
      have hnmos : ∀ u ∈ traverseOpt os, u.name ≠ n := fun u hu => hnm u (by
        simp only [traverseStep]
        exact List.mem_cons_of_mem _
          (List.mem_append.mpr (Or.inl (List.mem_append.mpr (Or.inl hu)))))
      have hnmf : ∀ u ∈ traverseOpt f, u.name ≠ n := fun u hu => hnm u (by
        simp only [traverseStep]
        exact List.mem_cons_of_mem _
          (List.mem_append.mpr (Or.inl (List.mem_append.mpr (Or.inr hu)))))
      have hnmn : ∀ u ∈ traverseOpt nx, u.name ≠ n := fun u hu => hnm u (by
        simp only [traverseStep]
        exact List.mem_cons_of_mem _ (List.mem_append.mpr (Or.inr hu)))
      have hos : delOpt n os = os := delOpt_id_of n os hnmos
        (fun s' hs' hz => ((ihos s' hs') hz).2)
      have hf : delOpt n f = f := delOpt_id_of n f hnmf
        (fun s' hs' hz => ((ihf s' hs') hz).2)
      have hd : delOpt n nx = nx := delOpt_id_of n nx hnmn
        (fun s' hs' hz => ((ihnx s' hs') hz).2)
      constructor
      · simp only [delStep, hos, hf, hd]
      · simp only [delOpt, hos, hf, hd]
        rw [if_neg hself]
  | hrouter c ch nx ihch ihnx =>
      intro hnm
      have hself : ¬(c.name = n) :=
        hnm (FStep.router c ch nx) (mem_traverseStep_self _)
      have hnmch : ∀ u ∈ traverseChildren ch, u.name ≠ n := fun u hu => hnm u (by
        simp only [traverseStep]
        exact List.mem_cons_of_mem _ (List.mem_append.mpr (Or.inl hu)))
      have hnmn : ∀ u ∈ traverseOpt nx, u.name ≠ n := fun u hu => hnm u (by
        simp only [traverseStep]
        exact List.mem_cons_of_mem _ (List.mem_append.mpr (Or.inr hu)))
      have hch : delChildren n ch = ch := delChildren_id_of n ch hnmch
        (fun s' hs' hz => ((ihch s' hs') hz).2)
      have hd : delOpt n nx = nx := delOpt_id_of n nx hnmn
        (fun s' hs' hz => ((ihnx s' hs') hz).2)
      constructor
      · simp only [delStep, hch, hd]
      · simp only [delOpt, hch, hd]
        rw [if_neg hself]

theorem addOptE_id_of (req : AddActionRequest)
    (ctx : Option (List (Option FStep))) (o : Option FStep)
    (hnm : ∀ u ∈ traverseOpt o, u.name ≠ req.parentStep)
    (ih : ∀ s, o = some s → (∀ u ∈ traverseStep s, u.name ≠ req.parentStep) →
      addStepE req ctx s = .ok s) :
    addOptE req ctx o = .ok o := by
  cases o with
  | none => rfl
  | some s =>
      simp only [addOptE]
      rw [ih s rfl hnm, exBind_ok, exPure_eq_ok]

theorem addChildrenE_id_of (req : AddActionRequest)
    (ctx : Option (List (Option FStep))) : ∀ (l : List (Option FStep)),
    (∀ u ∈ traverseChildren l, u.name ≠ req.parentStep) →
    (∀ s, some s ∈ l → (∀ u ∈ traverseStep s, u.name ≠ req.parentStep) →
      addStepE req ctx s = .ok s) →
    addChildrenE req ctx l = .ok l := by
  intro l
  induction l with
  | nil => intro _ _; rfl
  | cons c cs ihl =>
      intro hnm ih
      simp only [addChildrenE]
      rw [addOptE_id_of req ctx c
          (fun u hu => hnm u (by
            simp only [traverseChildren]
            exact List.mem_append.mpr (Or.inl hu)))
          (fun s hs => ih s (by rw [hs]; exact List.mem_cons_self _ _)),
        exBind_ok,
        ihl (fun u hu => hnm u (by
            simp only [traverseChildren]
            exact List.mem_append.mpr (Or.inr hu)))
          (fun s hs => ih s (List.mem_cons_of_mem _ hs)),
        exBind_ok, exPure_eq_ok]

/-- `addAction` whose parent name occurs nowhere in the subtree leaves the
subtree unchanged. -/
theorem addStepE_id (req : AddActionRequest)
    (ctx : Option (List (Option FStep))) : ∀ s,
    (∀ u ∈ traverseStep s, u.name ≠ req.parentStep) →
    addStepE req ctx s = .ok s := by
  intro s
  induction s using FStep.inductionOn with
  | hsimple t c nx ih =>
      intro hnm
      have hself : ¬(c.name = req.parentStep) :=
        hnm (FStep.simple t c nx) (mem_traverseStep_self _)
      have hnmn : ∀ u ∈ traverseOpt nx, u.name ≠ req.parentStep :=
        fun u hu => hnm u (by
          simp only [traverseStep]; exact List.mem_cons_of_mem _ hu)
      simp only [addStepE]
      rw [if_neg hself, addOptE_id_of req ctx nx hnmn ih, exBind_ok,
        exPure_eq_ok]
  | hloop c b nx ihb ihnx =>
      intro hnm
      have hself : ¬(c.name = req.parentStep) :=
        hnm (FStep.loopOnItems c b nx) (mem_traverseStep_self _)
      have hnmb : ∀ u ∈ traverseOpt b, u.name ≠ req.parentStep :=
        fun u hu => hnm u (by
          simp only [traverseStep]
          exact List.mem_cons_of_mem _ (List.mem_append.mpr (Or.inl hu)))
      have hnmn : ∀ u ∈ traverseOpt nx, u.name ≠ req.parentStep :=
        fun u hu => hnm u (by
          simp only [traverseStep]
          exact List.mem_cons_of_mem _ (List.mem_append.mpr (Or.inr hu)))
      simp only [addStepE]
      rw [if_neg hself, addOptE_id_of req ctx b hnmb ihb, exBind_ok,
        addOptE_id_of req ctx nx hnmn ihnx, exBind_ok, exPure_eq_ok]
  | hbranch c os f nx ihos ihf ihnx =>
      intro hnm
      have hself : ¬(c.name = req.parentStep) :=
        hnm (FStep.branch c os f nx) (mem_traverseStep_self _)
      have hnmos : ∀ u ∈ traverseOpt os, u.name ≠ req.parentStep :=
        fun u hu => hnm u (by
          simp only [traverseStep]
          exact List.mem_cons_of_mem _
            (List.mem_append.mpr (Or.inl (List.mem_append.mpr (Or.inl hu)))))
      have hnmf : ∀ u ∈ traverseOpt f, u.name ≠ req.parentStep :=
        fun u hu => hnm u (by
          simp only [traverseStep]
          exact List.mem_cons_of_mem _
            (List.mem_append.mpr (Or.inl (List.mem_append.mpr (Or.inr hu)))))
      have hnmn : ∀ u ∈ traverseOpt nx, u.name ≠ req.parentStep :=
        fun u hu => hnm u (by
          simp only [traverseStep]
          exact List.mem_cons_of_mem _ (List.mem_append.mpr (Or.inr hu)))
      simp only [addStepE]
      rw [if_neg hself, addOptE_id_of req ctx os hnmos ihos, exBind_ok,
        addOptE_id_of req ctx f hnmf ihf, exBind_ok,
        addOptE_id_of req ctx nx hnmn ihnx, exBind_ok, exPure_eq_ok]
  | hrouter c ch nx ihch ihnx =>
      intro hnm
      have hself : ¬(c.name = req.parentStep) :=
        hnm (FStep.router c ch nx) (mem_traverseStep_self _)
      have hnmch : ∀ u ∈ traverseChildren ch, u.name ≠ req.parentStep :=
        fun u hu => hnm u (by
          simp only [traverseStep]
          exact List.mem_cons_of_mem _ (List.mem_append.mpr (Or.inl hu)))
      have hnmn : ∀ u ∈ traverseOpt nx, u.name ≠ req.parentStep :=
        fun u hu => hnm u (by
          simp only [traverseStep]
          exact List.mem_cons_of_mem _ (List.mem_append.mpr (Or.inr hu)))
      simp only [addStepE]
      rw [if_neg hself, addChildrenE_id_of req ctx ch hnmch ihch, exBind_ok,
        addOptE_id_of req ctx nx hnmn ihnx, exBind_ok, exPure_eq_ok]

/-- C9 (counterexample): moving `S` to `AFTER` its own predecessor `A`
succeeds and returns a flow identical to the input — the re-added copy of
`S` receives the destination slot's previous content `T` as its
`nextAction`, so the copy carries `S`'s former next chain, refuting the
claim that it never does. -/
theorem claim_C9_counterexample :
    applyF exFlowC9cex (.moveAction reqC9cex) = .ok exFlowC9cex ∧
    stepNextName exFlowC9cex "S" = some (some "T") :=
  ⟨by decide, by decide⟩

/-- C9 (amended): for a move whose destination lies outside the source's
former next chain — here `t → L (empty loop) → S → tail` with `S` moved
`INSIDE_LOOP` of `L`, for any `tail` not containing the names `S`, `L` —
the chain that followed `S` is spliced into the slot that previously
pointed at `S` (it becomes the loop's `nextAction`), and the copy of `S`
inserted under the new parent carries none of that chain (its
`nextAction` is cleared). -/
theorem claim_C9_amended (tail : Option FStep)
    (h1 : ∀ u ∈ traverseOpt tail, u.name ≠ "S")
    (h2 : ∀ u ∈ traverseOpt tail, u.name ≠ "L") :
    applyF (fvC9 tail) (.moveAction reqC9) = .ok (gC9 tail) ∧
    (fvC9 tail).trigger.next =
      some (.loopOnItems (plainCore "L") none
        (some (.simple .actionCode (plainCore "S") tail))) ∧
    (gC9 tail).trigger.next =
      some (.loopOnItems (plainCore "L")
        (some (.simple .actionCode (plainCore "S") none)) tail) := by
  refine ⟨?_, rfl, rfl⟩
  cases tail with
  | none => decide
  | some s2 =>
      have hid1 := (delStep_id "S" s2 (fun u hu => h1 u hu)).1
      have hid2 := addStepE_id
        ⟨"L", some .insideLoop, none, none,
          .simple .actionCode (plainCore "S") (some s2)⟩ none s2
        (fun u hu => h2 u hu)
      simp only [plainCore] at hid1 hid2
      simp [applyF, moveActionE, reqC9, fvC9, gC9, gC9trigger, getAllSteps,
        traverseStep, traverseOpt, traverseChildren, List.find?, List.foldlM,
        deleteActionF, delStep, delOpt, delTail, addActionE, addStepE,
        addOptE, createActionF, importOpsStep, plainCore, FStep.name,
        FStep.core, FStep.isAction, FStep.withNext, Except.map,
        actionSchemaCheck, exBind_ok, exBind_err,
        exPure_eq_ok, hid1, hid2]

/-- C9 (witness): the amended theorem applied with `tail = some T`, the
name-freshness hypotheses evaluated by `decide`. -/
theorem claim_C9_witness :
    applyF (fvC9 (some (.simple .actionCode (plainCore "T") none)))
        (.moveAction reqC9) =
      .ok (gC9 (some (.simple .actionCode (plainCore "T") none))) ∧
    (gC9 (some (.simple .actionCode (plainCore "T") none))).trigger.next =
      some (.loopOnItems (plainCore "L")
        (some (.simple .actionCode (plainCore "S") none))
        (some (.simple .actionCode (plainCore "T") none))) := by
  have h := claim_C9_amended (some (.simple .actionCode (plainCore "T") none))
    (by decide) (by decide)
  exact ⟨h.1, h.2.2⟩

theorem chainCtx_append : ∀ (pre : List (LeafType × StepCore))
    (z : LeafType × StepCore) (hole : FStep),
    chainCtx (pre ++ [z]) hole = chainCtx pre (.simple z.1 z.2 (some hole)) := by
  intro pre
  induction pre with
  | nil => intro z hole; rfl
  | cons w pres ih =>
      intro z hole
      show FStep.simple w.1 w.2 (some (chainCtx (pres ++ [z]) hole)) =
        FStep.simple w.1 w.2 (some (chainCtx pres
          (FStep.simple z.1 z.2 (some hole))))
      rw [ih]

theorem strip_buildChain (z : LeafType × StepCore) :
    ∀ (rest : List (LeafType × StepCore)),
    removeAnySubsequentAction (buildChain z rest) = .simple z.1 z.2 none := by
  intro rest
  cases rest <;> rfl

theorem core_valid_and_true (c : StepCore) :
    { c with valid := c.valid && true } = c := by
  cases c
  simp

/-- `createAction` on a simple action payload: the common fields are
copied, the requested `nextAction` attached, and `valid` recomputed (the
schema check is constantly true, so `valid` is unchanged). -/
theorem createActionF_chain (plt : LeafType) (hact : actionLeaf plt = true)
    (plc : StepCore) (plnx nx0 : Option FStep)
    (ctx : Option (List (Option FStep))) :
    createActionF (.simple plt plc plnx) nx0 none none none ctx =
      .ok (.simple plt plc nx0) := by
  cases plt with
  | actionCode =>
      show Except.ok (FStep.simple LeafType.actionCode
          { plc with valid := plc.valid && true } nx0) =
        Except.ok (FStep.simple LeafType.actionCode plc nx0)
      rw [core_valid_and_true]
  | actionPiece =>
      show Except.ok (FStep.simple LeafType.actionPiece
          { plc with valid := plc.valid && true } nx0) =
        Except.ok (FStep.simple LeafType.actionPiece plc nx0)
      rw [core_valid_and_true]
  | triggerEmpty => exact Bool.noConfusion hact
  | triggerPiece => exact Bool.noConfusion hact

theorem upgradeStepCoreE_false (nm : String) (c : StepCore) :
    upgradeStepCoreE false nm c = .ok c := by
  unfold upgradeStepCoreE
  split <;> rfl

theorem upgradeStepCoreE_other (pt : Bool) (nm : String) (c : StepCore)
    (hne : c.name ≠ nm) : upgradeStepCoreE pt nm c = .ok c := by
  unfold upgradeStepCoreE
  rw [if_neg hne]

/-- `addAction` with an absent location walks down a chain to the unique
node named `p` (the chain's last node) and attaches the payload `AFTER`
it. -/
theorem addStepE_chain_nav (plt : LeafType) (hact : actionLeaf plt = true)
    (plc : StepCore) (plnx : Option FStep) (p : String)
    (qt : LeafType) (qc : StepCore) (hq : qc.name = p) :
    ∀ (pre : List (LeafType × StepCore)), (∀ z ∈ pre, z.2.name ≠ p) →
    addStepE ⟨p, none, none, none, .simple plt plc plnx⟩ none
        (chainCtx pre (.simple qt qc none)) =
      .ok (chainCtx pre
        (.simple qt qc (some (.simple plt plc none)))) := by
  intro pre
  induction pre with
  | nil =>
      intro _
      show addStepE _ none (.simple qt qc none) = _
      simp only [addStepE]
      rw [if_pos hq, createActionF_chain plt hact plc plnx none none,
        exBind_ok]
      rfl
  | cons w pres ih =>
      intro hz
      show addStepE _ none
          (.simple w.1 w.2 (some (chainCtx pres (.simple qt qc none)))) = _
      simp only [addStepE]
      rw [if_neg (hz w (List.mem_cons_self _ _))]
      simp only [addOptE]
      rw [ih (fun z hzz => hz z (List.mem_cons_of_mem _ hzz)), exBind_ok,
        exPure_eq_ok, exBind_ok, exPure_eq_ok]
      rfl

theorem upgradeOptE_id_of (nm : String) (o : Option FStep)
    (ih : ∀ s, o = some s → (∀ u ∈ traverseStep s,
        upgradeStepCoreE u.isPieceType nm u.core = .ok u.core) →
      upgradeTreeE nm s = .ok s)
    (hfix : ∀ u ∈ traverseOpt o,
      upgradeStepCoreE u.isPieceType nm u.core = .ok u.core) :
    upgradeOptE nm o = .ok o := by
  cases o with
  | none => rfl
  | some s =>
      simp only [upgradeOptE]
      rw [ih s rfl hfix, exBind_ok, exPure_eq_ok]

theorem upgradeChildrenE_id_of (nm : String) : ∀ (l : List (Option FStep)),
    (∀ s, some s ∈ l → (∀ u ∈ traverseStep s,
        upgradeStepCoreE u.isPieceType nm u.core = .ok u.core) →
      upgradeTreeE nm s = .ok s) →
    (∀ u ∈ traverseChildren l,
      upgradeStepCoreE u.isPieceType nm u.core = .ok u.core) →
    upgradeChildrenE nm l = .ok l := by
  intro l
  induction l with
  | nil => intro _ _; rfl
  | cons c cs ihl =>
      intro ih hfix
      simp only [upgradeChildrenE]
      rw [upgradeOptE_id_of nm c
          (fun s hs => ih s (by rw [hs]; exact List.mem_cons_self _ _))
          (fun u hu => hfix u (by
            simp only [traverseChildren]
            exact List.mem_append.mpr (Or.inl hu))),
        exBind_ok,
        ihl (fun s hs => ih s (List.mem_cons_of_mem _ hs))
          (fun u hu => hfix u (by
            simp only [traverseChildren]
            exact List.mem_append.mpr (Or.inr hu))),
        exBind_ok, exPure_eq_ok]

/-- A targeted `upgradePiece` pass is the identity when every node of the
tree is a fixed point of the targeted core rewrite (nodes with other
names are fixed automatically). -/
theorem upgradeTreeE_id (nm : String) : ∀ s,
    (∀ u ∈ traverseStep s,
      upgradeStepCoreE u.isPieceType nm u.core = .ok u.core) →
    upgradeTreeE nm s = .ok s := by
  intro s
  induction s using FStep.inductionOn with
  | hsimple t c nx ih =>
      intro hfix
      have hself := hfix (.simple t c nx) (mem_traverseStep_self _)
      rw [isPieceType_simple] at hself
      have hself2 : upgradeStepCoreE t.pieceTyped nm c = .ok c := hself
      simp only [upgradeTreeE]
      rw [hself2, exBind_ok,
        upgradeOptE_id_of nm nx ih (fun u hu => hfix u (by
          simp only [traverseStep]; exact List.mem_cons_of_mem _ hu)),
        exBind_ok, exPure_eq_ok]
  | hloop c b nx ihb ihnx =>
      intro hfix
      simp only [upgradeTreeE]
      rw [upgradeStepCoreE_false, exBind_ok,
        upgradeOptE_id_of nm b ihb (fun u hu => hfix u (by
          simp only [traverseStep]
          exact List.mem_cons_of_mem _ (List.mem_append.mpr (Or.inl hu)))),
        exBind_ok,
        upgradeOptE_id_of nm nx ihnx (fun u hu => hfix u (by
          simp only [traverseStep]
          exact List.mem_cons_of_mem _ (List.mem_append.mpr (Or.inr hu)))),
        exBind_ok, exPure_eq_ok]
  | hbranch c os f nx ihos ihf ihnx =>
      intro hfix
      simp only [upgradeTreeE]
      rw [upgradeStepCoreE_false, exBind_ok,
        upgradeOptE_id_of nm os ihos (fun u hu => hfix u (by
          simp only [traverseStep]
          exact List.mem_cons_of_mem _
            (List.mem_append.mpr (Or.inl (List.mem_append.mpr (Or.inl hu)))))),
        exBind_ok,
        upgradeOptE_id_of nm f ihf (fun u hu => hfix u (by
          simp only [traverseStep]
          exact List.mem_cons_of_mem _
            (List.mem_append.mpr (Or.inl (List.mem_append.mpr (Or.inr hu)))))),
        exBind_ok,
        upgradeOptE_id_of nm nx ihnx (fun u hu => hfix u (by
          simp only [traverseStep]
          exact List.mem_cons_of_mem _ (List.mem_append.mpr (Or.inr hu)))),
        exBind_ok, exPure_eq_ok]
  | hrouter c ch nx ihch ihnx =>
      intro hfix
      simp only [upgradeTreeE]
      rw [upgradeStepCoreE_false, exBind_ok,
        upgradeChildrenE_id_of nm ch ihch (fun u hu => hfix u (by
          simp only [traverseStep]
          exact List.mem_cons_of_mem _ (List.mem_append.mpr (Or.inl hu)))),
        exBind_ok,
        upgradeOptE_id_of nm nx ihnx (fun u hu => hfix u (by
          simp only [traverseStep]
          exact List.mem_cons_of_mem _ (List.mem_append.mpr (Or.inr hu)))),
        exBind_ok, exPure_eq_ok]

/-- A property of every step reachable in a chain context, from the
property at the hole and at each chain node. -/
theorem chainCtx_fix (P : FStep → Prop) (hole : FStep)
    (hhole : ∀ u ∈ traverseStep hole, P u) :
    ∀ (pre : List (LeafType × StepCore)),
    (∀ z ∈ pre, ∀ nx, P (.simple z.1 z.2 nx)) →
    ∀ u ∈ traverseStep (chainCtx pre hole), P u := by
  intro pre
  induction pre with
  | nil => intro _ u hu; exact hhole u hu
  | cons z pres ih =>
      intro hz u hu
      show P u
      simp only [chainCtx, traverseStep] at hu
      rcases List.mem_cons.mp hu with rfl | hu2
      · exact hz z (List.mem_cons_self _ _) _
      · exact ih (fun z' hz' => hz z' (List.mem_cons_of_mem _ hz')) u hu2

theorem flowVersion_valid_eta (fv : FlowVersion) (v : Bool) (h : fv.valid = v) :
    { fv with valid := v } = fv := by
  cases fv with
  | mk a b c d =>
      have h2 : d = v := h
      rw [← h2]

/-- A successful `applyAddOp` leaves `flow.valid` equal to `isValid` of
its trigger. -/
theorem applyAddOp_valid (fv fv1 : FlowVersion) (req : AddActionRequest)
    (h : applyAddOp fv req = .ok fv1) :
    fv1.valid = isValidT fv1.trigger := by
  simp only [applyAddOp, addActionE] at h
  cases hadd : addStepE req none fv.trigger with
  | error e => simp only [hadd, exBind_err] at h; exact Except.noConfusion h
  | ok t1 =>
      simp only [hadd, exBind_ok, exPure_eq_ok] at h
      cases hup : upgradeTreeE req.action.name t1 with
      | error e => simp only [hup, exBind_err] at h; exact Except.noConfusion h
      | ok t2 =>
          simp only [hup, exBind_ok, exPure_eq_ok] at h
          rw [← Except.ok.inj h]

/-- `apply` of an `ADD_ACTION` operation is `applyAddOp`: the dispatcher's
final `valid` recomputation recomputes the value `applyAddOp` already
produced. -/
theorem applyF_addAction (fv : FlowVersion) (req : AddActionRequest) :
    applyF fv (.addAction req) = applyAddOp fv req := by
  show (applyAddOp fv req >>=
    fun fv' => pure { fv' with valid := isValidT fv'.trigger }) = applyAddOp fv req
  cases h : applyAddOp fv req with
  | error e => rw [exBind_err]
  | ok fv1 =>
      rw [exBind_ok, exPure_eq_ok,
        flowVersion_valid_eta fv1 _ (applyAddOp_valid fv fv1 req h)]

/-- Replaying `ADD_ACTION` requests through the dispatcher coincides with
folding `applyAddOp`. -/
theorem foldl_applyF_addAction : ∀ (ops : List AddActionRequest)
    (fv : FlowVersion),
    List.foldlM (fun fv2 req => applyF fv2 (.addAction req)) fv ops =
      List.foldlM applyAddOp fv ops := by
  intro ops
  induction ops with
  | nil => intro fv; rfl
  | cons r rs ih =>
      intro fv
      simp only [List.foldlM]
      rw [applyF_addAction]
      cases h : applyAddOp fv r with
      | error e => rw [exBind_err, exBind_err]
      | ok s => rw [exBind_ok, exBind_ok, ih s]

/-- Replaying the import operations of a chain of simple action steps
rebuilds the chain behind its (stripped) head, inside an arbitrary
already-built chain prefix. -/
theorem replayChain (dn : String) (st : FlowVersionState) (tt : LeafType)
    (tc : StepCore) :
    ∀ (rest : List (LeafType × StepCore)) (q : LeafType × StepCore)
      (pre : List (LeafType × StepCore)),
    (∀ a ∈ tc.name :: pre.map (fun z => z.2.name),
      ∀ b ∈ (q :: rest).map (fun z => z.2.name), a ≠ b) →
    ((q :: rest).map (fun z => z.2.name)).Nodup →
    (∀ z ∈ q :: rest,
      upgradeStepCoreE z.1.pieceTyped z.2.name z.2 = .ok z.2) →
    (∀ z ∈ rest, actionLeaf z.1 = true) →
    List.foldlM applyAddOp
      { displayName := dn, state := st
        trigger := .simple tt tc (some (chainCtx pre (.simple q.1 q.2 none)))
        valid := isValidT (.simple tt tc
          (some (chainCtx pre (.simple q.1 q.2 none)))) }
      (importOpsStep (buildChain q rest)) =
    .ok { displayName := dn, state := st
          trigger := .simple tt tc (some (chainCtx pre (buildChain q rest)))
          valid := isValidT (.simple tt tc
            (some (chainCtx pre (buildChain q rest)))) } := by
  intro rest
  induction rest with
  | nil => intro q pre _ _ _ _; rfl
  | cons q' rest' ih =>
      intro q pre hdisj hnodup hup hact
      simp only [List.map_cons] at hdisj hnodup
      have hops : importOpsStep (buildChain q (q' :: rest')) =
          ⟨q.2.name, none, none, none, .simple q'.1 q'.2 none⟩
            :: importOpsStep (buildChain q' rest') := by
        show emitNextOp q.2.name (some (buildChain q' rest')) ++
            importOpsOpt (some (buildChain q' rest')) = _
        rw [show emitNextOp q.2.name (some (buildChain q' rest')) =
          [⟨q.2.name, none, none, none,
            removeAnySubsequentAction (buildChain q' rest')⟩] from rfl]
        rw [strip_buildChain]
        rfl
      rw [hops]
      simp only [List.foldlM]
      -- names that must differ from the anchor q
      have hqtc : tc.name ≠ q.2.name :=
        hdisj tc.name (List.mem_cons_self _ _) q.2.name (List.mem_cons_self _ _)
      have hqpre : ∀ z ∈ pre, z.2.name ≠ q.2.name := fun z hz =>
        hdisj z.2.name (List.mem_cons_of_mem _ (List.mem_map_of_mem _ hz))
          q.2.name (List.mem_cons_self _ _)
      -- navigation: the ADD_ACTION lands after the chain's last node
      have hnav := addStepE_chain_nav q'.1 (hact q' (List.mem_cons_self _ _))
        q'.2 none q.2.name q.1 q.2 rfl ((tt, tc) :: pre)
        (by
          intro z hz
          rcases List.mem_cons.mp hz with rfl | hz2
          · exact hqtc
          · exact hqpre z hz2)
      have hnav2 : addStepE
          ⟨q.2.name, none, none, none, .simple q'.1 q'.2 none⟩ none
          (.simple tt tc (some (chainCtx pre (.simple q.1 q.2 none)))) =
        .ok (.simple tt tc (some (chainCtx pre
          (.simple q.1 q.2 (some (.simple q'.1 q'.2 none)))))) := hnav
      -- the targeted upgrade pass is the identity on the grown tree
      have hfixall : ∀ u ∈ traverseStep
          (FStep.simple tt tc (some (chainCtx pre
            (.simple q.1 q.2 (some (.simple q'.1 q'.2 none)))))),
          upgradeStepCoreE u.isPieceType q'.2.name u.core = .ok u.core := by
        have hhole : ∀ u ∈ traverseStep
            (FStep.simple q.1 q.2 (some (.simple q'.1 q'.2 none))),
            upgradeStepCoreE u.isPieceType q'.2.name u.core = .ok u.core := by
          intro u hu
          simp only [traverseStep, traverseOpt] at hu
          rcases List.mem_cons.mp hu with rfl | hu2
          · have hqq' : q.2.name ≠ q'.2.name := fun heq =>
              (List.nodup_cons.mp hnodup).1 (heq ▸ List.mem_cons_self _ _)
            exact upgradeStepCoreE_other _ _ _ hqq'
          · rcases List.mem_cons.mp hu2 with rfl | hu3
            · have hq' := hup q' (List.mem_cons_of_mem _ (List.mem_cons_self _ _))
              rw [← isPieceType_simple q'.1 q'.2 none] at hq'
              exact hq'
            · exact absurd hu3 (List.not_mem_nil u)
        have hpreP : ∀ z ∈ (tt, tc) :: pre, ∀ nx,
            upgradeStepCoreE (FStep.simple z.1 z.2 nx).isPieceType q'.2.name
              (FStep.simple z.1 z.2 nx).core =
            .ok (FStep.simple z.1 z.2 nx).core := by
          intro z hz nx
          rcases List.mem_cons.mp hz with rfl | hz2
          · exact upgradeStepCoreE_other _ _ _
              (hdisj tc.name (List.mem_cons_self _ _) q'.2.name
                (List.mem_cons_of_mem _ (List.mem_cons_self _ _)))
          · exact upgradeStepCoreE_other _ _ _
              (hdisj z.2.name
                (List.mem_cons_of_mem _ (List.mem_map_of_mem _ hz2))
                q'.2.name
                (List.mem_cons_of_mem _ (List.mem_cons_self _ _)))
        exact chainCtx_fix
          (fun u => upgradeStepCoreE u.isPieceType q'.2.name u.core = .ok u.core)
          (.simple q.1 q.2 (some (.simple q'.1 q'.2 none))) hhole
          ((tt, tc) :: pre) hpreP
      have hupgid := upgradeTreeE_id q'.2.name
        (.simple tt tc (some (chainCtx pre
          (.simple q.1 q.2 (some (.simple q'.1 q'.2 none)))))) hfixall
      -- one applyAddOp step
      have happ : applyAddOp
          { displayName := dn, state := st
            trigger := .simple tt tc
              (some (chainCtx pre (.simple q.1 q.2 none)))
            valid := isValidT (.simple tt tc
              (some (chainCtx pre (.simple q.1 q.2 none)))) }
          ⟨q.2.name, none, none, none, .simple q'.1 q'.2 none⟩ =
        .ok { displayName := dn, state := st
              trigger := .simple tt tc (some (chainCtx pre
                (.simple q.1 q.2 (some (.simple q'.1 q'.2 none)))))
              valid := isValidT (.simple tt tc (some (chainCtx pre
                (.simple q.1 q.2 (some (.simple q'.1 q'.2 none)))))) } := by
        simp only [applyAddOp, addActionE]
        rw [hnav2, exBind_ok, exPure_eq_ok, exBind_ok]
        rw [show (⟨q.2.name, none, none, none,
            (.simple q'.1 q'.2 none : FStep)⟩ : AddActionRequest).action.name =
          q'.2.name from rfl]
        rw [hupgid, exBind_ok, exPure_eq_ok]
      rw [happ, exBind_ok]
      -- re-express the grown prefix and apply the induction hypothesis
      have hstep := ih q' (pre ++ [q])
        (by
          intro a ha b hb
          have hb2 : b ∈ q'.2.name :: List.map (fun z => z.2.name) rest' := by
            simpa using hb
          have hb' : b ∈ q.2.name :: q'.2.name ::
              List.map (fun z => z.2.name) rest' := List.mem_cons_of_mem _ hb2
          rcases List.mem_cons.mp ha with ha1 | ha2
          · exact hdisj a (by rw [ha1]; exact List.mem_cons_self _ _) b hb'
          · rw [List.map_append] at ha2
            rcases List.mem_append.mp ha2 with ha3 | ha4
            · exact hdisj a (List.mem_cons_of_mem _ ha3) b hb'
            · have ha5 : a = q.2.name := by
                simpa using ha4
              rw [ha5]
              intro heq
              exact absurd (heq ▸ hb2) (List.nodup_cons.mp hnodup).1
        )
        (List.nodup_cons.mp hnodup).2
        (fun z hz => hup z (List.mem_cons_of_mem _ hz))
        (fun z hz => hact z (List.mem_cons_of_mem _ hz))
      simp only [chainCtx_append] at hstep
      exact hstep

/-- C1 (counterexample): replaying the import operations of a subtree
containing a three-branch router against the flow holding the stripped
subtree does not reconstruct it — the re-added router comes back with
`children = [null, null]` instead of the original three slots, because
`apply`'s `ADD_ACTION` path calls `createAction` without a `children`
argument. -/
theorem claim_C1_counterexample :
    baseC1.trigger = .simple .triggerEmpty (plainCore "t")
      (some (removeAnySubsequentAction RC1)) ∧
    List.foldlM (fun fv req => applyF fv (.addAction req)) baseC1
      (getImportOperations (some RC1)) = .ok gBadC1 ∧
    gBadC1.trigger ≠ .simple .triggerEmpty (plainCore "t") (some RC1) :=
  ⟨rfl, by decide, by decide⟩

/-- C1 (amended): for a subtree that is a chain of `nextAction`-linked
simple action steps — no routers, loops or branches — with names distinct
from each other and from the trigger's, and piece versions that are fixed
points of `upgradePiece`, replaying `getImportOperations(R)` in order via
`apply` against a flow holding the stripped `R` behind the trigger
reconstructs the original chain exactly (with `flow.valid` recomputed by
`apply`). -/
theorem claim_C1_amended (dn : String) (st : FlowVersionState)
    (tt : LeafType) (tc : StepCore) (q : LeafType × StepCore)
    (rest : List (LeafType × StepCore))
    (hdisj : ∀ b ∈ (q :: rest).map (fun z => z.2.name), tc.name ≠ b)
    (hnodup : ((q :: rest).map (fun z => z.2.name)).Nodup)
    (hup : ∀ z ∈ q :: rest,
      upgradeStepCoreE z.1.pieceTyped z.2.name z.2 = .ok z.2)
    (hact : ∀ z ∈ rest, actionLeaf z.1 = true) :
    List.foldlM (fun fv req => applyF fv (.addAction req))
      { displayName := dn, state := st
        trigger := .simple tt tc
          (some (removeAnySubsequentAction (buildChain q rest)))
        valid := isValidT (.simple tt tc
          (some (removeAnySubsequentAction (buildChain q rest)))) }
      (getImportOperations (some (buildChain q rest))) =
    .ok { displayName := dn, state := st
          trigger := .simple tt tc (some (buildChain q rest))
          valid := isValidT (.simple tt tc (some (buildChain q rest))) } := by
  rw [foldl_applyF_addAction, strip_buildChain]
  have h := replayChain dn st tt tc rest q []
    (by
      intro a ha b hb
      have ha2 : a = tc.name := by simpa using ha
      rw [ha2]
      exact hdisj b hb)
    hnodup hup hact
  exact h

/-- C1 (witness): the amended theorem applied to the chain `a → b` behind
trigger `t`, all hypotheses evaluated by `decide`. -/
theorem claim_C1_witness :
    List.foldlM (fun fv req => applyF fv (.addAction req))
      { displayName := "f", state := .draft
        trigger := .simple .triggerEmpty (plainCore "t")
          (some (removeAnySubsequentAction (buildChain qC1 restC1)))
        valid := isValidT (.simple .triggerEmpty (plainCore "t")
          (some (removeAnySubsequentAction (buildChain qC1 restC1)))) }
      (getImportOperations (some (buildChain qC1 restC1))) =
    .ok { displayName := "f", state := .draft
          trigger := .simple .triggerEmpty (plainCore "t")
            (some (buildChain qC1 restC1))
          valid := isValidT (.simple .triggerEmpty (plainCore "t")
            (some (buildChain qC1 restC1))) } :=
  claim_C1_amended "f" .draft .triggerEmpty (plainCore "t") qC1 restC1
    (by decide) (by decide) (by decide) (by decide)

end FlowEngine
